import Mathlib

/-!
# Forward_list and its iterator: a shallow embedding

The container of `forward_list.cpp` is a chain of heap nodes anchored at a sentinel
`BaseNode` that is a member of the container object.  The embedding keeps the pointer
structure: a memory maps addresses to cells, a `BaseNode*` is an optional address
(`none` is `nullptr`), and every member function passes the memory and the fields of
the container explicitly.

Three ways for a call to end are distinguished: it returns, an exception propagates
(with the state at that point), or the behaviour is undefined (a null, dangling or
uninitialised access).  Loops that follow pointers take a fuel argument and report
its exhaustion separately.

The function `KMP` of `string/KMP.cpp` is embedded over lists of characters; its
`int` variables are natural numbers, and an increment beyond `INT_MAX` is undefined.
-/

namespace FwdList

/-! ## Exceptions, cells, memory -/

/-- The exception objects the code distinguishes through its `catch` clauses. -/
inductive Exn
  | bad_alloc      -- std::bad_alloc, derived from std::exception
  | runtime_error  -- std::runtime_error, derived from std::exception
  | std_other      -- any other class derived from std::exception
  | foreign        -- an object whose type is not derived from std::exception
  deriving DecidableEq, Repr

/-- Whether `catch (std::exception&)` matches. -/
def Exn.isStdException : Exn → Bool
  | .foreign => false
  | _ => true

/-- Whether `catch (std::bad_alloc&)` matches. -/
def Exn.isBadAlloc : Exn → Bool
  | .bad_alloc => true
  | _ => false

/-- What an address holds: a `BaseNode` (dynamic type `BaseNode`, a sentinel), a
constructed `Node`, or storage returned by `allocate` with no object in it. -/
inductive Cell (T : Type)
  | base (next : Option Nat)
  | node (next : Option Nat) (value : T)
  | raw
  deriving DecidableEq, Repr

/-- A `BaseNode*`; `none` is `nullptr`. -/
abbrev Ptr := Option Nat

/-- Memory as an association list; the first binding of an address is the current
one, an address without binding holds nothing (never allocated, or released). -/
abbrev Mem (T : Type) := List (Nat × Cell T)

/-- The cell at an address. -/
def Mem.get {T : Type} : Mem T → Nat → Option (Cell T)
  | [], _ => none
  | (k, c) :: rest, a => if a = k then some c else Mem.get rest a

/-- Store a cell at an address. -/
def Mem.set {T : Type} (m : Mem T) (a : Nat) (c : Cell T) : Mem T := (a, c) :: m

/-- Release an address. -/
def Mem.free {T : Type} : Mem T → Nat → Mem T
  | [], _ => []
  | (k, c) :: rest, a => if k = a then Mem.free rest a else (k, c) :: Mem.free rest a

/-- An address above every bound one. -/
def Mem.fresh {T : Type} : Mem T → Nat
  | [] => 0
  | (k, _) :: rest => max (k + 1) (Mem.fresh rest)

/-- How a call ends. -/
inductive Outcome (σ α : Type)
  | ret (s : σ) (a : α)        -- returns `a` in state `s`
  | throws (s : σ) (e : Exn)   -- `e` propagates to the caller, the state being `s`
  | ub                         -- undefined behaviour
  | fuelOut                    -- the fuel of a pointer-following loop ran out
  deriving DecidableEq, Repr

/-- The behaviour of the value type and of the allocator: `allocate` is
`AllocTraits::allocate(alloc, 1)` and answers with an address or an exception,
`construct` is the constructor of `T` that `AllocTraits::construct` runs on the
forwarded arguments. -/
structure Env (T A Args : Type) where
  allocate : A → Mem T → Except Exn Nat
  construct : Args → Except Exn T

/-- The fields of a container.  `fakeNode` is the address of the sentinel member,
whose `next` lives in memory like that of any other `BaseNode`.  `sz` is a
`std::size_t`; in a well-formed container it counts live nodes, which occupy
distinct storage, so `++sz` stays below `2 ^ 64` and is plain successor (the
increment of a count of `SIZE_MAX`, which only an ill-formed container has, is not
followed to 0); `--sz` wraps at zero as in the source. -/
structure Forward_list (A : Type) where
  fakeNode : Nat
  sz : Nat
  alloc : A
  deriving DecidableEq, Repr

/-- The largest `std::size_t`. -/
def SIZE_MAX : Nat := 2 ^ 64 - 1

/-! ## Primitive memory accesses -/

/-- Read `p->next`; `none` when the access is undefined. -/
def readNext {T : Type} (m : Mem T) : Ptr → Option Ptr
  | none => none
  | some a =>
    match m.get a with
    | some (.base n) => some n
    | some (.node n _) => some n
    | _ => none

/-- Execute `p->next = n`; `none` when the access is undefined. -/
def writeNext {T : Type} (m : Mem T) (p : Ptr) (n : Ptr) : Option (Mem T) :=
  match p with
  | none => none
  | some a =>
    match m.get a with
    | some (.base _) => some (m.set a (.base n))
    | some (.node _ v) => some (m.set a (.node n v))
    | _ => none

/-- Run `AllocTraits::destroy(alloc, static_cast<Node*>(p))`: the `Node` at `p` ends
its life and its storage stays allocated. -/
def destroy {T : Type} (m : Mem T) (p : Ptr) : Option (Mem T) :=
  match p with
  | none => none
  | some a =>
    match m.get a with
    | some (.node _ _) => some (m.set a .raw)
    | _ => none

/-- Run `AllocTraits::deallocate(alloc, static_cast<Node*>(p), 1)` on storage that
holds no object. -/
def deallocate {T : Type} (m : Mem T) (p : Ptr) : Option (Mem T) :=
  match p with
  | none => none
  | some a =>
    match m.get a with
    | some .raw => some (m.free a)
    | _ => none

/-- The `destroy` and `deallocate` pair the source always issues together. -/
def destroyDeallocate {T : Type} (m : Mem T) (p : Ptr) : Option (Mem T) :=
  match destroy m p with
  | none => none
  | some m1 => deallocate m1 p

/-! ## The iterator -/

/-- The class `Forward_list::iterator`: one `BaseNode*`. -/
structure iterator where
  ptr : Ptr
  deriving DecidableEq, Repr

/-- The `operator*`: `dynamic_cast<Node*>(ptr)` is null for `nullptr` and for a
`BaseNode` that is not a `Node`; then `std::runtime_error` is thrown, otherwise the
value of the node is returned. -/
def iterator.deref {T : Type} (m : Mem T) (it : iterator) : Outcome Unit T :=
  match it.ptr with
  | none => .throws () .runtime_error
  | some a =>
    match m.get a with
    | some (.base _) => .throws () .runtime_error
    | some (.node _ v) => .ret () v
    | _ => .ub

/-- The pre-increment `operator++()`: the iterator afterwards (which is also what is
returned); `none` when `ptr->next` is an undefined access. -/
def iterator.preInc {T : Type} (m : Mem T) (it : iterator) : Option iterator :=
  match it.ptr with
  | none => some it
  | some a =>
    match readNext m (some a) with
    | none => none
    | some n => some ⟨n⟩

/-- The post-increment `operator++(int)`: the returned iterator and the iterator
afterwards. -/
def iterator.postInc {T : Type} (m : Mem T) (it : iterator) : Option (iterator × iterator) :=
  match it.ptr with
  | none => some (⟨none⟩, it)
  | some a =>
    match readNext m (some a) with
    | none => none
    | some n => some (⟨some a⟩, ⟨n⟩)

/-! ## The container -/

/-- The constructor `Forward_list(const Alloc& alloc)`, run on the storage at `self`. -/
def Forward_list.default_ctor {T A : Type} (m : Mem T) (self : Nat) (alloc : A) :
    Mem T × Forward_list A :=
  (m.set self (.base none), { fakeNode := self, sz := 0, alloc := alloc })

/-- Member `before_begin()`. -/
def Forward_list.before_begin {A : Type} (l : Forward_list A) : iterator :=
  ⟨some l.fakeNode⟩

/-- Member `begin()`: reads `fakeNode.next`. -/
def Forward_list.begin {T A : Type} (m : Mem T) (l : Forward_list A) : Option iterator :=
  match readNext m (some l.fakeNode) with
  | none => none
  | some n => some ⟨n⟩

/-- Member `end()`. -/
def Forward_list.end_ {A : Type} (_l : Forward_list A) : iterator :=
  ⟨none⟩

/-- Member `empty()`. -/
def Forward_list.empty {A : Type} (l : Forward_list A) : Bool :=
  l.sz == 0

/-- The `while (nextNode != nullptr)` loop of `clear`; returns the final
`currentNode`. -/
def clearLoop {T : Type} : Nat → Mem T → Ptr → Ptr → Outcome (Mem T) Ptr
  | 0, _, _, _ => .fuelOut
  | fuel + 1, m, currentNode, nextNode =>
    match nextNode with
    | none => .ret m currentNode
    | some n =>
      match destroyDeallocate m currentNode with
      | none => .ub
      | some m1 =>
        match readNext m1 (some n) with
        | none => .ub
        | some nn => clearLoop fuel m1 (some n) nn

/-- Member `clear()`. -/
def Forward_list.clear {T A : Type} (fuel : Nat) (m : Mem T) (l : Forward_list A) :
    Outcome (Mem T × Forward_list A) Unit :=
  if l.sz ≠ 0 then
    match readNext m (some l.fakeNode) with
    | none => .ub
    | some currentNode =>
      match readNext m currentNode with
      | none => .ub
      | some nextNode =>
        match clearLoop fuel m currentNode nextNode with
        | .ret m1 cur =>
          match destroyDeallocate m1 cur with
          | none => .ub
          | some m2 => .ret (m2, { l with sz := 0 }) ()
        | .throws _ e => .throws (m, l) e
        | .ub => .ub
        | .fuelOut => .fuelOut
  else .ret (m, l) ()

/-- Member `insert_after(position, args...)`. -/
def Forward_list.insert_after {T A Args : Type} (env : Env T A Args) (m : Mem T)
    (l : Forward_list A) (position : iterator) (args : Args) :
    Outcome (Mem T × Forward_list A) iterator :=
  let current := position.ptr
  match readNext m current with
  | none => .ub
  | some next =>
    match env.allocate l.alloc m with
    | .error e => .throws (m, l) e
    | .ok q =>
      match writeNext (m.set q .raw) current (some q) with
      | none => .ub
      | some m2 =>
        match env.construct args with
        | .error e =>
          if e.isStdException then
            match deallocate m2 (some q) with
            | none => .ub
            | some m3 =>
              match writeNext m3 current next with
              | none => .ub
              | some m4 => .throws (m4, l) e
          else .throws (m2, l) e
        | .ok v =>
          match writeNext (m2.set q (.node none v)) (some q) next with
          | none => .ub
          | some m4 => .ret (m4, { l with sz := l.sz + 1 }) ⟨some q⟩

/-- Member `erase_after(position)`. -/
def Forward_list.erase_after {T A : Type} (m : Mem T) (l : Forward_list A)
    (position : iterator) : Outcome (Mem T × Forward_list A) iterator :=
  match position.ptr with
  | none => .ret (m, l) l.end_
  | some c =>
    match readNext m (some c) with
    | none => .ub
    | some none => .ret (m, l) l.end_
    | some (some d) =>
      match readNext m (some d) with
      | none => .ub
      | some newNext =>
        match destroyDeallocate m (some d) with
        | none => .ub
        | some m1 =>
          match writeNext m1 (some c) newNext with
          | none => .ub
          | some m2 =>
            .ret (m2, { l with sz := if l.sz = 0 then SIZE_MAX else l.sz - 1 }) ⟨newNext⟩

/-- Member `push_front(args...)`. -/
def Forward_list.push_front {T A Args : Type} (env : Env T A Args) (m : Mem T)
    (l : Forward_list A) (args : Args) : Outcome (Mem T × Forward_list A) Unit :=
  match l.insert_after env m l.before_begin args with
  | .ret s _ => .ret s ()
  | .throws s e => .throws s e
  | .ub => .ub
  | .fuelOut => .fuelOut

/-- Member `pop_front()`. -/
def Forward_list.pop_front {T A : Type} (m : Mem T) (l : Forward_list A) :
    Outcome (Mem T × Forward_list A) Unit :=
  match l.erase_after m l.before_begin with
  | .ret s _ => .ret s ()
  | .throws s e => .throws s e
  | .ub => .ub
  | .fuelOut => .fuelOut

/-- The destructor: `clear()`, then the members go, the sentinel among them.  What
is left is the memory. -/
def Forward_list.dtor {T A : Type} (fuel : Nat) (m : Mem T) (l : Forward_list A) :
    Outcome (Mem T) Unit :=
  match l.clear fuel m with
  | .ret (m1, l1) _ => .ret (m1.free l1.fakeNode) ()
  | .throws (m1, _) e => .throws m1 e
  | .ub => .ub
  | .fuelOut => .fuelOut

/-- The body shared by the loops of the three bulk constructors: allocate storage and
link it after `thisIter` (on `std::bad_alloc` the link is cleared), then construct the
node from the element (on `std::exception` the storage is released and the link
cleared).  The element is read only when it is constructed from.  Returns the new
`thisIter`. -/
def linkNewNode {T A Args : Type} (env : Env T A Args) (alloc : A) (m : Mem T)
    (thisIter : Ptr) (elem : Mem T → Option Args) : Outcome (Mem T) Ptr :=
  match env.allocate alloc m with
  | .error e =>
    if e.isBadAlloc then
      match writeNext m thisIter none with
      | none => .ub
      | some m1 => .throws m1 e
    else .throws m e
  | .ok q =>
    match writeNext (m.set q .raw) thisIter (some q) with
    | none => .ub
    | some m2 =>
      match elem m2 with
      | none => .ub
      | some x =>
        match env.construct x with
        | .error e =>
          if e.isStdException then
            match deallocate m2 (some q) with
            | none => .ub
            | some m3 =>
              match writeNext m3 thisIter none with
              | none => .ub
              | some m4 => .throws m4 e
          else .throws m2 e
        | .ok v => .ret (m2.set q (.node none v)) (some q)

/-- The loop over the source elements of the range and initializer-list
constructors; the state is the memory and `sz`, the result the final `thisIter`. -/
def buildLoop {T A Args : Type} (env : Env T A Args) (alloc : A) :
    List Args → Mem T → Ptr → Nat → Outcome (Mem T × Nat) Ptr
  | [], m, thisIter, sz => .ret (m, sz) thisIter
  | x :: rest, m, thisIter, sz =>
    match linkNewNode env alloc m thisIter (fun _ => some x) with
    | .ret m1 q => buildLoop env alloc rest m1 q (sz + 1)
    | .throws m1 e => .throws (m1, sz) e
    | .ub => .ub
    | .fuelOut => .fuelOut

/-- The constructor `Forward_list(InputIter begin, InputIter end, const Alloc& a)`,
run on the storage at `self`; the range is given by the elements it yields.  When an
exception leaves it, the state is the one in which it leaves the loop; no destructor
of `Forward_list` runs then, only the members go. -/
def Forward_list.range_ctor {T A Args : Type} (env : Env T A Args) (m : Mem T) (self : Nat)
    (range : List Args) (a : A) : Outcome (Mem T × Forward_list A) Unit :=
  match buildLoop env a range (m.set self (.base none)) (some self) 0 with
  | .ret (m1, sz) thisIter =>
    match writeNext m1 thisIter none with
    | none => .ub
    | some m2 => .ret (m2, { fakeNode := self, sz := sz, alloc := a }) ()
  | .throws (m1, sz) e => .throws (m1, { fakeNode := self, sz := sz, alloc := a }) e
  | .ub => .ub
  | .fuelOut => .fuelOut

/-- The constructor `Forward_list(std::initializer_list<T> ilist, const Alloc& a)`,
run on the storage at `self`; its loop has the body and the order of the range
constructor's. -/
def Forward_list.ilist_ctor {T A : Type} (env : Env T A T) (m : Mem T) (self : Nat)
    (ilist : List T) (a : A) : Outcome (Mem T × Forward_list A) Unit :=
  match buildLoop env a ilist (m.set self (.base none)) (some self) 0 with
  | .ret (m1, sz) iter =>
    match writeNext m1 iter none with
    | none => .ub
    | some m2 => .ret (m2, { fakeNode := self, sz := sz, alloc := a }) ()
  | .throws (m1, sz) e => .throws (m1, { fakeNode := self, sz := sz, alloc := a }) e
  | .ub => .ub
  | .fuelOut => .fuelOut

/-- Read `static_cast<const Node*>(p)->value`. -/
def readValue {T : Type} (m : Mem T) : Ptr → Option T
  | none => none
  | some a =>
    match m.get a with
    | some (.node _ v) => some v
    | _ => none

/-- The `while (otherIter->next != nullptr)` loop of the copy constructor. -/
def copyLoop {T A : Type} (env : Env T A T) (alloc : A) :
    Nat → Mem T → Ptr → Ptr → Nat → Outcome (Mem T × Nat) Ptr
  | 0, _, _, _, _ => .fuelOut
  | fuel + 1, m, thisIter, otherIter, sz =>
    match readNext m otherIter with
    | none => .ub
    | some none => .ret (m, sz) thisIter
    | some (some o) =>
      match linkNewNode env alloc m thisIter (fun m2 => readValue m2 (some o)) with
      | .ret m1 q => copyLoop env alloc fuel m1 q (some o) (sz + 1)
      | .throws m1 e => .throws (m1, sz) e
      | .ub => .ub
      | .fuelOut => .fuelOut

/-- The body of `Forward_list(const Forward_list& other)` after the delegation to
`Forward_list()`, which leaves the allocator default-constructed.  When an exception
leaves it, the state is the one in which it leaves the loop. -/
def Forward_list.copy_ctor_body {T A : Type} [Inhabited A] (env : Env T A T) (fuel : Nat)
    (m : Mem T) (self : Nat) (other : Forward_list A) :
    Outcome (Mem T × Forward_list A) Unit :=
  match Forward_list.default_ctor m self (default : A) with
  | (m0, l0) =>
    match copyLoop env l0.alloc fuel m0 (some l0.fakeNode) (some other.fakeNode) l0.sz with
    | .ret (m1, sz) thisIter =>
      match writeNext m1 thisIter none with
      | none => .ub
      | some m2 => .ret (m2, { l0 with sz := sz }) ()
    | .throws (m1, sz) e => .throws (m1, { l0 with sz := sz }) e
    | .ub => .ub
    | .fuelOut => .fuelOut

/-- The copy constructor as a caller sees it: the delegation has completed the object
before the body runs, so an exception leaving the body runs the destructor on what
was built. -/
def Forward_list.copy_ctor {T A : Type} [Inhabited A] (env : Env T A T) (fuel : Nat)
    (m : Mem T) (self : Nat) (other : Forward_list A) : Outcome (Mem T) (Forward_list A) :=
  match Forward_list.copy_ctor_body env fuel m self other with
  | .ret (m1, l1) _ => .ret m1 l1
  | .throws (m1, l1) e =>
    match l1.dtor fuel m1 with
    | .ret m2 _ => .throws m2 e
    | .throws m2 _ => .throws m2 e
    | .ub => .ub
    | .fuelOut => .fuelOut
  | .ub => .ub
  | .fuelOut => .fuelOut

/-- The effect of `std::swap` on two `BaseNode` objects: their `next` are exchanged. -/
def swapBaseNode {T : Type} (m : Mem T) (a b : Nat) : Option (Mem T) :=
  match readNext m (some a), readNext m (some b) with
  | some na, some nb =>
    match writeNext m (some a) nb with
    | none => none
    | some m1 => writeNext m1 (some b) na
  | _, _ => none

/-- The copy assignment `operator=(const Forward_list& other)`; the local `copy`
lives at `tmp` and is destroyed on return. -/
def Forward_list.copy_assign {T A : Type} [Inhabited A] (env : Env T A T) (fuel : Nat)
    (m : Mem T) (tmp : Nat) (l other : Forward_list A) :
    Outcome (Mem T × Forward_list A) Unit :=
  match Forward_list.copy_ctor env fuel m tmp other with
  | .ret m1 copy =>
    match swapBaseNode m1 l.fakeNode copy.fakeNode with
    | none => .ub
    | some m2 =>
      match Forward_list.dtor fuel m2 { copy with sz := l.sz, alloc := l.alloc } with
      | .ret m3 _ => .ret (m3, { l with sz := copy.sz, alloc := copy.alloc }) ()
      | .throws m3 e => .throws (m3, { l with sz := copy.sz, alloc := copy.alloc }) e
      | .ub => .ub
      | .fuelOut => .fuelOut
  | .throws m1 e => .throws (m1, l) e
  | .ub => .ub
  | .fuelOut => .fuelOut

/-- The move constructor `Forward_list(Forward_list&& other)`, run on the storage at
`self`: the memory, the new object and the fields of `other` afterwards; `none` when
an access is undefined. -/
def Forward_list.move_ctor {T A : Type} [Inhabited A] (m : Mem T) (self : Nat)
    (other : Forward_list A) : Option (Mem T × Forward_list A × Forward_list A) :=
  match Forward_list.default_ctor m self (default : A) with
  | (m0, l0) =>
    match swapBaseNode m0 l0.fakeNode other.fakeNode with
    | none => none
    | some m1 =>
      some (m1, { l0 with sz := other.sz, alloc := other.alloc },
        { other with sz := l0.sz, alloc := l0.alloc })

/-- The walk of `print()`: the values met from `iter` on; `none` when a `next` or a
value is read through a pointer that refers to no node, or the fuel runs out. -/
def printLoop {T : Type} : Nat → Mem T → Ptr → Option (List T)
  | 0, _, _ => none
  | _ + 1, _, none => some []
  | fuel + 1, m, some a =>
    match m.get a with
    | some (.node n v) =>
      match printLoop fuel m n with
      | none => none
      | some vs => some (v :: vs)
    | _ => none

/-- Member `print()`, as the count and the values it writes. -/
def Forward_list.print {T A : Type} (fuel : Nat) (m : Mem T) (l : Forward_list A) :
    Option (Nat × List T) :=
  match readNext m (some l.fakeNode) with
  | none => none
  | some iter =>
    match printLoop fuel m iter with
    | none => none
    | some vs => some (l.sz, vs)

/-! ## Well-formed containers -/

/-- The address of the first node of a list of nodes, `tl` when there is none. -/
def headOr {T : Type} (ns : List (Nat × T)) (tl : Ptr) : Ptr :=
  match ns with
  | [] => tl
  | (a, _) :: _ => some a

/-- The nodes `ns`, each given by its address and value, are live in `m` and linked in
this order, the last one to `tl`. -/
def Seg {T : Type} (m : Mem T) : List (Nat × T) → Ptr → Prop
  | [], _ => True
  | (a, x) :: rest, tl => m.get a = some (.node (headOr rest tl) x) ∧ Seg m rest tl

/-- The container `l` is well formed in `m` and consists of the nodes `ns`: the
sentinel is a `BaseNode` whose `next` is the first node or absent, the nodes are live,
linked in order and end at an absent reference, no node occurs twice, and `sz` is
their number. -/
structure WF {T A : Type} (m : Mem T) (l : Forward_list A) (ns : List (Nat × T)) : Prop where
  sentinel : m.get l.fakeNode = some (.base (headOr ns none))
  chain : Seg m ns none
  nodup : (ns.map Prod.fst).Nodup
  count : l.sz = ns.length

/-- The positions of a container: the sentinel, then the nodes in order. -/
def positions {T A : Type} (l : Forward_list A) (ns : List (Nat × T)) : List Nat :=
  l.fakeNode :: ns.map Prod.fst

/-- The allocator contract: storage handed out is not in use. -/
def Env.Fresh {T A Args : Type} (env : Env T A Args) : Prop :=
  ∀ a m q, env.allocate a m = .ok q → m.get q = none

/-- Allocation through `a` never fails. -/
def Env.NoFail {T A Args : Type} (env : Env T A Args) (a : A) : Prop :=
  ∀ m, ∃ q, env.allocate a m = .ok q

/-- Cells in use outside the footprint `fp` are the same in `m2` as in `m1`. -/
def Frame {T : Type} (m1 m2 : Mem T) (fp : List Nat) : Prop :=
  ∀ a, a ∉ fp → m1.get a ≠ none → m2.get a = m1.get a

/-! ## Auxiliary notions for the statements -/

/-- Field `next` of the object in a cell, if there is one. -/
def Cell.next? {T : Type} : Cell T → Option Ptr
  | .base n => some n
  | .node n _ => some n
  | .raw => none

/-- The cell after `next` of its object is assigned. -/
def Cell.setNext {T : Type} : Cell T → Ptr → Cell T
  | .base _, n => .base n
  | .node _ v, n => .node n v
  | .raw, _ => .raw

/-- The position after which `post` starts in `pre ++ post`: the last node of `pre`,
or the sentinel at `fake` when `pre` is empty. -/
def lastAddr {T : Type} (fake : Nat) (pre : List (Nat × T)) : Nat :=
  match pre.getLast? with
  | none => fake
  | some (a, _) => a

/-! ## Example inputs -/

/-- An allocator that never fails and hands out an address above all those bound,
with a value type whose construction copies and never throws. -/
def envOk : Env Nat Nat Nat where
  allocate := fun _ m => .ok m.fresh
  construct := fun x => .ok x

/-- As `envOk`, except that constructing from `bad` throws `e`. -/
def envThrow (bad : Nat) (e : Exn) : Env Nat Nat Nat where
  allocate := fun _ m => .ok m.fresh
  construct := fun x => if x = bad then .error e else .ok x

/-- A memory holding the container `exList` with the nodes `exNodes`. -/
def exMem : Mem Nat :=
  [(0, .base (some 1)), (1, .node (some 2) 10), (2, .node none 20)]

/-- The fields of the container in `exMem`. -/
def exList : Forward_list Nat := { fakeNode := 0, sz := 2, alloc := 0 }

/-- The nodes of the container in `exMem`. -/
def exNodes : List (Nat × Nat) := [(1, 10), (2, 20)]

/-- The memory after `Forward_list<int> l{1}` built at address 0 in empty memory with
`envOk`. -/
def memBuilt : Mem Nat :=
  [(1, .node none 1), (1, .node none 1), (0, .base (some 1)), (1, .raw), (0, .base none)]

/-- The memory after `l.clear()` in `memBuilt`. -/
def memCleared : Mem Nat := [(0, .base (some 1)), (0, .base none)]

/-- The memory after `l.push_front(5)` in `memCleared`. -/
def memPushed : Mem Nat :=
  [(1, .node (some 1) 5), (1, .node none 5), (0, .base (some 1)), (1, .raw),
    (0, .base (some 1)), (0, .base none)]

/-- The memory in which `insert_after` at the sentinel of `exList` is left when the
constructor of the value throws an object that is not a `std::exception`. -/
def memHalfInserted : Mem Nat :=
  [(0, .base (some 3)), (3, .raw), (0, .base (some 1)), (1, .node (some 2) 10),
    (2, .node none 20)]

/-- The state in which a call ends when it returns or throws. -/
def Outcome.state? {σ α : Type} : Outcome σ α → Option σ
  | .ret s _ => some s
  | .throws s _ => some s
  | .ub => none
  | .fuelOut => none

/-- A call of one of the mutating members. -/
inductive Mutation (Args : Type)
  | insert_after (position : iterator) (args : Args)
  | erase_after (position : iterator)
  | push_front (args : Args)
  | pop_front
  | clear

/-- The state in which a mutation of `l` ends when it returns or throws. -/
def Mutation.run {T A Args : Type} (env : Env T A Args) (fuel : Nat) (m : Mem T)
    (l : Forward_list A) : Mutation Args → Option (Mem T × Forward_list A)
  | .insert_after position args => (l.insert_after env m position args).state?
  | .erase_after position => (l.erase_after m position).state?
  | .push_front args => (l.push_front env m args).state?
  | .pop_front => (l.pop_front m).state?
  | .clear => (l.clear fuel m).state?

/-- The position handed to a mutation is a position of the container: its sentinel or
one of its nodes, for `erase_after` also the end position. -/
def Mutation.Valid {T A Args : Type} (l : Forward_list A) (ns : List (Nat × T)) :
    Mutation Args → Prop
  | .insert_after position _ => ∃ p ∈ positions l ns, position.ptr = some p
  | .erase_after position => position.ptr = none ∨ ∃ p ∈ positions l ns, position.ptr = some p
  | _ => True

/-- The memory `exMem` with a second container, `exListA`, holding the value 30. -/
def exMem2 : Mem Nat := (5, .base (some 6)) :: (6, .node none 30) :: exMem

/-- The fields of the second container in `exMem2`. -/
def exListA : Forward_list Nat := { fakeNode := 5, sz := 1, alloc := 4 }

/-- The memory in which the exception leaves the loop of the copy constructor when
`exList` is copied to address 9 in `exMem2` and the copy of the second value throws
an object that is not a `std::exception`. -/
def memCopyFailed : Mem Nat :=
  [(10, .node (some 11) 10), (11, .raw), (10, .node none 10), (9, .base (some 10)),
    (10, .raw), (9, .base none), (5, .base (some 6)), (6, .node none 30),
    (0, .base (some 1)), (1, .node (some 2) 10), (2, .node none 20)]

/-- The scenario of the specification run with `envOk` from empty memory: build a
container from `{1, 2, 3}` at address 0, `push_front(0)`, `pop_front()` twice, copy
it to address 50, `push_front(9)` on the copy; at each stage what `print()` shows, for
the last stage of the original and of the copy. -/
def scenario : Option (List (Option (Nat × List Nat))) :=
  match Forward_list.ilist_ctor envOk [] 0 [1, 2, 3] 0 with
  | .ret (m1, l1) _ =>
    match l1.push_front envOk m1 0 with
    | .ret (m2, l2) _ =>
      match l2.pop_front m2 with
      | .ret (m3, l3) _ =>
        match l3.pop_front m3 with
        | .ret (m4, l4) _ =>
          match Forward_list.copy_ctor envOk 10 m4 50 l4 with
          | .ret m5 cp =>
            match cp.push_front envOk m5 9 with
            | .ret (m6, cp6) _ =>
              some [l1.print 10 m1, l2.print 10 m2, l4.print 10 m4, l4.print 10 m6,
                cp6.print 10 m6]
            | _ => none
          | _ => none
        | _ => none
      | _ => none
    | _ => none
  | _ => none

/-- The move assignment `operator=(Forward_list&& other)`, with `other` an object
distinct from `*this`; the local `copy` lives at `tmp` and is destroyed on return.
The state is the memory, the fields of `*this` and the fields of `other`. -/
def Forward_list.move_assign {T A : Type} [Inhabited A] (fuel : Nat) (m : Mem T) (tmp : Nat)
    (l other : Forward_list A) : Outcome (Mem T × Forward_list A × Forward_list A) Unit :=
  match Forward_list.move_ctor m tmp other with
  | none => .ub
  | some (m1, copy, other1) =>
    match swapBaseNode m1 l.fakeNode copy.fakeNode with
    | none => .ub
    | some m2 =>
      match Forward_list.dtor fuel m2 { copy with sz := l.sz, alloc := l.alloc } with
      | .ret m3 _ => .ret (m3, { l with sz := copy.sz, alloc := copy.alloc }, other1) ()
      | .throws m3 e => .throws (m3, { l with sz := copy.sz, alloc := copy.alloc }, other1) e
      | .ub => .ub
      | .fuelOut => .fuelOut

/-- Stated from the specification: two containers exchange all their state, that is
the chain hanging from the sentinel, the count and the allocator. -/
def exchangeState {T A : Type} (m : Mem T) (x y : Forward_list A) :
    Option (Mem T × Forward_list A × Forward_list A) :=
  match swapBaseNode m x.fakeNode y.fakeNode with
  | none => none
  | some m1 =>
    some (m1, { x with sz := y.sz, alloc := y.alloc }, { y with sz := x.sz, alloc := x.alloc })

/-- Stated from the specification: move assignment as move construction of a
temporary at `tmp` from `other`, followed by the exchange of state between `l` and
the temporary and by the teardown of the temporary. -/
def moveConstructThenSwap {T A : Type} [Inhabited A] (fuel : Nat) (m : Mem T) (tmp : Nat)
    (l other : Forward_list A) : Outcome (Mem T × Forward_list A × Forward_list A) Unit :=
  match Forward_list.move_ctor m tmp other with
  | none => .ub
  | some (m1, temporary, other1) =>
    match exchangeState m1 l temporary with
    | none => .ub
    | some (m2, l2, temporary2) =>
      match temporary2.dtor fuel m2 with
      | .ret m3 _ => .ret (m3, l2, other1) ()
      | .throws m3 e => .throws (m3, l2, other1) e
      | .ub => .ub
      | .fuelOut => .fuelOut

/-- What is seen at `begin()`: the value `operator*` returns there, if it returns. -/
def Forward_list.atBegin {T A : Type} (m : Mem T) (l : Forward_list A) : Option T :=
  match l.begin m with
  | none => none
  | some it =>
    match it.deref m with
    | .ret _ v => some v
    | _ => none

/-- The front scenario run with `envOk` from empty memory: build a container from
`{1, 2, 3}` at address 0, `push_front(0)`, `pop_front()`, `pop_front()`; what
`print()` shows after each step, and the value at `begin()` after `push_front(0)`. -/
def frontScenario : Option (List (Option (Nat × List Nat)) × Option Nat) :=
  match Forward_list.ilist_ctor envOk [] 0 [1, 2, 3] 0 with
  | .ret (m1, l1) _ =>
    match l1.push_front envOk m1 0 with
    | .ret (m2, l2) _ =>
      match l2.pop_front m2 with
      | .ret (m3, l3) _ =>
        match l3.pop_front m3 with
        | .ret (m4, l4) _ =>
          some ([l1.print 10 m1, l2.print 10 m2, l3.print 10 m3, l4.print 10 m4],
            l2.atBegin m2)
        | _ => none
      | _ => none
    | _ => none
  | _ => none

/-- Apply the pre-increment `n` times. -/
def advance {T : Type} : Nat → Mem T → iterator → Option iterator
  | 0, _, it => some it
  | n + 1, m, it =>
    match it.preInc m with
    | none => none
    | some it2 => advance n m it2

/-- The loop `for (it = ...; it != end(); ++it) use(*it)`: what `operator*` returns
at each position met until the iterator equals `end()`; `none` when a dereference
does not return a value, an increment is undefined or the fuel runs out. -/
def traverse {T : Type} : Nat → Mem T → iterator → Option (List T)
  | 0, _, _ => none
  | fuel + 1, m, it =>
    match it.ptr with
    | none => some []
    | some _ =>
      match it.deref m with
      | .ret _ v =>
        match it.preInc m with
        | none => none
        | some it2 =>
          match traverse fuel m it2 with
          | none => none
          | some vs => some (v :: vs)
      | _ => none

/-- A valid position of a container: one reached from `before_begin()` by
increments. -/
def ValidPos {T A : Type} (m : Mem T) (l : Forward_list A) (pos : iterator) : Prop :=
  ∃ j, advance j m l.before_begin = some pos

/-- The containers obtained from an empty, a range-constructed or a list-constructed
container by successful `insert_after` and `erase_after` calls at valid positions
(for `insert_after` other than the end position). -/
inductive Reachable {T A : Type} (env : Env T A T) : Mem T → Forward_list A → Prop
  | empty (m : Mem T) (self : Nat) (a : A) :
      Reachable env (Forward_list.default_ctor m self a).1 (Forward_list.default_ctor m self a).2
  | range (m : Mem T) (self : Nat) (xs : List T) (a : A) (m2 : Mem T) (l2 : Forward_list A) :
      Forward_list.range_ctor env m self xs a = .ret (m2, l2) () → Reachable env m2 l2
  | ilist (m : Mem T) (self : Nat) (xs : List T) (a : A) (m2 : Mem T) (l2 : Forward_list A) :
      Forward_list.ilist_ctor env m self xs a = .ret (m2, l2) () → Reachable env m2 l2
  | insert (m : Mem T) (l : Forward_list A) (pos : iterator) (args : T) (m2 : Mem T)
      (l2 : Forward_list A) (it : iterator) :
      Reachable env m l → ValidPos m l pos → pos.ptr ≠ none →
      l.insert_after env m pos args = .ret (m2, l2) it → Reachable env m2 l2
  | erase (m : Mem T) (l : Forward_list A) (pos : iterator) (m2 : Mem T)
      (l2 : Forward_list A) (it : iterator) :
      Reachable env m l → ValidPos m l pos →
      l.erase_after m pos = .ret (m2, l2) it → Reachable env m2 l2

/-- An allocator environment in which only the default-constructed allocator, 0,
hands out storage; every other allocator throws `std::bad_alloc`. -/
def envOnlyDefault : Env Nat Nat Nat where
  allocate := fun a m => if a = 0 then .ok m.fresh else .error .bad_alloc
  construct := fun x => .ok x

/-- The memory in which the exception leaves the list constructor run at address 0 on
`{1, 2, 3}` in empty memory when constructing from 2 throws an object that is not a
`std::exception`. -/
def memBuildFailed : Mem Nat :=
  [(1, .node (some 2) 1), (2, .raw), (1, .node none 1), (0, .base (some 1)), (1, .raw),
    (0, .base none)]

/-- The memory in which the exception leaves the same constructor when constructing
from 2 throws a `std::exception`. -/
def memBuildRolledBack : Mem Nat :=
  [(1, .node none 1), (1, .node (some 2) 1), (1, .node none 1), (0, .base (some 1)),
    (1, .raw), (0, .base none)]

/-- The memory after `insert_after` of 7 at the node of `memBuilt` with `envOk`. -/
def memReached : Mem Nat :=
  [(2, .node none 7), (2, .node none 7), (1, .node (some 2) 1), (2, .raw), (1, .node none 1),
    (1, .node none 1), (0, .base (some 1)), (1, .raw), (0, .base none)]

/-- The memory after the copy construction of `exListA` at address 9 in `exMem2` with
`envOnlyDefault`. -/
def memCopiedA : Mem Nat :=
  [(10, .node none 30), (10, .node none 30), (9, .base (some 10)), (10, .raw),
    (9, .base none), (5, .base (some 6)), (6, .node none 30), (0, .base (some 1)),
    (1, .node (some 2) 10), (2, .node none 20)]

/-! ## The substring search of `string/KMP.cpp` -/

/-- The largest value of an `int` of 32 bits. -/
def INT_MAX : Nat := 2 ^ 31 - 1

/-- The loop `while (j > 0 && s[j] != s[i]) j = pref[j - 1];`: the final `j`.  An
access at or beyond the size of `s` or of `pref` is undefined. -/
def kmpWhile (s : List Char) (pref : List Nat) (i : Nat) : Nat → Nat → Outcome Unit Nat
  | 0, _ => .fuelOut
  | fuel + 1, j =>
    if 0 < j then
      match s[j]?, s[i]? with
      | some a, some b =>
        if a ≠ b then
          match pref[j - 1]? with
          | some j2 => kmpWhile s pref i fuel j2
          | none => .ub
        else .ret () j
      | _, _ => .ub
    else .ret () j

/-- The body of the `for` loop at index `i`: `j = pref[i - 1]`, the `while` loop,
`if (s[j] == s[i]) ++j;`, `pref[i] = j`.  The result is the table afterwards. -/
def kmpBody (fuel : Nat) (s : List Char) (pref : List Nat) (i : Nat) :
    Outcome Unit (List Nat) :=
  match pref[i - 1]? with
  | none => .ub
  | some j0 =>
    match kmpWhile s pref i fuel j0 with
    | .ret _ j =>
      match s[j]?, s[i]? with
      | some a, some b =>
        if a = b then
          if INT_MAX < j + 1 then .ub
          else if i < pref.length then .ret () (pref.set i (j + 1)) else .ub
        else if i < pref.length then .ret () (pref.set i j) else .ub
      | _, _ => .ub
    | .throws _ e => .throws () e
    | .ub => .ub
    | .fuelOut => .fuelOut

/-- The loop `for (int i = 1; i < pref.size(); ++i)` over the indices it visits, in
order; `++i` overflows the `int` when `i` is `INT_MAX`. -/
def kmpFor (fuel : Nat) (s : List Char) : List Nat → List Nat → Outcome Unit (List Nat)
  | [], pref => .ret () pref
  | i :: rest, pref =>
    match kmpBody fuel s pref i with
    | .ret _ pref2 => if INT_MAX < i + 1 then .ub else kmpFor fuel s rest pref2
    | .throws _ e => .throws () e
    | .ub => .ub
    | .fuelOut => .fuelOut

/-- The table `pref` that `KMP` computes over `s`: `std::vector<int> pref(s.size())`,
`pref[0] = 0`, then the `for` loop over the indices `1, ..., s.size() - 1`. -/
def prefTable (fuel : Nat) (s : List Char) : Outcome Unit (List Nat) :=
  if 0 < s.length then
    kmpFor fuel s (List.range' 1 (s.length - 1)) ((List.replicate s.length 0).set 0 0)
  else .ub

/-- The function `KMP(text, pattern)`: `s` is the pattern, `'#'`, then the text; the
result is whether an entry of the table equals the size of the pattern. -/
def KMP (fuel : Nat) (text pattern : List Char) : Outcome Unit Bool :=
  match prefTable fuel (pattern ++ '#' :: text) with
  | .ret _ pref => .ret () (pref.any (fun p => p == pattern.length))
  | .throws _ e => .throws () e
  | .ub => .ub
  | .fuelOut => .fuelOut

/-- Index-wise: the first `k` characters of `s` are a proper border of its first `n`
characters, that is `k < n` and `s[t] = s[n - k + t]` for every `t < k`. -/
def Bord (s : List Char) (n k : Nat) : Prop :=
  k < n ∧ ∀ t, t < k → s[t]? = s[n - k + t]?

/-- Index-wise: `v` is the largest border length of the first `n` characters. -/
def IsPi (s : List Char) (n v : Nat) : Prop :=
  Bord s n v ∧ ∀ k, Bord s n k → k ≤ v

/-- The proper prefix of length `k` of the first `n` characters of `s` is also a
suffix of them. -/
def IsBorder (s : List Char) (n k : Nat) : Prop :=
  k < n ∧ (s.take n).take k <:+ s.take n

/-- The number `v` is the length of the longest proper prefix of the first `n`
characters of `s` that is also a suffix of them. -/
def LongestBorder (s : List Char) (n v : Nat) : Prop :=
  IsBorder s n v ∧ ∀ k, IsBorder s n k → k ≤ v

/-- The table `pref` is filled below index `i`: it has the size of `s`, and each
entry below `i` is the largest border length of the prefix that ends there. -/
def Tab (s : List Char) (pref : List Nat) (i : Nat) : Prop :=
  pref.length = s.length ∧ ∀ t, t < i → ∃ v, pref[t]? = some v ∧ IsPi s (t + 1) v

/-- Index-wise: `pattern` occurs in `text` at offset `o`. -/
def OccursAt (text pattern : List Char) (o : Nat) : Prop :=
  o + pattern.length ≤ text.length ∧ ∀ u, u < pattern.length → text[o + u]? = pattern[u]?

/-- The memory after `cp.clear()` in `memCopiedA`, `cp` being the copy at address 9. -/
def memCopyCleared : Mem Nat :=
  [(9, .base (some 10)), (9, .base none), (5, .base (some 6)), (6, .node none 30),
    (0, .base (some 1)), (1, .node (some 2) 10), (2, .node none 20)]

/-- The memory after `push_front(9)` on the source `exListA` in `memCopyCleared` with
`envOk`. -/
def memSourcePushed : Mem Nat :=
  [(10, .node (some 6) 9), (10, .node none 9), (5, .base (some 10)), (10, .raw),
    (9, .base (some 10)), (9, .base none), (5, .base (some 6)), (6, .node none 30),
    (0, .base (some 1)), (1, .node (some 2) 10), (2, .node none 20)]

/-- The memory after `cp.pop_front()` in `memSourcePushed`. -/
def memCopyPopped : Mem Nat :=
  [(9, .base (some 6)), (5, .base (some 10)), (9, .base (some 10)), (9, .base none),
    (5, .base (some 6)), (6, .node none 30), (0, .base (some 1)), (1, .node (some 2) 10),
    (2, .node none 20)]

/-! ## Memory lemmas -/

@[simp] theorem Mem.get_nil {T : Type} (a : Nat) : Mem.get ([] : Mem T) a = none := rfl

@[simp] theorem Mem.get_set {T : Type} (m : Mem T) (a b : Nat) (c : Cell T) :
    (m.set a c).get b = if b = a then some c else m.get b := rfl

@[simp] theorem Mem.get_free {T : Type} (m : Mem T) (a b : Nat) :
    (m.free a).get b = if b = a then none else m.get b := by
  induction m with
  | nil => simp [Mem.free]
  | cons kc rest ih =>
    obtain ⟨k, c⟩ := kc
    by_cases hk : k = a
    · subst hk
      by_cases hb : b = k
      · subst hb
        simpa [Mem.free] using ih
      · simp [Mem.free, ih, hb, Mem.get]
    · by_cases hb : b = a
      · subst hb
        have : ¬ b = k := fun h => hk h.symm
        simp [Mem.free, hk, Mem.get, ih, this]
      · simp [Mem.free, hk, Mem.get, ih, hb]

theorem Mem.get_of_fresh_le {T : Type} (m : Mem T) (a : Nat) (h : m.fresh ≤ a) :
    m.get a = none := by
  induction m with
  | nil => rfl
  | cons kc rest ih =>
    obtain ⟨k, c⟩ := kc
    simp only [Mem.fresh, max_le_iff] at h
    have hne : ¬ a = k := by omega
    simp [Mem.get, hne, ih h.2]

theorem Mem.get_fresh {T : Type} (m : Mem T) : m.get m.fresh = none :=
  Mem.get_of_fresh_le m _ (Nat.le_refl _)

theorem readNext_base {T : Type} {m : Mem T} {a : Nat} {n : Ptr}
    (h : m.get a = some (.base n)) : readNext m (some a) = some n := by
  simp [readNext, h]

theorem readNext_node {T : Type} {m : Mem T} {a : Nat} {n : Ptr} {v : T}
    (h : m.get a = some (.node n v)) : readNext m (some a) = some n := by
  simp [readNext, h]

theorem writeNext_base {T : Type} {m : Mem T} {a : Nat} {n n2 : Ptr}
    (h : m.get a = some (.base n)) : writeNext m (some a) n2 = some (m.set a (.base n2)) := by
  simp [writeNext, h]

theorem writeNext_node {T : Type} {m : Mem T} {a : Nat} {n n2 : Ptr} {v : T}
    (h : m.get a = some (.node n v)) :
    writeNext m (some a) n2 = some (m.set a (.node n2 v)) := by
  simp [writeNext, h]

theorem destroyDeallocate_node {T : Type} {m : Mem T} {a : Nat} {n : Ptr} {v : T}
    (h : m.get a = some (.node n v)) :
    destroyDeallocate m (some a) = some ((m.set a .raw).free a) := by
  simp [destroyDeallocate, destroy, deallocate, h]

/-! ## Chain lemmas -/

theorem headOr_append {T : Type} (xs ys : List (Nat × T)) (tl : Ptr) :
    headOr (xs ++ ys) tl = headOr xs (headOr ys tl) := by
  cases xs with
  | nil => rfl
  | cons x rest => rfl

theorem Seg_append {T : Type} (m : Mem T) (xs ys : List (Nat × T)) (tl : Ptr) :
    Seg m (xs ++ ys) tl ↔ Seg m xs (headOr ys tl) ∧ Seg m ys tl := by
  induction xs with
  | nil => simp [Seg]
  | cons x rest ih =>
    obtain ⟨a, v⟩ := x
    show (m.get a = some (.node (headOr (rest ++ ys) tl) v) ∧ Seg m (rest ++ ys) tl) ↔
      (m.get a = some (.node (headOr rest (headOr ys tl)) v) ∧ Seg m rest (headOr ys tl)) ∧
        Seg m ys tl
    rw [ih, headOr_append, and_assoc]

theorem Seg_congr {T : Type} {m m2 : Mem T} {ns : List (Nat × T)} {tl : Ptr}
    (h : Seg m ns tl) (hm : ∀ a ∈ ns.map Prod.fst, m2.get a = m.get a) : Seg m2 ns tl := by
  induction ns with
  | nil => trivial
  | cons x rest ih =>
    obtain ⟨a, v⟩ := x
    refine ⟨?_, ih h.2 (fun b hb => hm b (by simp at hb ⊢; exact Or.inr hb))⟩
    rw [hm a (by simp)]
    exact h.1

theorem Seg_get_ne_none {T : Type} {m : Mem T} {ns : List (Nat × T)} {tl : Ptr}
    (h : Seg m ns tl) {a : Nat} (ha : a ∈ ns.map Prod.fst) : m.get a ≠ none := by
  induction ns with
  | nil => simp at ha
  | cons x rest ih =>
    obtain ⟨b, v⟩ := x
    simp only [List.map_cons, List.mem_cons] at ha
    rcases ha with rfl | ha
    · rw [h.1]; simp
    · exact ih h.2 ha

theorem Seg_not_base {T : Type} {m : Mem T} {ns : List (Nat × T)} {tl : Ptr}
    (h : Seg m ns tl) {a : Nat} {n : Ptr} (ha : m.get a = some (.base n)) :
    a ∉ ns.map Prod.fst := by
  induction ns with
  | nil => simp
  | cons x rest ih =>
    obtain ⟨b, v⟩ := x
    simp only [List.map_cons, List.mem_cons, not_or]
    refine ⟨?_, ih h.2⟩
    rintro rfl
    rw [h.1] at ha
    cases ha

theorem WF.fake_not_mem {T A : Type} {m : Mem T} {l : Forward_list A} {ns : List (Nat × T)}
    (h : WF m l ns) : l.fakeNode ∉ ns.map Prod.fst :=
  Seg_not_base h.chain h.sentinel

theorem WF.get_ne_none {T A : Type} {m : Mem T} {l : Forward_list A} {ns : List (Nat × T)}
    (h : WF m l ns) {a : Nat} (ha : a ∈ positions l ns) : m.get a ≠ none := by
  simp only [positions, List.mem_cons] at ha
  rcases ha with rfl | ha
  · rw [h.sentinel]; simp
  · exact Seg_get_ne_none h.chain ha

theorem WF.congr {T A : Type} {m m2 : Mem T} {l : Forward_list A} {ns : List (Nat × T)}
    (h : WF m l ns) (hm : ∀ a ∈ positions l ns, m2.get a = m.get a) : WF m2 l ns where
  sentinel := by rw [hm _ (by simp [positions])]; exact h.sentinel
  chain := Seg_congr h.chain (fun a ha => hm a (by simp [positions] at ha ⊢; exact Or.inr ha))
  nodup := h.nodup
  count := h.count

/-- A well-formed container whose footprint is disjoint from `fp` survives a change
of memory framed by `fp`. -/
theorem WF.frame {T A : Type} {m m2 : Mem T} {l : Forward_list A} {ns : List (Nat × T)}
    {fp : List Nat} (h : WF m l ns) (hf : Frame m m2 fp)
    (hd : ∀ a ∈ positions l ns, a ∉ fp) : WF m2 l ns :=
  h.congr (fun a ha => hf a (hd a ha) (h.get_ne_none ha))

theorem Seg_mem {T : Type} {m : Mem T} {ns : List (Nat × T)} {tl : Ptr} (h : Seg m ns tl)
    {a : Nat} {x : T} (ha : (a, x) ∈ ns) : ∃ n, m.get a = some (.node n x) := by
  induction ns with
  | nil => simp at ha
  | cons y rest ih =>
    obtain ⟨b, v⟩ := y
    simp only [List.mem_cons, Prod.mk.injEq] at ha
    rcases ha with ⟨rfl, rfl⟩ | ha
    · exact ⟨_, h.1⟩
    · exact ih h.2 ha

/-! ## Example data -/

theorem exWF : WF exMem exList exNodes where
  sentinel := rfl
  chain := ⟨rfl, rfl, trivial⟩
  nodup := by decide
  count := rfl

theorem envOk_fresh : envOk.Fresh := by
  intro a m q h
  simp only [envOk, Except.ok.injEq] at h
  subst h
  exact Mem.get_fresh m

/-- C6: in a well-formed container of any length, `operator*` on the iterator of
`before_begin()` and on that of `end()` throws `std::runtime_error` and returns no
value, on the iterator at a live node it returns that node's value and throws
nothing; so among the positions of the container the error is raised exactly at the
sentinel and at the end. -/
theorem deref_checked {T A : Type} (m : Mem T) (l : Forward_list A) (ns : List (Nat × T))
    (h : WF m l ns) :
    iterator.deref m l.before_begin = .throws () .runtime_error ∧
    iterator.deref m l.end_ = .throws () .runtime_error ∧
    (∀ a x, (a, x) ∈ ns → iterator.deref m ⟨some a⟩ = .ret () x) ∧
    (∀ it : iterator, (it.ptr = none ∨ ∃ a ∈ positions l ns, it.ptr = some a) →
      ((∃ e, iterator.deref m it = .throws () e) ↔ (it = l.before_begin ∨ it = l.end_))) := by
  have hb : iterator.deref m l.before_begin = .throws () .runtime_error := by
    simp [iterator.deref, Forward_list.before_begin, h.sentinel]
  have hn : ∀ a x, (a, x) ∈ ns → iterator.deref m ⟨some a⟩ = .ret () x := by
    intro a x hax
    obtain ⟨n, hn⟩ := Seg_mem h.chain hax
    simp [iterator.deref, hn]
  refine ⟨hb, rfl, hn, ?_⟩
  rintro ⟨p⟩ hp
  simp only at hp
  rcases hp with rfl | ⟨a, ha, rfl⟩
  · constructor
    · intro _; exact Or.inr rfl
    · intro _; exact ⟨.runtime_error, rfl⟩
  · simp only [positions, List.mem_cons, List.mem_map, Prod.exists, exists_and_right,
      exists_eq_right] at ha
    rcases ha with rfl | ⟨x, hax⟩
    · constructor
      · intro _; exact Or.inl rfl
      · intro _; exact ⟨.runtime_error, hb⟩
    · constructor
      · rintro ⟨e, he⟩
        rw [hn a x hax] at he
        cases he
      · intro hit
        exfalso
        rcases hit with hit | hit
        · simp only [Forward_list.before_begin, iterator.mk.injEq, Option.some.injEq] at hit
          subst hit
          exact h.fake_not_mem (List.mem_map.mpr ⟨(_, x), hax, rfl⟩)
        · simp [Forward_list.end_] at hit

theorem deref_checked_witness :
    WF exMem exList exNodes ∧
    (iterator.deref exMem exList.before_begin = .throws () .runtime_error ∧
    iterator.deref exMem exList.end_ = .throws () .runtime_error ∧
    (∀ a x, (a, x) ∈ exNodes → iterator.deref exMem ⟨some a⟩ = .ret () x) ∧
    (∀ it : iterator, (it.ptr = none ∨ ∃ a ∈ positions exList exNodes, it.ptr = some a) →
      ((∃ e, iterator.deref exMem it = .throws () e) ↔
        (it = exList.before_begin ∨ it = exList.end_)))) :=
  ⟨exWF, deref_checked exMem exList exNodes exWF⟩

/-! ## Insertion -/

theorem readNext_eq {T : Type} {m : Mem T} {a : Nat} {c : Cell T} (h : m.get a = some c) :
    readNext m (some a) = c.next? := by
  cases c <;> simp [readNext, h, Cell.next?]

theorem writeNext_eq {T : Type} {m : Mem T} {a : Nat} {c : Cell T} {n0 : Ptr}
    (h : m.get a = some c) (hc : c.next? = some n0) (n : Ptr) :
    writeNext m (some a) n = some (m.set a (c.setNext n)) := by
  cases c <;> simp_all [writeNext, Cell.next?, Cell.setNext]

@[simp] theorem lastAddr_nil {T : Type} (fake : Nat) : lastAddr fake ([] : List (Nat × T)) = fake :=
  rfl

@[simp] theorem lastAddr_concat {T : Type} (fake : Nat) (pre : List (Nat × T)) (a : Nat) (x : T) :
    lastAddr fake (pre ++ [(a, x)]) = a := by
  simp [lastAddr]

/-- What `insert_after` does when storage is obtained and the value constructed, told
from the cell at the position alone. -/
theorem insert_after_run {T A Args : Type} (env : Env T A Args) (m : Mem T)
    (l : Forward_list A) (p q : Nat) (c : Cell T) (next : Ptr) (args : Args) (v : T)
    (hc : m.get p = some c) (hn : c.next? = some next)
    (hal : env.allocate l.alloc m = .ok q) (hq : m.get q = none)
    (hct : env.construct args = .ok v) :
    ∃ m2, l.insert_after env m ⟨some p⟩ args = .ret (m2, { l with sz := l.sz + 1 }) ⟨some q⟩ ∧
      ∀ a, m2.get a = if a = q then some (.node next v) else
        if a = p then some (c.setNext (some q)) else m.get a := by
  have hpq : p ≠ q := by rintro rfl; rw [hq] at hc; cases hc
  have h1 : (m.set q .raw).get p = some c := by simp [hpq, hc]
  refine ⟨(((m.set q .raw).set p (c.setNext (some q))).set q (.node none v)).set q
    (.node next v), ?_, ?_⟩
  · simp only [Forward_list.insert_after, readNext_eq hc, hn, hal, writeNext_eq h1 hn, hct]
    rw [writeNext_node (n := none) (v := v) (by simp)]
  · intro a
    by_cases haq : a = q
    · simp [haq]
    · by_cases hap : a = p
      · simp [hap, hpq]
      · simp [haq, hap]

theorem headOr_ne_nil {T : Type} {xs : List (Nat × T)} (h : xs ≠ []) (t1 t2 : Ptr) :
    headOr xs t1 = headOr xs t2 := by
  cases xs with
  | nil => exact absurd rfl h
  | cons x rest => rfl

/-- The cell at the position that precedes `post` in a well-formed `pre ++ post`. -/
theorem WF.pos_cell {T A : Type} {m : Mem T} {l : Forward_list A} {pre post : List (Nat × T)}
    (h : WF m l (pre ++ post)) :
    (pre = [] ∧ m.get (lastAddr l.fakeNode pre) = some (.base (headOr post none))) ∨
    (∃ pre2 x, pre = pre2 ++ [(lastAddr l.fakeNode pre, x)] ∧
      m.get (lastAddr l.fakeNode pre) = some (.node (headOr post none) x)) := by
  rcases List.eq_nil_or_concat pre with rfl | ⟨pre2, ⟨a, x⟩, rfl⟩
  · left
    exact ⟨rfl, by simpa using h.sentinel⟩
  · right
    refine ⟨pre2, x, by simp, ?_⟩
    have hc := h.chain
    rw [List.concat_eq_append, List.append_assoc, Seg_append] at hc
    simpa using hc.2.1

theorem WF.pos_cell_next {T A : Type} {m : Mem T} {l : Forward_list A}
    {pre post : List (Nat × T)} (h : WF m l (pre ++ post)) :
    ∃ c, m.get (lastAddr l.fakeNode pre) = some c ∧ c.next? = some (headOr post none) := by
  rcases h.pos_cell with ⟨_, hc⟩ | ⟨_, _, _, hc⟩
  · exact ⟨_, hc, rfl⟩
  · exact ⟨_, hc, rfl⟩

theorem lastAddr_mem {T A : Type} (l : Forward_list A) (pre post : List (Nat × T)) :
    lastAddr l.fakeNode pre ∈ positions l (pre ++ post) := by
  rcases List.eq_nil_or_concat pre with rfl | ⟨pre2, ⟨a, x⟩, rfl⟩
  · simp [positions]
  · simp [positions]

/-- Replace what follows a position: when the cell at the position is given the new
successor, the new tail is a chain and the rest of the container is as before, the
container is well formed with the new tail. -/
theorem WF.relink {T A : Type} {m m2 : Mem T} {l : Forward_list A}
    {pre post post2 : List (Nat × T)} {c : Cell T} (h : WF m l (pre ++ post))
    (hc : m.get (lastAddr l.fakeNode pre) = some c)
    (hp : m2.get (lastAddr l.fakeNode pre) = some (c.setNext (headOr post2 none)))
    (hs : Seg m2 post2 none)
    (hm : ∀ a ∈ positions l pre, a ≠ lastAddr l.fakeNode pre → m2.get a = m.get a)
    (hnd : ((pre ++ post2).map Prod.fst).Nodup) (n : Nat) (hn : n = (pre ++ post2).length) :
    WF m2 { l with sz := n } (pre ++ post2) := by
  rcases h.pos_cell with ⟨rfl, hcell⟩ | ⟨pre2, x, hpre, hcell⟩
  · rw [hc] at hcell
    cases hcell
    exact ⟨by simpa [Cell.setNext] using hp, hs, hnd, hn⟩
  · rw [hc] at hcell
    cases hcell
    have hfake : l.fakeNode ≠ lastAddr l.fakeNode pre := by
      intro he
      apply h.fake_not_mem
      rw [hpre, ← he]
      simp
    have hne : pre ≠ [] := by rw [hpre]; simp
    refine ⟨?_, ?_, hnd, hn⟩
    · show m2.get l.fakeNode = _
      rw [hm _ (by simp [positions]) hfake, h.sentinel, headOr_append, headOr_append]
      rw [headOr_ne_nil hne]
    · have hch := h.chain
      rw [hpre, List.append_assoc, Seg_append] at hch
      rw [hpre, List.append_assoc, Seg_append]
      refine ⟨?_, ?_, hs⟩
      · refine Seg_congr hch.1 ?_
        intro a ha
        have hndp : (pre.map Prod.fst).Nodup := by
          have := hnd
          rw [List.map_append] at this
          exact (List.nodup_append.mp this).1
        rw [hpre, List.map_append, List.nodup_append] at hndp
        refine hm a ?_ ?_
        · rw [hpre]; simp only [positions, List.map_append, List.mem_cons, List.mem_append]
          exact Or.inr (Or.inl ha)
        · intro he
          exact hndp.2.2 ha (by simp [← he])
      · simpa [Cell.setNext] using hp

theorem WF.lastAddr_not_mem_post {T A : Type} {m : Mem T} {l : Forward_list A}
    {pre post : List (Nat × T)} (h : WF m l (pre ++ post)) :
    lastAddr l.fakeNode pre ∉ post.map Prod.fst := by
  rcases List.eq_nil_or_concat pre with rfl | ⟨pre2, ⟨a, x⟩, rfl⟩
  · simpa using h.fake_not_mem
  · have hnd := h.nodup
    rw [List.concat_eq_append, List.map_append, List.nodup_append] at hnd
    intro hmem
    have h1 : a ∈ List.map Prod.fst (pre2 ++ [(a, x)]) := by simp
    exact hnd.2.2 h1 (by simpa using hmem)

theorem positions_getElem? {T A : Type} (l : Forward_list A) (ns : List (Nat × T)) (k p : Nat)
    (h : (positions l ns)[k]? = some p) :
    k ≤ ns.length ∧ p = lastAddr l.fakeNode (ns.take k) := by
  cases k with
  | zero =>
    simp only [positions, List.getElem?_cons_zero, Option.some.injEq] at h
    simp [h]
  | succ j =>
    simp only [positions, List.getElem?_cons_succ, List.getElem?_map] at h
    cases hj : ns[j]? with
    | none => simp [hj] at h
    | some y =>
      obtain ⟨b, w⟩ := y
      simp only [hj, Option.map_some', Option.some.injEq] at h
      have hlt : j < ns.length := by
        by_contra hge
        rw [List.getElem?_eq_none (by omega)] at hj
        cases hj
      refine ⟨hlt, ?_⟩
      rw [List.take_succ, hj]
      simp [h]

theorem mem_positions_append {T A : Type} (l : Forward_list A) (pre post : List (Nat × T))
    (a : Nat) : a ∈ positions l (pre ++ post) ↔
      a = l.fakeNode ∨ a ∈ pre.map Prod.fst ∨ a ∈ post.map Prod.fst := by
  simp only [positions, List.map_append, List.mem_cons, List.mem_append]

theorem mem_positions {T A : Type} (l : Forward_list A) (ns : List (Nat × T))
    (a : Nat) : a ∈ positions l ns ↔ a = l.fakeNode ∨ a ∈ ns.map Prod.fst := by
  simp only [positions, List.mem_cons]

theorem insert_after_split {T A Args : Type} (env : Env T A Args) (m : Mem T)
    (l : Forward_list A) (pre post : List (Nat × T)) (q : Nat) (args : Args) (v : T)
    (hwf : WF m l (pre ++ post))
    (hal : env.allocate l.alloc m = .ok q) (hq : m.get q = none)
    (hct : env.construct args = .ok v) :
    ∃ m2, l.insert_after env m ⟨some (lastAddr l.fakeNode pre)⟩ args
        = .ret (m2, { l with sz := l.sz + 1 }) ⟨some q⟩ ∧
      WF m2 { l with sz := l.sz + 1 } (pre ++ (q, v) :: post) ∧
      m2.get q = some (.node (headOr post none) v) ∧
      readNext m2 (some (lastAddr l.fakeNode pre)) = some (some q) ∧
      Frame m m2 [lastAddr l.fakeNode pre] := by
  obtain ⟨c, hc, hn⟩ := hwf.pos_cell_next
  obtain ⟨m2, hrun, hm2⟩ := insert_after_run env m l _ q c _ args v hc hn hal hq hct
  have hlive : ∀ a ∈ positions l (pre ++ post), a ≠ q := by
    rintro a ha rfl
    exact hwf.get_ne_none ha hq
  have hpq : lastAddr l.fakeNode pre ≠ q := hlive _ (lastAddr_mem l pre post)
  have hp2 : m2.get (lastAddr l.fakeNode pre) = some (c.setNext (some q)) := by
    rw [hm2]; simp [hpq]
  refine ⟨m2, hrun, ?_, by rw [hm2]; simp, ?_, ?_⟩
  · refine hwf.relink hc (by simpa [headOr] using hp2) ?_ ?_ ?_ _ ?_
    · refine ⟨by rw [hm2]; simp, ?_⟩
      have hch := hwf.chain
      rw [Seg_append] at hch
      refine Seg_congr hch.2 ?_
      intro a ha
      have h1 : a ≠ q := hlive a ((mem_positions_append l pre post a).mpr (Or.inr (Or.inr ha)))
      have h2 : a ≠ lastAddr l.fakeNode pre := by
        rintro rfl; exact hwf.lastAddr_not_mem_post ha
      rw [hm2]; simp [h1, h2]
    · intro a ha hne
      have h1 : a ≠ q := by
        refine hlive a ((mem_positions_append l pre post a).mpr ?_)
        rcases (mem_positions l pre a).mp ha with ha | ha
        · exact Or.inl ha
        · exact Or.inr (Or.inl ha)
      rw [hm2]; simp [h1, hne]
    · have hnd := hwf.nodup
      simp only [List.map_append, List.map_cons] at hnd ⊢
      rw [List.nodup_append] at hnd ⊢
      refine ⟨hnd.1, ?_, ?_⟩
      · rw [List.nodup_cons]
        refine ⟨?_, hnd.2.1⟩
        intro hmem
        exact hlive q ((mem_positions_append l pre post q).mpr (Or.inr (Or.inr hmem))) rfl
      · intro a ha hb
        simp only [List.mem_cons] at hb
        rcases hb with rfl | hb
        · exact hlive a ((mem_positions_append l pre post a).mpr (Or.inr (Or.inl ha))) rfl
        · exact hnd.2.2 ha hb
    · have := hwf.count
      simp only [List.length_append, List.length_cons] at this ⊢
      omega
  · cases c with
    | base n => simp [readNext, hp2, Cell.setNext]
    | node n x => simp [readNext, hp2, Cell.setNext]
    | raw => simp [Cell.next?] at hn
  · intro a ha hne
    have h1 : a ≠ q := by rintro rfl; exact hne hq
    have h2 : a ≠ lastAddr l.fakeNode pre := by simpa using ha
    rw [hm2]; simp [h1, h2]

/-- C3: in a well-formed container with nodes `ns`, let `p` be the position of index
`k` among the sentinel followed by the nodes (so `k = 0` is the sentinel and
`k = i + 1` the `i`-th node).  When `allocate` yields storage `q` not in use and the
value `v` is constructed, `insert_after` at `p` returns the position `q`; the
container is well formed with `v` inserted at index `k` and every other element as
before and in order, its count is one more, dereferencing the returned position
yields `v`, the successor of the new node is the former successor of `p`, and the
successor of `p` is the new node. -/
theorem insert_after_spec {T A Args : Type} (env : Env T A Args) (m : Mem T)
    (l : Forward_list A) (ns : List (Nat × T)) (k p q : Nat) (args : Args) (v : T)
    (hwf : WF m l ns) (hp : (positions l ns)[k]? = some p)
    (hal : env.allocate l.alloc m = .ok q) (hq : m.get q = none)
    (hct : env.construct args = .ok v) :
    ∃ m2, l.insert_after env m ⟨some p⟩ args
        = .ret (m2, { l with sz := l.sz + 1 }) ⟨some q⟩ ∧
      WF m2 { l with sz := l.sz + 1 } (ns.take k ++ (q, v) :: ns.drop k) ∧
      (ns.take k ++ (q, v) :: ns.drop k).map Prod.snd
        = (ns.map Prod.snd).take k ++ v :: (ns.map Prod.snd).drop k ∧
      iterator.deref m2 ⟨some q⟩ = .ret () v ∧
      readNext m2 (some q) = readNext m (some p) ∧
      readNext m2 (some p) = some (some q) := by
  obtain ⟨_, rfl⟩ := positions_getElem? l ns k p hp
  have hwf2 : WF m l (ns.take k ++ ns.drop k) := by rw [List.take_append_drop]; exact hwf
  obtain ⟨m2, hrun, hwf3, hq2, hp2, _⟩ :=
    insert_after_split env m l (ns.take k) (ns.drop k) q args v hwf2 hal hq hct
  obtain ⟨c, hc, hn⟩ := hwf2.pos_cell_next
  refine ⟨m2, hrun, hwf3, ?_, ?_, ?_, hp2⟩
  · simp [List.map_take, List.map_drop]
  · simp [iterator.deref, hq2]
  · rw [readNext_node hq2, readNext_eq hc, hn]

theorem insert_after_spec_witness :
    WF exMem exList exNodes ∧ (positions exList exNodes)[1]? = some 1 ∧
    envOk.allocate exList.alloc exMem = .ok 3 ∧ exMem.get 3 = none ∧
    envOk.construct 7 = .ok 7 ∧
    ∃ m2, exList.insert_after envOk exMem ⟨some 1⟩ 7
        = .ret (m2, { exList with sz := exList.sz + 1 }) ⟨some 3⟩ ∧
      WF m2 { exList with sz := exList.sz + 1 } (exNodes.take 1 ++ (3, 7) :: exNodes.drop 1) ∧
      (exNodes.take 1 ++ (3, 7) :: exNodes.drop 1).map Prod.snd
        = (exNodes.map Prod.snd).take 1 ++ 7 :: (exNodes.map Prod.snd).drop 1 ∧
      iterator.deref m2 ⟨some 3⟩ = .ret () 7 ∧
      readNext m2 (some 3) = readNext exMem (some 1) ∧
      readNext m2 (some 1) = some (some 3) :=
  ⟨exWF, rfl, rfl, rfl, rfl,
    insert_after_spec envOk exMem exList exNodes 1 1 3 7 7 exWF rfl rfl rfl rfl⟩

/-! ## Removal -/

theorem erase_after_split {T A : Type} (m : Mem T) (l : Forward_list A)
    (pre post : List (Nat × T)) (d : Nat) (y : T) (hwf : WF m l (pre ++ (d, y) :: post)) :
    ∃ m2, l.erase_after m ⟨some (lastAddr l.fakeNode pre)⟩
        = .ret (m2, { l with sz := l.sz - 1 }) ⟨headOr post none⟩ ∧
      WF m2 { l with sz := l.sz - 1 } (pre ++ post) ∧ 0 < l.sz ∧ m2.get d = none ∧
      Frame m m2 [lastAddr l.fakeNode pre, d] := by
  obtain ⟨c, hc, hn⟩ := hwf.pos_cell_next
  have hch := hwf.chain
  rw [Seg_append] at hch
  have hd : m.get d = some (.node (headOr post none) y) := hch.2.1
  have hpd : lastAddr l.fakeNode pre ≠ d := by
    intro he
    exact hwf.lastAddr_not_mem_post (by simp [he])
  have hsz : l.sz ≠ 0 := by
    have := hwf.count
    simp only [List.length_append, List.length_cons] at this
    omega
  have h1 : ((m.set d .raw).free d).get (lastAddr l.fakeNode pre) = some c := by
    simp [hpd, hc]
  have hnd := hwf.nodup
  simp only [List.map_append, List.map_cons] at hnd
  rw [List.nodup_append, List.nodup_cons] at hnd
  have hm2 : ∀ a, (((m.set d .raw).free d).set (lastAddr l.fakeNode pre)
      (c.setNext (headOr post none))).get a =
      if a = lastAddr l.fakeNode pre then some (c.setNext (headOr post none)) else
        if a = d then none else m.get a := by
    intro a
    by_cases h1 : a = lastAddr l.fakeNode pre
    · simp [h1]
    · by_cases h2 : a = d
      · simp [h1, h2]
      · simp [h1, h2]
  refine ⟨((m.set d .raw).free d).set (lastAddr l.fakeNode pre) (c.setNext (headOr post none)),
    ?_, ?_, Nat.pos_of_ne_zero hsz, ?_, ?_⟩
  · simp only [Forward_list.erase_after, readNext_eq hc, hn, headOr, readNext_node hd,
      destroyDeallocate_node hd, writeNext_eq h1 hn, hsz, if_false]
  · refine hwf.relink hc (by rw [hm2]; simp) ?_ ?_ ?_ _ ?_
    · refine Seg_congr hch.2.2 ?_
      intro a ha
      have h2 : a ≠ lastAddr l.fakeNode pre := by
        rintro rfl
        exact hwf.lastAddr_not_mem_post (by simp [ha])
      have h3 : a ≠ d := by rintro rfl; exact hnd.2.1.1 ha
      rw [hm2]; simp [h2, h3]
    · intro a ha hne
      have h3 : a ≠ d := by
        rintro rfl
        rcases (mem_positions l pre a).mp ha with ha | ha
        · exact hwf.fake_not_mem (by simp [← ha])
        · exact hnd.2.2 ha (by simp)
      rw [hm2]; simp [hne, h3]
    · rw [List.map_append, List.nodup_append]
      refine ⟨hnd.1, hnd.2.1.2, ?_⟩
      intro a ha hb
      exact hnd.2.2 ha (List.mem_cons_of_mem _ hb)
    · have := hwf.count
      simp only [List.length_append, List.length_cons] at this ⊢
      omega
  · rw [hm2]; simp [Ne.symm hpd]
  · intro a ha hne
    simp only [List.mem_cons, List.mem_singleton, not_or, List.not_mem_nil, or_false] at ha
    rw [hm2]; simp [ha.1, ha.2]

theorem headOr_drop {T : Type} (ns : List (Nat × T)) (j : Nat) :
    headOr (ns.drop j) none = (ns.map Prod.fst)[j]? := by
  induction ns generalizing j with
  | nil => simp [headOr]
  | cons x rest ih =>
    obtain ⟨a, v⟩ := x
    cases j with
    | zero => simp [headOr]
    | succ i => simpa using ih i

/-- C5: in a well-formed container with nodes `ns`, `erase_after` at the end position
and at the position that has no successor (the last one) changes neither memory nor
count and returns `end()`; at the position of index `k < |ns|` among the sentinel
followed by the nodes it removes exactly the node of index `k`, the one following
that position, and releases it: the container is well formed with the other nodes
as before and in order, the count is one less, and the returned position is the node
that followed the removed one, or `end()` when there was none. -/
theorem erase_after_spec {T A : Type} (m : Mem T) (l : Forward_list A) (ns : List (Nat × T))
    (hwf : WF m l ns) :
    l.erase_after m l.end_ = .ret (m, l) l.end_ ∧
    (∀ p, (positions l ns)[ns.length]? = some p →
      l.erase_after m ⟨some p⟩ = .ret (m, l) l.end_) ∧
    (∀ k p, k < ns.length → (positions l ns)[k]? = some p →
      ∃ m2, l.erase_after m ⟨some p⟩
          = .ret (m2, { l with sz := l.sz - 1 }) ⟨(ns.map Prod.fst)[k + 1]?⟩ ∧
        WF m2 { l with sz := l.sz - 1 } (ns.take k ++ ns.drop (k + 1)) ∧
        (ns.take k ++ ns.drop (k + 1)).map Prod.snd
          = (ns.map Prod.snd).take k ++ (ns.map Prod.snd).drop (k + 1) ∧
        l.sz - 1 + 1 = l.sz ∧
        (ns.map Prod.fst)[k]?.bind m2.get = none) := by
  refine ⟨rfl, ?_, ?_⟩
  · intro p hp
    obtain ⟨_, rfl⟩ := positions_getElem? l ns _ p hp
    rw [List.take_length]
    have hwf2 : WF m l (ns ++ []) := by simpa using hwf
    obtain ⟨c, hc, hn⟩ := hwf2.pos_cell_next
    simp [Forward_list.erase_after, readNext_eq hc, hn, headOr]
  · intro k p hk hp
    obtain ⟨_, rfl⟩ := positions_getElem? l ns k p hp
    have hsplit : ns = ns.take k ++ (ns[k].1, ns[k].2) :: ns.drop (k + 1) := by
      conv_lhs => rw [← List.take_append_drop k ns, List.drop_eq_getElem_cons hk]
    have hwf2 : WF m l (ns.take k ++ (ns[k].1, ns[k].2) :: ns.drop (k + 1)) := by
      rw [← hsplit]; exact hwf
    obtain ⟨m2, hrun, hwf3, hpos, hrel, _⟩ := erase_after_split m l _ _ _ _ hwf2
    refine ⟨m2, ?_, hwf3, ?_, by omega, ?_⟩
    · rw [hrun, headOr_drop]
    · simp [List.map_take, List.map_drop]
    · simp [List.getElem?_eq_getElem, hk, hrel]

theorem erase_after_spec_witness :
    WF exMem exList exNodes ∧
    (exList.erase_after exMem exList.end_ = .ret (exMem, exList) exList.end_ ∧
    (∀ p, (positions exList exNodes)[exNodes.length]? = some p →
      exList.erase_after exMem ⟨some p⟩ = .ret (exMem, exList) exList.end_) ∧
    (∀ k p, k < exNodes.length → (positions exList exNodes)[k]? = some p →
      ∃ m2, exList.erase_after exMem ⟨some p⟩
          = .ret (m2, { exList with sz := exList.sz - 1 }) ⟨(exNodes.map Prod.fst)[k + 1]?⟩ ∧
        WF m2 { exList with sz := exList.sz - 1 } (exNodes.take k ++ exNodes.drop (k + 1)) ∧
        (exNodes.take k ++ exNodes.drop (k + 1)).map Prod.snd
          = (exNodes.map Prod.snd).take k ++ (exNodes.map Prod.snd).drop (k + 1) ∧
        exList.sz - 1 + 1 = exList.sz ∧
        (exNodes.map Prod.fst)[k]?.bind m2.get = none)) :=
  ⟨exWF, erase_after_spec exMem exList exNodes exWF⟩

/-! ## Clearing -/

/-- The loop of `clear` on a chain: it releases every node but the last and stops at
the last. -/
theorem clearLoop_spec {T : Type} (rest : List (Nat × T)) :
    ∀ (a : Nat) (x : T) (m : Mem T) (fuel : Nat), Seg m ((a, x) :: rest) none →
      (((a, x) :: rest).map Prod.fst).Nodup → rest.length < fuel →
      ∃ m1 b y, clearLoop fuel m (some a) (headOr rest none) = .ret m1 (some b) ∧
        m1.get b = some (.node none y) ∧ b ∈ ((a, x) :: rest).map Prod.fst ∧
        ∀ c, m1.get c = if c ∈ ((a, x) :: rest).map Prod.fst ∧ c ≠ b then none else m.get c := by
  induction rest with
  | nil =>
    intro a x m fuel hs _ hf
    obtain ⟨f, rfl⟩ : ∃ f, fuel = f + 1 := ⟨fuel - 1, by omega⟩
    refine ⟨m, a, x, rfl, hs.1, by simp, ?_⟩
    intro c
    by_cases hc : c = a
    · simp [hc]
    · simp [hc]
  | cons z rest2 ih =>
    obtain ⟨a2, x2⟩ := z
    intro a x m fuel hs hnd hf
    obtain ⟨f, rfl⟩ : ∃ f, fuel = f + 1 := ⟨fuel - 1, by simp at hf; omega⟩
    have ha : m.get a = some (.node (some a2) x) := hs.1
    have hnd2 := hnd
    simp only [List.map_cons, List.nodup_cons, List.mem_cons, not_or] at hnd2
    have hne : a2 ≠ a := fun h => hnd2.1.1 h.symm
    have hs2 : Seg ((m.set a .raw).free a) ((a2, x2) :: rest2) none := by
      refine Seg_congr hs.2 ?_
      intro c hc
      have : c ≠ a := by
        rintro rfl
        simp only [List.map_cons, List.mem_cons] at hc
        rcases hc with hc | hc
        · exact hnd2.1.1 hc
        · exact hnd2.1.2 hc
      simp [this]
    have hnd3 : (((a2, x2) :: rest2).map Prod.fst).Nodup := by
      simp only [List.map_cons, List.nodup_cons]
      exact hnd2.2
    obtain ⟨m1, b, y, hrun, hb, hmem, hm1⟩ := ih a2 x2 _ f hs2 hnd3 (by simp at hf; omega)
    refine ⟨m1, b, y, ?_, hb, List.mem_cons_of_mem _ hmem, ?_⟩
    · simp only [clearLoop, headOr, destroyDeallocate_node ha, readNext_node hs2.1]
      exact hrun
    · intro c
      rw [hm1 c]
      have hba : b ≠ a := by
        rintro rfl
        simp only [List.map_cons, List.mem_cons] at hmem
        rcases hmem with h | h
        · exact hnd2.1.1 h
        · exact hnd2.1.2 h
      by_cases hca : c = a
      · subst hca
        have : ¬ (c ∈ List.map Prod.fst ((a2, x2) :: rest2) ∧ c ≠ b) := by
          rintro ⟨h, _⟩
          simp only [List.map_cons, List.mem_cons] at h
          rcases h with h | h
          · exact hnd2.1.1 h
          · exact hnd2.1.2 h
        simp [this, Ne.symm hba]
      · have hiff : (c ∈ List.map Prod.fst ((a, x) :: (a2, x2) :: rest2) ∧ c ≠ b) ↔
            (c ∈ List.map Prod.fst ((a2, x2) :: rest2) ∧ c ≠ b) := by
          simp [hca]
        rw [if_congr hiff rfl rfl]
        simp [hca]

/-- What `clear` does to a well-formed container: it returns with count zero and
every node released, and it leaves every other cell as it was, the sentinel and its
`next` among them. -/
theorem clear_spec {T A : Type} (fuel : Nat) (m : Mem T) (l : Forward_list A)
    (ns : List (Nat × T)) (hwf : WF m l ns) (hf : ns.length ≤ fuel) :
    ∃ m2, l.clear fuel m = .ret (m2, { l with sz := 0 }) () ∧
      ∀ c, m2.get c = if c ∈ ns.map Prod.fst then none else m.get c := by
  cases ns with
  | nil =>
    have hsz : l.sz = 0 := hwf.count
    refine ⟨m, ?_, by simp⟩
    simp only [Forward_list.clear, hsz, ne_eq, not_true_eq_false, if_false]
    cases l
    simp_all
  | cons z rest =>
    obtain ⟨a, x⟩ := z
    have hsz : l.sz ≠ 0 := by
      have := hwf.count
      simp only [List.length_cons] at this
      omega
    obtain ⟨m1, b, y, hrun, hb, hmem, hm1⟩ :=
      clearLoop_spec rest a x m fuel hwf.chain hwf.nodup (by simpa using hf)
    have hsent : m.get l.fakeNode = some (.base (some a)) := hwf.sentinel
    refine ⟨(m1.set b .raw).free b, ?_, ?_⟩
    · simp only [Forward_list.clear, hsz, ne_eq, not_false_eq_true, if_true,
        readNext_base hsent, readNext_node hwf.chain.1, hrun, destroyDeallocate_node hb]
    · intro c
      by_cases hcb : c = b
      · subst hcb
        rw [if_pos hmem]
        simp
      · simp only [Mem.get_free, hcb, if_false, Mem.get_set, hm1 c, ne_eq, not_false_eq_true,
          and_true]

/-- C2, where the code departs from the claim: `clear()` on the well-formed container
`exList`, whose nodes hold 10 and 20, returns with count zero and both nodes
released, but the sentinel's `next` is not reset: it still holds the address of the
former first node, so `begin()` is not `end()`. -/
theorem clear_keeps_sentinel_next :
    WF exMem exList exNodes ∧
    exList.clear 2 exMem
      = .ret ([(0, .base (some 1))], { fakeNode := 0, sz := 0, alloc := 0 }) () ∧
    readNext ([(0, .base (some 1))] : Mem Nat) (some 0) = some (some 1) ∧
    Mem.get ([(0, .base (some 1))] : Mem Nat) 1 = none ∧
    Mem.get ([(0, .base (some 1))] : Mem Nat) 2 = none ∧
    Forward_list.begin ([(0, .base (some 1))] : Mem Nat)
      ({ fakeNode := 0, sz := 0, alloc := 0 } : Forward_list Nat) = some ⟨some 1⟩ ∧
    Forward_list.end_ ({ fakeNode := 0, sz := 0, alloc := 0 } : Forward_list Nat) = ⟨none⟩ := by
  refine ⟨exWF, rfl, rfl, rfl, rfl, rfl, rfl⟩

/-- C1, where the code departs from the claim: the state reached by constructing a
container from the list `{1}`, calling `clear()` and then `push_front(5)`, all three
returning normally.  After `clear()` the count is zero while the sentinel's `next`
refers to released storage; after `push_front(5)`, the allocator handing the
released storage out again, the count is one and the `next` of the only node refers
to that node itself, so the chain from the sentinel never reaches an absent
reference and the walk of `print()` does not end.  Neither state is well formed for
any list of nodes. -/
theorem reachable_state_not_well_formed :
    Forward_list.ilist_ctor envOk [] 0 [1] 0
      = .ret (memBuilt, { fakeNode := 0, sz := 1, alloc := 0 }) () ∧
    Forward_list.clear 1 memBuilt ({ fakeNode := 0, sz := 1, alloc := 0 } : Forward_list Nat)
      = .ret (memCleared, { fakeNode := 0, sz := 0, alloc := 0 }) () ∧
    readNext memCleared (some 0) = some (some 1) ∧ memCleared.get 1 = none ∧
    Forward_list.push_front envOk memCleared { fakeNode := 0, sz := 0, alloc := 0 } 5
      = .ret (memPushed, { fakeNode := 0, sz := 1, alloc := 0 }) () ∧
    readNext memPushed (some 0) = some (some 1) ∧
    readNext memPushed (some 1) = some (some 1) ∧
    (∀ fuel, Forward_list.print fuel memPushed
      ({ fakeNode := 0, sz := 1, alloc := 0 } : Forward_list Nat) = none) ∧
    (∀ ns, ¬ WF memCleared ({ fakeNode := 0, sz := 0, alloc := 0 } : Forward_list Nat) ns) ∧
    (∀ ns, ¬ WF memPushed ({ fakeNode := 0, sz := 1, alloc := 0 } : Forward_list Nat) ns) := by
  refine ⟨rfl, rfl, rfl, rfl, rfl, rfl, rfl, ?_, ?_, ?_⟩
  rotate_left
  · intro ns h
    have hc := h.count
    have hs := h.sentinel
    cases ns with
    | nil => cases hs
    | cons z rest => cases hc
  · intro ns h
    have hc := h.count
    have hs := h.sentinel
    have hch := h.chain
    cases ns with
    | nil => cases hc
    | cons z rest =>
      obtain ⟨a, x⟩ := z
      cases rest with
      | nil =>
        have ha : a = 1 := by
          have : some (Cell.base (some 1)) = some (Cell.base (some a)) := hs
          simp only [Option.some.injEq, Cell.base.injEq] at this
          exact this.symm
        subst ha
        have : some (Cell.node (some 1) 5) = some (Cell.node none x) := hch.1
        simp at this
      | cons z2 rest2 => simp at hc
  intro fuel
  have hloop : ∀ f, printLoop f memPushed (some 1) = none := by
    intro f
    induction f with
    | zero => rfl
    | succ f ih =>
      have hget : memPushed.get 1 = some (.node (some 1) 5) := rfl
      simp only [printLoop, hget, ih]
  have hnext : readNext memPushed (some 0) = some (some 1) := rfl
  simp only [Forward_list.print, hnext, hloop]

/-! ## Failure of an insertion -/

theorem Cell.setNext_self {T : Type} {c : Cell T} {n : Ptr} (h : c.next? = some n) :
    c.setNext n = c := by
  cases c <;> simp_all [Cell.next?, Cell.setNext]

/-- When `insert_after` fails at a position holding an object: a failed allocation
and a constructor throwing a `std::exception` leave the count and every cell as
they were, the storage obtained being released; a constructor throwing anything else
leaves the position linked to the storage obtained, which stays allocated and holds
no node. -/
theorem insert_after_failure {T A Args : Type} (env : Env T A Args) (m : Mem T)
    (l : Forward_list A) (p : Nat) (c : Cell T) (next : Ptr) (args : Args)
    (hc : m.get p = some c) (hn : c.next? = some next) :
    (∀ e, env.allocate l.alloc m = .error e →
      l.insert_after env m ⟨some p⟩ args = .throws (m, l) e) ∧
    (∀ q e, env.allocate l.alloc m = .ok q → m.get q = none →
      env.construct args = .error e → e.isStdException = true →
      ∃ m2, l.insert_after env m ⟨some p⟩ args = .throws (m2, l) e ∧
        ∀ a, m2.get a = m.get a) ∧
    (∀ q e, env.allocate l.alloc m = .ok q → m.get q = none →
      env.construct args = .error e → e.isStdException = false →
      ∃ m2, l.insert_after env m ⟨some p⟩ args = .throws (m2, l) e ∧
        m2.get q = some .raw ∧ readNext m2 (some p) = some (some q) ∧ Frame m m2 [p]) := by
  refine ⟨?_, ?_, ?_⟩
  · intro e hal
    simp only [Forward_list.insert_after, readNext_eq hc, hn, hal]
  · intro q e hal hq hct he
    have hpq : p ≠ q := by rintro rfl; rw [hq] at hc; cases hc
    have h1 : (m.set q .raw).get p = some c := by simp [hpq, hc]
    have h2 : ((m.set q .raw).set p (c.setNext (some q))).get q = some .raw := by
      simp [Ne.symm hpq]
    have hn3 : (c.setNext (some q)).next? = some (some q) := by
      cases c <;> simp_all [Cell.next?, Cell.setNext]
    have h3 : ((((m.set q .raw).set p (c.setNext (some q))).free q)).get p
        = some (c.setNext (some q)) := by
      simp [hpq]
    refine ⟨(((m.set q .raw).set p (c.setNext (some q))).free q).set p
      ((c.setNext (some q)).setNext next), ?_, ?_⟩
    · simp only [Forward_list.insert_after, readNext_eq hc, hn, hal, writeNext_eq h1 hn, hct,
        he, if_true, deallocate, h2, writeNext_eq h3 hn3]
    · intro a
      have hcc : (c.setNext (some q)).setNext next = c := by
        cases c <;> simp_all [Cell.next?, Cell.setNext]
      by_cases hap : a = p
      · simp [hap, hcc, hc]
      · by_cases haq : a = q
        · simp [hap, haq, hq, Ne.symm hpq]
        · simp [hap, haq]
  · intro q e hal hq hct he
    have hpq : p ≠ q := by rintro rfl; rw [hq] at hc; cases hc
    have h1 : (m.set q .raw).get p = some c := by simp [hpq, hc]
    refine ⟨(m.set q .raw).set p (c.setNext (some q)), ?_, by simp [Ne.symm hpq], ?_, ?_⟩
    · simp [Forward_list.insert_after, readNext_eq hc, hn, hal, writeNext_eq h1 hn, hct, he]
    · cases c with
      | base n => simp [readNext, Cell.setNext]
      | node n x => simp [readNext, Cell.setNext]
      | raw => simp [Cell.next?] at hn
    · intro a ha hne
      have h3 : a ≠ q := by rintro rfl; exact hne hq
      have h4 : a ≠ p := by simpa using ha
      simp [h3, h4]

/-- C4, where the code departs from the claim: `insert_after(before_begin(), 7)` on
the well-formed container `exList`, the allocation succeeding and the constructor of
the value throwing an object that is not a `std::exception`.  The `catch` clause does
not match: the exception propagates with the count unchanged, but the sentinel's
`next`, which referred to the first node, now refers to the storage just obtained,
and that storage is still allocated and holds no node. -/
theorem insert_after_foreign_exception :
    WF exMem exList exNodes ∧
    exList.insert_after (envThrow 7 .foreign) exMem exList.before_begin 7
      = .throws (memHalfInserted, exList) .foreign ∧
    readNext exMem (some exList.fakeNode) = some (some 1) ∧
    readNext memHalfInserted (some exList.fakeNode) = some (some 3) ∧
    exMem.get 3 = none ∧
    memHalfInserted.get 3 = some .raw ∧
    Forward_list.print 10 exMem exList = some (2, [10, 20]) ∧
    ∀ fuel, Forward_list.print fuel memHalfInserted exList = none := by
  refine ⟨exWF, rfl, rfl, rfl, rfl, rfl, rfl, ?_⟩
  intro fuel
  have hnext : readNext memHalfInserted (some exList.fakeNode) = some (some 3) := rfl
  have hget : memHalfInserted.get 3 = some .raw := rfl
  cases fuel with
  | zero => simp [Forward_list.print, hnext, printLoop]
  | succ f => simp [Forward_list.print, hnext, printLoop, hget]

/-! ## Building a chain element by element -/

/-- What the shared loop body does when storage is obtained and the node constructed,
told from the cell at `thisIter` alone. -/
theorem linkNewNode_run {T A Args : Type} (env : Env T A Args) (al : A) (m : Mem T)
    (p q : Nat) (c : Cell T) (next : Ptr) (elem : Mem T → Option Args) (x : Args) (v : T)
    (hc : m.get p = some c) (hn : c.next? = some next)
    (hal : env.allocate al m = .ok q) (hq : m.get q = none)
    (hel : elem ((m.set q .raw).set p (c.setNext (some q))) = some x)
    (hct : env.construct x = .ok v) :
    ∃ m2, linkNewNode env al m (some p) elem = .ret m2 (some q) ∧
      ∀ a, m2.get a = if a = q then some (.node none v) else
        if a = p then some (c.setNext (some q)) else m.get a := by
  have hpq : p ≠ q := by rintro rfl; rw [hq] at hc; cases hc
  have h1 : (m.set q .raw).get p = some c := by simp [hpq, hc]
  refine ⟨((m.set q .raw).set p (c.setNext (some q))).set q (.node none v), ?_, ?_⟩
  · simp only [linkNewNode, hal, writeNext_eq h1 hn, hel, hct]
  · intro a
    by_cases haq : a = q
    · simp [haq]
    · by_cases hap : a = p
      · simp [hap, hpq]
      · simp [haq, hap]

/-- Linking a new node after the last position of a well-formed container appends it. -/
theorem linkNewNode_append {T A Args : Type} (env : Env T A Args) (al : A) (m : Mem T)
    (l : Forward_list A) (done : List (Nat × T)) (q : Nat)
    (elem : Mem T → Option Args) (x : Args) (v : T) (hwf : WF m l done)
    (hal : env.allocate al m = .ok q) (hq : m.get q = none)
    (hel : ∀ m2 : Mem T, Frame m m2 [lastAddr l.fakeNode done] → elem m2 = some x)
    (hct : env.construct x = .ok v) :
    ∃ m2, linkNewNode env al m (some (lastAddr l.fakeNode done)) elem = .ret m2 (some q) ∧
      WF m2 { l with sz := l.sz + 1 } (done ++ [(q, v)]) ∧
      Frame m m2 [lastAddr l.fakeNode done] ∧
      (∀ a, m2.get a ≠ none → m.get a ≠ none ∨ a = q) := by
  have hwf2 : WF m l (done ++ []) := by simpa using hwf
  obtain ⟨c, hc, hn⟩ := hwf2.pos_cell_next
  have hlive : ∀ a ∈ positions l done, a ≠ q := by
    rintro a ha rfl
    exact hwf.get_ne_none ha hq
  have hel2 : elem ((m.set q .raw).set (lastAddr l.fakeNode done) (c.setNext (some q)))
      = some x := by
    apply hel
    intro a ha hne
    have h1 : a ≠ q := by rintro rfl; exact hne hq
    have h2 : a ≠ lastAddr l.fakeNode done := by simpa using ha
    simp [h1, h2]
  obtain ⟨m2, hrun, hm2⟩ := linkNewNode_run env al m _ q c _ elem x v hc hn hal hq hel2 hct
  have hpq : lastAddr l.fakeNode done ≠ q := by
    have := lastAddr_mem l done []
    rw [List.append_nil] at this
    exact hlive _ this
  refine ⟨m2, hrun, ?_, ?_, ?_⟩
  rotate_left 2
  · intro a hne
    by_cases haq : a = q
    · exact Or.inr haq
    · left
      by_cases hap : a = lastAddr l.fakeNode done
      · subst hap; rw [hc]; simp
      · rw [hm2] at hne
        simpa [haq, hap] using hne
  · refine hwf2.relink hc (by rw [hm2]; simp [hpq, headOr]) ?_ ?_ ?_ _ ?_
    · exact ⟨by rw [hm2]; simp [headOr], trivial⟩
    · intro a ha hne
      rw [hm2]; simp [hne, hlive a ha]
    · rw [List.map_append, List.nodup_append]
      refine ⟨hwf.nodup, by simp, ?_⟩
      intro a ha hb
      simp only [List.map_cons, List.map_nil, List.mem_singleton] at hb
      subst hb
      exact hlive a ((mem_positions l done a).mpr (Or.inr ha)) rfl
    · have := hwf.count
      simp only [List.length_append, List.length_cons, List.length_nil]
      omega
  · intro a ha hne
    have h1 : a ≠ q := by rintro rfl; exact hne hq
    have h2 : a ≠ lastAddr l.fakeNode done := by simpa using ha
    rw [hm2]; simp [h1, h2]

/-- The loop of the range and initializer-list constructors appends one node per
source element, in source order, when no allocation and no construction fails. -/
theorem buildLoop_spec {T A : Type} (env : Env T A T) (al : A) (hnf : env.NoFail al)
    (hfr : env.Fresh) (xs : List T) :
    ∀ (m : Mem T) (l : Forward_list A) (done : List (Nat × T)), WF m l done →
      (∀ x ∈ xs, env.construct x = .ok x) →
      ∃ m2 new, buildLoop env al xs m (some (lastAddr l.fakeNode done)) l.sz
          = .ret (m2, l.sz + xs.length) (some (lastAddr l.fakeNode (done ++ new))) ∧
        WF m2 { l with sz := l.sz + xs.length } (done ++ new) ∧
        new.map Prod.snd = xs ∧ Frame m m2 (positions l done) := by
  induction xs with
  | nil =>
    intro m l done hwf _
    refine ⟨m, [], by simp [buildLoop], by simpa using hwf, rfl, fun a _ _ => rfl⟩
  | cons x rest ih =>
    intro m l done hwf hct
    obtain ⟨q, hal⟩ := hnf m
    have hq := hfr al m q hal
    obtain ⟨m1, hrun, hwf1, hfr1, _⟩ := linkNewNode_append env al m l done q
      (fun _ => some x) x x hwf hal hq (fun _ _ => rfl) (hct x (by simp))
    obtain ⟨m2, new, hloop, hwf2, hval, hfr2⟩ := ih m1 { l with sz := l.sz + 1 }
      (done ++ [(q, x)]) hwf1 (fun y hy => hct y (by simp [hy]))
    refine ⟨m2, (q, x) :: new, ?_, ?_, by simp [hval], ?_⟩
    · simp only [buildLoop, hrun]
      simp only [lastAddr_concat, List.append_assoc, List.singleton_append] at hloop
      rw [hloop]
      simp only [List.length_cons]
      congr 2
      omega
    · have : l.sz + (x :: rest).length = l.sz + 1 + rest.length := by
        simp only [List.length_cons]; omega
      rw [this]
      simpa using hwf2
    · intro a ha hne
      have hap : a ≠ lastAddr l.fakeNode done := by
        rintro rfl
        apply ha
        have := lastAddr_mem l done []
        rwa [List.append_nil] at this
      have h1 : m1.get a = m.get a := hfr1 a (by simpa using hap) hne
      have haq : a ≠ q := by rintro rfl; exact hne hq
      have h2 : m2.get a = m1.get a := by
        refine hfr2 a ?_ (by rw [h1]; exact hne)
        intro hmem
        rcases (mem_positions_append _ done [(q, x)] a).mp hmem with h | h | h
        · exact ha ((mem_positions l done a).mpr (Or.inl h))
        · exact ha ((mem_positions l done a).mpr (Or.inr h))
        · simp at h; exact haq h
      rw [h2, h1]

theorem printLoop_seg {T : Type} (m : Mem T) (ns : List (Nat × T)) :
    ∀ fuel, Seg m ns none → ns.length < fuel →
      printLoop fuel m (headOr ns none) = some (ns.map Prod.snd) := by
  induction ns with
  | nil =>
    intro fuel _ hf
    obtain ⟨f, rfl⟩ : ∃ f, fuel = f + 1 := ⟨fuel - 1, by simp at hf; omega⟩
    rfl
  | cons z rest ih =>
    obtain ⟨a, x⟩ := z
    intro fuel hs hf
    obtain ⟨f, rfl⟩ : ∃ f, fuel = f + 1 := ⟨fuel - 1, by simp at hf; omega⟩
    have := ih f hs.2 (by simp at hf; omega)
    show printLoop (f + 1) m (some a) = _
    simp only [printLoop, hs.1, this, List.map_cons]

/-- On a well-formed container `print()` writes the count and the values in order. -/
theorem print_of_WF {T A : Type} {m : Mem T} {l : Forward_list A} {ns : List (Nat × T)}
    (h : WF m l ns) (fuel : Nat) (hf : ns.length < fuel) :
    l.print fuel m = some (ns.length, ns.map Prod.snd) := by
  simp only [Forward_list.print, readNext_base h.sentinel, printLoop_seg m ns fuel h.chain hf,
    h.count]

/-- Both element-wise constructors end by `thisIter->next = nullptr`, which changes
nothing after the loop. -/
theorem build_finish {T A : Type} (env : Env T A T) (m : Mem T) (self : Nat) (xs : List T)
    (a : A) (hnf : env.NoFail a) (hfr : env.Fresh)
    (hct : ∀ x ∈ xs, env.construct x = .ok x) :
    ∃ m1 m2 ns thisIter,
      buildLoop env a xs (m.set self (.base none)) (some self) 0
        = .ret (m1, xs.length) thisIter ∧
      writeNext m1 thisIter none = some m2 ∧
      WF m2 ({ fakeNode := self, sz := xs.length, alloc := a } : Forward_list A) ns ∧
      ns.map Prod.snd = xs ∧ Frame (m.set self (.base none)) m2 [self] := by
  have hwf0 : WF (m.set self (.base none))
      ({ fakeNode := self, sz := 0, alloc := a } : Forward_list A) [] :=
    ⟨by simp [headOr], trivial, by simp, rfl⟩
  obtain ⟨m1, new, hloop, hwf1, hval, hfr1⟩ := buildLoop_spec env a hnf hfr xs _ _ [] hwf0 hct
  simp only [lastAddr_nil, Nat.zero_add, List.nil_append] at hloop hwf1
  have hwf2 : WF m1 ({ fakeNode := self, sz := xs.length, alloc := a } : Forward_list A)
      (new ++ []) := by simpa using hwf1
  obtain ⟨c, hc, hn⟩ := hwf2.pos_cell_next
  have hn : c.next? = some none := hn
  have hc : m1.get (lastAddr self new) = some c := hc
  have hsame : ∀ b, (m1.set (lastAddr self new) (c.setNext none)).get b = m1.get b := by
    intro b
    by_cases hb : b = lastAddr self new
    · subst hb
      rw [Mem.get_set, if_pos rfl, Cell.setNext_self hn, hc]
    · simp [hb]
  refine ⟨m1, _, new, _, hloop, writeNext_eq hc hn none, hwf1.congr (fun b _ => hsame b), hval, ?_⟩
  intro b hb hne
  rw [hsame b]
  exact hfr1 b (by simpa [positions] using hb) hne

/-- C7: when no allocation fails (and storage handed out is not in use) and copying
no element of `xs` fails, the constructor from a range yielding `xs` and the
constructor from the initializer list `xs` both return a well-formed container whose
values are exactly `xs` in source order and whose count is the length of `xs`; this
is also what `print()` shows. -/
theorem bulk_ctor_spec {T A : Type} (env : Env T A T) (m : Mem T) (self : Nat) (xs : List T)
    (a : A) (hnf : env.NoFail a) (hfr : env.Fresh)
    (hct : ∀ x ∈ xs, env.construct x = .ok x) :
    (∃ m2 ns, Forward_list.range_ctor env m self xs a
        = .ret (m2, { fakeNode := self, sz := xs.length, alloc := a }) () ∧
      WF m2 ({ fakeNode := self, sz := xs.length, alloc := a } : Forward_list A) ns ∧
      ns.map Prod.snd = xs ∧
      Forward_list.print (xs.length + 1) m2
        ({ fakeNode := self, sz := xs.length, alloc := a } : Forward_list A)
        = some (xs.length, xs)) ∧
    (∃ m2 ns, Forward_list.ilist_ctor env m self xs a
        = .ret (m2, { fakeNode := self, sz := xs.length, alloc := a }) () ∧
      WF m2 ({ fakeNode := self, sz := xs.length, alloc := a } : Forward_list A) ns ∧
      ns.map Prod.snd = xs ∧
      Forward_list.print (xs.length + 1) m2
        ({ fakeNode := self, sz := xs.length, alloc := a } : Forward_list A)
        = some (xs.length, xs)) := by
  obtain ⟨m1, m2, ns, thisIter, hloop, hw, hwf, hval, _⟩ :=
    build_finish env m self xs a hnf hfr hct
  have hlen : ns.length = xs.length := by rw [← hval, List.length_map]
  have hpr : Forward_list.print (xs.length + 1) m2
      ({ fakeNode := self, sz := xs.length, alloc := a } : Forward_list A)
      = some (xs.length, xs) := by
    rw [print_of_WF hwf (xs.length + 1) (by omega), hval, hlen]
  constructor
  · refine ⟨m2, ns, ?_, hwf, hval, hpr⟩
    simp only [Forward_list.range_ctor, hloop, hw]
  · refine ⟨m2, ns, ?_, hwf, hval, hpr⟩
    simp only [Forward_list.ilist_ctor, hloop, hw]

theorem bulk_ctor_spec_witness :
    envOk.NoFail 0 ∧ envOk.Fresh ∧ (∀ x ∈ [1, 2, 3], envOk.construct x = .ok x) ∧
    ((∃ m2 ns, Forward_list.range_ctor envOk [] 0 [1, 2, 3] 0
        = .ret (m2, { fakeNode := 0, sz := [1, 2, 3].length, alloc := 0 }) () ∧
      WF m2 ({ fakeNode := 0, sz := [1, 2, 3].length, alloc := 0 } : Forward_list Nat) ns ∧
      ns.map Prod.snd = [1, 2, 3] ∧
      Forward_list.print ([1, 2, 3].length + 1) m2
        ({ fakeNode := 0, sz := [1, 2, 3].length, alloc := 0 } : Forward_list Nat)
        = some ([1, 2, 3].length, [1, 2, 3])) ∧
    (∃ m2 ns, Forward_list.ilist_ctor envOk [] 0 [1, 2, 3] 0
        = .ret (m2, { fakeNode := 0, sz := [1, 2, 3].length, alloc := 0 }) () ∧
      WF m2 ({ fakeNode := 0, sz := [1, 2, 3].length, alloc := 0 } : Forward_list Nat) ns ∧
      ns.map Prod.snd = [1, 2, 3] ∧
      Forward_list.print ([1, 2, 3].length + 1) m2
        ({ fakeNode := 0, sz := [1, 2, 3].length, alloc := 0 } : Forward_list Nat)
        = some ([1, 2, 3].length, [1, 2, 3]))) :=
  ⟨fun m => ⟨m.fresh, rfl⟩, envOk_fresh, fun _ _ => rfl,
    bulk_ctor_spec envOk [] 0 [1, 2, 3] 0 (fun m => ⟨m.fresh, rfl⟩) envOk_fresh
      (fun _ _ => rfl)⟩

/-! ## Moving -/

/-- C9: move construction from a well-formed container with nodes `ns` and count `n`,
on storage not in use, performs no allocation and cannot fail; the destination is
well formed with the very nodes `ns`, hence the same values in the same order, and
count `n`; the source is left well formed and empty: the `next` of its sentinel is
absent, its count is zero and `empty()` is true. -/
theorem move_ctor_spec {T A : Type} [Inhabited A] (m : Mem T) (self : Nat)
    (other : Forward_list A) (ns : List (Nat × T)) (hwf : WF m other ns)
    (hself : m.get self = none) :
    ∃ m1, Forward_list.move_ctor m self other
        = some (m1, { fakeNode := self, sz := other.sz, alloc := other.alloc },
            { fakeNode := other.fakeNode, sz := 0, alloc := default }) ∧
      WF m1 ({ fakeNode := self, sz := other.sz, alloc := other.alloc } : Forward_list A) ns ∧
      other.sz = ns.length ∧
      WF m1 ({ fakeNode := other.fakeNode, sz := 0, alloc := default } : Forward_list A) [] ∧
      readNext m1 (some other.fakeNode) = some none ∧
      Forward_list.empty
        ({ fakeNode := other.fakeNode, sz := 0, alloc := default } : Forward_list A) = true := by
  have hne : other.fakeNode ≠ self := by
    rintro he
    rw [← he, hwf.sentinel] at hself
    cases hself
  have hlive : ∀ a ∈ ns.map Prod.fst, a ≠ self := by
    rintro a ha rfl
    exact Seg_get_ne_none hwf.chain ha hself
  have h0 : (m.set self (.base none)).get self = some (.base none) := by simp
  have h1 : (m.set self (.base none)).get other.fakeNode = some (.base (headOr ns none)) := by
    simp [hne, hwf.sentinel]
  have h2 : ((m.set self (.base none)).set self (.base (headOr ns none))).get other.fakeNode
      = some (.base (headOr ns none)) := by
    simp [hne, hwf.sentinel]
  refine ⟨((m.set self (.base none)).set self (.base (headOr ns none))).set other.fakeNode
    (.base none), ?_, ?_, hwf.count, ?_, ?_, rfl⟩
  · simp only [Forward_list.move_ctor, Forward_list.default_ctor, swapBaseNode,
      readNext_base h0, readNext_base h1, writeNext_base h0, writeNext_base h2]
  · refine ⟨by simp [Ne.symm hne], ?_, hwf.nodup, hwf.count⟩
    refine Seg_congr hwf.chain ?_
    intro a ha
    have h3 : a ≠ other.fakeNode := by rintro rfl; exact hwf.fake_not_mem ha
    simp [h3, hlive a ha]
  · exact ⟨by simp [headOr], trivial, by simp, rfl⟩
  · simp [readNext]

theorem move_ctor_spec_witness :
    WF exMem exList exNodes ∧ exMem.get 7 = none ∧
    ∃ m1, Forward_list.move_ctor exMem 7 exList
        = some (m1, { fakeNode := 7, sz := exList.sz, alloc := exList.alloc },
            { fakeNode := exList.fakeNode, sz := 0, alloc := default }) ∧
      WF m1 ({ fakeNode := 7, sz := exList.sz, alloc := exList.alloc } : Forward_list Nat)
        exNodes ∧
      exList.sz = exNodes.length ∧
      WF m1 ({ fakeNode := exList.fakeNode, sz := 0, alloc := default } : Forward_list Nat) [] ∧
      readNext m1 (some exList.fakeNode) = some none ∧
      Forward_list.empty
        ({ fakeNode := exList.fakeNode, sz := 0, alloc := default } : Forward_list Nat)
        = true :=
  ⟨exWF, rfl, move_ctor_spec exMem 7 exList exNodes exWF rfl⟩

/-! ## Copying -/

theorem Frame.step {T : Type} {m m1 m2 : Mem T} {fp fp1 fp2 : List Nat} {q : Nat}
    (h1 : Frame m m1 fp1) (h2 : Frame m1 m2 fp2) (hq : m.get q = none)
    (hsub1 : ∀ a ∈ fp1, a ∈ fp) (hsub2 : ∀ a ∈ fp2, a ∈ fp ∨ a = q) :
    Frame m m2 fp := by
  intro a ha hne
  have haq : a ≠ q := by rintro rfl; exact hne hq
  have h3 : m1.get a = m.get a := h1 a (fun h => ha (hsub1 a h)) hne
  have h4 : a ∉ fp2 := by
    intro h
    rcases hsub2 a h with h | h
    · exact ha h
    · exact haq h
  rw [h2 a h4 (by rw [h3]; exact hne), h3]

/-- The loop of the copy constructor: with the source well formed, the part built so
far well formed and disjoint from it, no allocation and no copy failing, it appends a
fresh node for every remaining source node, in order, and leaves the source as it
is. -/
theorem copyLoop_spec {T A : Type} (env : Env T A T) (al : A) (hnf : env.NoFail al)
    (hfr : env.Fresh) (other : Forward_list A) (srest : List (Nat × T)) :
    ∀ (fuel : Nat) (m : Mem T) (l : Forward_list A) (done sdone : List (Nat × T)),
      WF m other (sdone ++ srest) → WF m l done →
      (∀ a ∈ positions l done, a ∉ positions other (sdone ++ srest)) →
      (∀ x ∈ srest.map Prod.snd, env.construct x = .ok x) → srest.length < fuel →
      ∃ m2 new, copyLoop env al fuel m (some (lastAddr l.fakeNode done))
            (some (lastAddr other.fakeNode sdone)) l.sz
          = .ret (m2, l.sz + srest.length) (some (lastAddr l.fakeNode (done ++ new))) ∧
        WF m2 { l with sz := l.sz + srest.length } (done ++ new) ∧
        new.map Prod.snd = srest.map Prod.snd ∧
        WF m2 other (sdone ++ srest) ∧
        (∀ a ∈ positions l (done ++ new), a ∉ positions other (sdone ++ srest)) ∧
        Frame m m2 (positions l done) ∧ (∀ a ∈ new.map Prod.fst, m.get a = none) := by
  induction srest with
  | nil =>
    intro fuel m l done sdone hsrc hdst hdisj _ hf
    obtain ⟨f, rfl⟩ : ∃ f, fuel = f + 1 := ⟨fuel - 1, by simp at hf; omega⟩
    obtain ⟨c, hc, hn⟩ := hsrc.pos_cell_next
    refine ⟨m, [], ?_, by simpa using hdst, rfl, hsrc, by simpa using hdisj, fun a _ _ => rfl,
      by simp⟩
    simp [copyLoop, readNext_eq hc, hn, headOr]
  | cons z srest2 ih =>
    obtain ⟨o, v⟩ := z
    intro fuel m l done sdone hsrc hdst hdisj hct hf
    obtain ⟨f, rfl⟩ : ∃ f, fuel = f + 1 := ⟨fuel - 1, by simp at hf; omega⟩
    obtain ⟨c, hc, hn⟩ := hsrc.pos_cell_next
    have hn2 : c.next? = some (some o) := hn
    obtain ⟨q, hal⟩ := hnf m
    have hq := hfr al m q hal
    have hch := hsrc.chain
    rw [Seg_append] at hch
    have ho : m.get o = some (.node (headOr srest2 none) v) := hch.2.1
    have homem : o ∈ positions other (sdone ++ (o, v) :: srest2) :=
      (mem_positions_append other sdone _ o).mpr (Or.inr (Or.inr (by simp)))
    have hpmem : lastAddr l.fakeNode done ∈ positions l done := by
      have := lastAddr_mem l done []
      rwa [List.append_nil] at this
    have hel : ∀ m2 : Mem T, Frame m m2 [lastAddr l.fakeNode done] →
        (fun m3 => readValue m3 (some o)) m2 = some v := by
      intro m2 hfm
      have hne : o ∉ [lastAddr l.fakeNode done] := by
        simp only [List.mem_singleton]
        rintro rfl
        exact hdisj _ hpmem homem
      have : m2.get o = m.get o := hfm o hne (by rw [ho]; simp)
      simp [readValue, this, ho]
    obtain ⟨m1, hrun, hwf1, hfr1, _⟩ := linkNewNode_append env al m l done q
      (fun m3 => readValue m3 (some o)) v v hdst hal hq hel (hct v (by simp))
    have hsrc1 : WF m1 other (sdone ++ (o, v) :: srest2) := by
      refine hsrc.frame hfr1 ?_
      intro a ha
      simp only [List.mem_singleton]
      rintro rfl
      exact hdisj _ hpmem ha
    have hsrc2 : WF m1 other ((sdone ++ [(o, v)]) ++ srest2) := by simpa using hsrc1
    have hdisj1 : ∀ a ∈ positions ({ l with sz := l.sz + 1 } : Forward_list A)
        (done ++ [(q, v)]), a ∉ positions other ((sdone ++ [(o, v)]) ++ srest2) := by
      intro a ha hb
      have hb2 : a ∈ positions other (sdone ++ (o, v) :: srest2) := by simpa using hb
      rcases (mem_positions_append _ done [(q, v)] a).mp ha with h | h | h
      · exact hdisj a ((mem_positions l done a).mpr (Or.inl h)) hb2
      · exact hdisj a ((mem_positions l done a).mpr (Or.inr h)) hb2
      · simp only [List.map_cons, List.map_nil, List.mem_singleton] at h
        subst h
        exact hsrc.get_ne_none hb2 hq
    obtain ⟨m2, new, hloop, hwf2, hval, hsrc3, hdisj2, hfr2, hnew⟩ :=
      ih f m1 { l with sz := l.sz + 1 } (done ++ [(q, v)]) (sdone ++ [(o, v)]) hsrc2 hwf1
        hdisj1 (fun y hy => hct y (by simp at hy ⊢; exact Or.inr hy)) (by simp at hf; omega)
    refine ⟨m2, (q, v) :: new, ?_, ?_, by simp [hval], by simpa using hsrc3, ?_, ?_, ?_⟩
    · simp only [copyLoop, readNext_eq hc, hn2, hrun]
      simp only [lastAddr_concat, List.append_assoc, List.singleton_append] at hloop
      rw [hloop]
      simp only [List.length_cons]
      congr 2
      omega
    · have : l.sz + ((o, v) :: srest2).length = l.sz + 1 + srest2.length := by
        simp only [List.length_cons]; omega
      rw [this]
      simpa using hwf2
    · intro a ha hb
      exact hdisj2 a (by simpa using ha) (by simpa using hb)
    · refine Frame.step hfr1 hfr2 hq ?_ ?_
      · intro a ha
        simp only [List.mem_singleton] at ha
        subst ha
        exact hpmem
      · intro a ha
        rcases (mem_positions_append _ done [(q, v)] a).mp ha with h | h | h
        · exact Or.inl ((mem_positions l done a).mpr (Or.inl h))
        · exact Or.inl ((mem_positions l done a).mpr (Or.inr h))
        · right; simpa using h
    · intro a ha
      simp only [List.map_cons, List.mem_cons] at ha
      rcases ha with rfl | ha
      · exact hq
      · have h1 : m1.get a = none := hnew a ha
        by_contra hne
        by_cases hap : a = lastAddr l.fakeNode done
        · subst hap
          refine hwf1.get_ne_none ?_ h1
          exact (mem_positions_append _ done [(q, v)] _).mpr
            (((mem_positions l done _).mp hpmem).imp id Or.inl)
        · rw [hfr1 a (by simpa using hap) hne] at h1
          exact hne h1

/-- Copy construction from a well-formed container, when no allocation and no copy of
a value fails: the copy is well formed with the values of the source in order, its
nodes and sentinel are not positions of the source, and no cell in use before has
changed. -/
theorem copy_ctor_ok {T A : Type} [Inhabited A] (env : Env T A T) (fuel : Nat) (m : Mem T)
    (self : Nat) (other : Forward_list A) (src : List (Nat × T))
    (hnf : env.NoFail default) (hfr : env.Fresh) (hsrc : WF m other src)
    (hself : m.get self = none) (hct : ∀ x ∈ src.map Prod.snd, env.construct x = .ok x)
    (hf : src.length < fuel) :
    ∃ m2 ns, Forward_list.copy_ctor env fuel m self other
        = .ret m2 { fakeNode := self, sz := src.length, alloc := default } ∧
      WF m2 ({ fakeNode := self, sz := src.length, alloc := default } : Forward_list A) ns ∧
      ns.map Prod.snd = src.map Prod.snd ∧ WF m2 other src ∧
      (∀ a ∈ positions ({ fakeNode := self, sz := src.length, alloc := default } :
        Forward_list A) ns, a ∉ positions other src) ∧
      Frame m m2 [] ∧
      (∀ a ∈ positions ({ fakeNode := self, sz := src.length, alloc := default } :
        Forward_list A) ns, m.get a = none) := by
  have hnself : ∀ a ∈ positions other src, a ≠ self := by
    rintro a ha rfl
    exact hsrc.get_ne_none ha hself
  have hwf0 : WF (m.set self (.base none))
      ({ fakeNode := self, sz := 0, alloc := default } : Forward_list A) [] :=
    ⟨by simp [headOr], trivial, by simp, rfl⟩
  have hsrc0 : WF (m.set self (.base none)) other ([] ++ src) := by
    refine hsrc.congr ?_
    intro a ha
    simp [hnself a ha]
  have hdisj0 : ∀ a ∈ positions ({ fakeNode := self, sz := 0, alloc := default } :
      Forward_list A) ([] : List (Nat × T)), a ∉ positions other ([] ++ src) := by
    intro a ha hb
    simp only [positions, List.map_nil, List.mem_singleton] at ha
    subst ha
    exact hnself _ (by simpa using hb) rfl
  obtain ⟨m1, new, hloop, hwf1, hval, hsrc1, hdisj1, hfr1, hnew⟩ :=
    copyLoop_spec env default hnf hfr other src fuel _ _ [] [] hsrc0 hwf0 hdisj0 hct hf
  simp only [lastAddr_nil, Nat.zero_add, List.nil_append] at hloop hwf1 hsrc1 hdisj1
  have hwf2 : WF m1 ({ fakeNode := self, sz := src.length, alloc := default } : Forward_list A)
      (new ++ []) := by simpa using hwf1
  obtain ⟨c, hc, hn⟩ := hwf2.pos_cell_next
  have hn : c.next? = some none := hn
  have hc : m1.get (lastAddr self new) = some c := hc
  have hsame : ∀ b, (m1.set (lastAddr self new) (c.setNext none)).get b = m1.get b := by
    intro b
    by_cases hb : b = lastAddr self new
    · subst hb
      rw [Mem.get_set, if_pos rfl, Cell.setNext_self hn, hc]
    · simp [hb]
  refine ⟨_, new, ?_, hwf1.congr (fun b _ => hsame b), hval, hsrc1.congr (fun b _ => hsame b),
    hdisj1, ?_, ?_⟩
  · simp only [Forward_list.copy_ctor, Forward_list.copy_ctor_body, Forward_list.default_ctor,
      hloop, writeNext_eq hc hn none]
  · intro b _ hne
    have hbs : b ≠ self := by rintro rfl; exact hne hself
    rw [hsame b, hfr1 b (by simpa [positions] using hbs) (by simpa [hbs] using hne)]
    simp [hbs]
  · intro b hb
    rcases (mem_positions _ new b).mp hb with rfl | hb
    · exact hself
    · have h1 := hnew b hb
      by_cases hbs : b = self
      · subst hbs; exact hself
      · simpa [hbs] using h1

theorem WF.cell_of_mem {T A : Type} {m : Mem T} {l : Forward_list A} {ns : List (Nat × T)}
    (h : WF m l ns) {p : Nat} (hp : p ∈ positions l ns) :
    ∃ c n, m.get p = some c ∧ c.next? = some n := by
  rcases (mem_positions l ns p).mp hp with rfl | hp
  · exact ⟨_, _, h.sentinel, rfl⟩
  · obtain ⟨⟨a, x⟩, hax, rfl⟩ := List.mem_map.mp hp
    obtain ⟨n, hn⟩ := Seg_mem h.chain hax
    exact ⟨_, _, hn, rfl⟩

/-- An insertion at a position of a well-formed container returns or throws, and in
either case no cell in use other than that of the position has changed. -/
theorem insert_after_frame {T A Args : Type} (env : Env T A Args) (hfr : env.Fresh)
    (m : Mem T) (l : Forward_list A) (ns : List (Nat × T)) (hwf : WF m l ns) (p : Nat)
    (hp : p ∈ positions l ns) (args : Args) :
    ∃ s, (l.insert_after env m ⟨some p⟩ args).state? = some s ∧ Frame m s.1 [p] := by
  obtain ⟨c, n, hc, hn⟩ := hwf.cell_of_mem hp
  obtain ⟨h1, h2, h3⟩ := insert_after_failure env m l p c n args hc hn
  cases hal : env.allocate l.alloc m with
  | error e =>
    refine ⟨(m, l), by rw [h1 e hal]; rfl, fun a _ _ => rfl⟩
  | ok q =>
    have hq := hfr _ _ _ hal
    cases hct : env.construct args with
    | ok v =>
      obtain ⟨m2, hrun, hm2⟩ := insert_after_run env m l p q c n args v hc hn hal hq hct
      refine ⟨_, by rw [hrun]; rfl, ?_⟩
      intro a ha hne
      have h4 : a ≠ q := by rintro rfl; exact hne hq
      have h5 : a ≠ p := by simpa using ha
      show m2.get a = m.get a
      rw [hm2]; simp [h4, h5]
    | error e =>
      cases he : e.isStdException with
      | true =>
        obtain ⟨m2, hrun, hm2⟩ := h2 q e hal hq hct he
        exact ⟨_, by rw [hrun]; rfl, fun a _ _ => hm2 a⟩
      | false =>
        obtain ⟨m2, hrun, _, _, hf⟩ := h3 q e hal hq hct he
        exact ⟨_, by rw [hrun]; rfl, hf⟩

theorem erase_after_last {T A : Type} (m : Mem T) (l : Forward_list A) (ns : List (Nat × T))
    (hwf : WF m l ns) :
    l.erase_after m ⟨some (lastAddr l.fakeNode ns)⟩ = .ret (m, l) l.end_ := by
  have hwf2 : WF m l (ns ++ []) := by simpa using hwf
  obtain ⟨c, hc, hn⟩ := hwf2.pos_cell_next
  simp [Forward_list.erase_after, readNext_eq hc, hn, headOr]

/-- A removal after a position of a well-formed container, or after the end
position, returns, and no cell in use outside the container has changed. -/
theorem erase_after_frame {T A : Type} (m : Mem T) (l : Forward_list A)
    (ns : List (Nat × T)) (hwf : WF m l ns) (position : iterator)
    (hp : position.ptr = none ∨ ∃ p ∈ positions l ns, position.ptr = some p) :
    ∃ s, (l.erase_after m position).state? = some s ∧ Frame m s.1 (positions l ns) := by
  obtain ⟨ptr⟩ := position
  rcases hp with hp | ⟨p, hp, hptr⟩
  · simp only at hp
    subst hp
    exact ⟨(m, l), rfl, fun a _ _ => rfl⟩
  · simp only at hptr
    subst hptr
    obtain ⟨k, hk⟩ := List.mem_iff_getElem?.mp hp
    obtain ⟨hkle, hpe⟩ := positions_getElem? l ns k p hk
    rcases Nat.lt_or_ge k ns.length with hlt | hge
    · have hsplit : ns = ns.take k ++ (ns[k].1, ns[k].2) :: ns.drop (k + 1) := by
        conv_lhs => rw [← List.take_append_drop k ns, List.drop_eq_getElem_cons hlt]
      have hwf2 : WF m l (ns.take k ++ (ns[k].1, ns[k].2) :: ns.drop (k + 1)) := by
        rw [← hsplit]; exact hwf
      obtain ⟨m2, hrun, _, _, _, hf⟩ := erase_after_split m l _ _ _ _ hwf2
      rw [← hpe] at hrun hf
      refine ⟨_, by rw [hrun]; rfl, ?_⟩
      intro a ha hne
      refine hf a ?_ hne
      intro hmem
      simp only [List.mem_cons, List.mem_singleton, List.not_mem_nil, or_false] at hmem
      rcases hmem with rfl | rfl
      · exact ha hp
      · apply ha
        refine (mem_positions l ns _).mpr (Or.inr ?_)
        exact List.mem_map.mpr ⟨ns[k], List.getElem_mem hlt, rfl⟩
    · have hk2 : k = ns.length := by omega
      subst hk2
      rw [List.take_length] at hpe
      subst hpe
      exact ⟨(m, l), by rw [erase_after_last m l ns hwf]; rfl, fun a _ _ => rfl⟩

theorem Frame.mono {T : Type} {m m2 : Mem T} {fp fp2 : List Nat} (h : Frame m m2 fp)
    (hsub : ∀ a ∈ fp, a ∈ fp2) : Frame m m2 fp2 :=
  fun a ha hne => h a (fun hmem => ha (hsub a hmem)) hne

theorem push_front_state {T A Args : Type} (env : Env T A Args) (m : Mem T)
    (l : Forward_list A) (args : Args) :
    (l.push_front env m args).state? = (l.insert_after env m l.before_begin args).state? := by
  unfold Forward_list.push_front
  cases l.insert_after env m l.before_begin args <;> rfl

theorem pop_front_state {T A : Type} (m : Mem T) (l : Forward_list A) :
    (l.pop_front m).state? = (l.erase_after m l.before_begin).state? := by
  unfold Forward_list.pop_front
  cases l.erase_after m l.before_begin <;> rfl

/-- Every mutation of a well-formed container at one of its positions returns or
throws, and in either case no cell in use outside the container has changed. -/
theorem mutation_frame {T A Args : Type} (env : Env T A Args) (hfr : env.Fresh) (fuel : Nat)
    (m : Mem T) (l : Forward_list A) (ns : List (Nat × T)) (hwf : WF m l ns)
    (hfuel : ns.length ≤ fuel) (mu : Mutation Args) (hv : mu.Valid l ns) :
    ∃ s, mu.run env fuel m l = some s ∧ Frame m s.1 (positions l ns) := by
  cases mu with
  | insert_after position args =>
    obtain ⟨p, hp, hptr⟩ := hv
    obtain ⟨ptr⟩ := position
    simp only at hptr
    subst hptr
    obtain ⟨s, hs, hf⟩ := insert_after_frame env hfr m l ns hwf p hp args
    refine ⟨s, hs, hf.mono ?_⟩
    intro a ha
    simp only [List.mem_singleton] at ha
    subst ha
    exact hp
  | erase_after position => exact erase_after_frame m l ns hwf position hv
  | push_front args =>
    have hp : l.fakeNode ∈ positions l ns := by simp [positions]
    obtain ⟨s, hs, hf⟩ := insert_after_frame env hfr m l ns hwf l.fakeNode hp args
    refine ⟨s, ?_, hf.mono ?_⟩
    · show (l.push_front env m args).state? = some s
      rw [push_front_state]
      exact hs
    · intro a ha
      simp only [List.mem_singleton] at ha
      subst ha
      exact hp
  | pop_front =>
    have hp : l.fakeNode ∈ positions l ns := by simp [positions]
    obtain ⟨s, hs, hf⟩ := erase_after_frame m l ns hwf l.before_begin
      (Or.inr ⟨l.fakeNode, hp, rfl⟩)
    refine ⟨s, ?_, hf⟩
    show (l.pop_front m).state? = some s
    rw [pop_front_state]
    exact hs
  | clear =>
    obtain ⟨m2, hrun, hm2⟩ := clear_spec fuel m l ns hwf hfuel
    refine ⟨_, by show (l.clear fuel m).state? = _; rw [hrun]; rfl, ?_⟩
    intro a ha hne
    have : a ∉ ns.map Prod.fst := fun h => ha ((mem_positions l ns a).mpr (Or.inr h))
    show m2.get a = m.get a
    rw [hm2 a, if_neg this]

/-- Copy construction from a well-formed source with nodes `src`, no allocation
and no copy of a value failing, returns a well-formed container with the values of
the source in order and count `|src|`, whose sentinel and nodes are none of the
source's, the source being as before.  Hence one mutation (`insert_after`,
`erase_after`, `push_front`, `pop_front`, `clear`) of the fresh copy at one of its
positions ends with the source well formed with the same nodes, values and count,
and one such mutation of the source ends with the copy well formed with the same
nodes, values and count.  Nothing is said of the container that was mutated, which
`clear()` leaves ill formed. -/
theorem copy_independent {T A : Type} [Inhabited A] (env : Env T A T) (fuel : Nat)
    (m : Mem T) (self : Nat) (other : Forward_list A) (src : List (Nat × T))
    (hnf : env.NoFail default) (hfr : env.Fresh) (hsrc : WF m other src)
    (hself : m.get self = none) (hct : ∀ x ∈ src.map Prod.snd, env.construct x = .ok x)
    (hf : src.length < fuel) :
    ∃ m2 cp ns, Forward_list.copy_ctor env fuel m self other = .ret m2 cp ∧
      WF m2 cp ns ∧ ns.map Prod.snd = src.map Prod.snd ∧ cp.sz = src.length ∧
      WF m2 other src ∧
      (∀ a ∈ positions cp ns, a ∉ positions other src) ∧
      (∀ (Args : Type) (env2 : Env T A Args) (fuel2 : Nat) (mu : Mutation Args),
        env2.Fresh → ns.length ≤ fuel2 → mu.Valid cp ns →
        ∃ s, mu.run env2 fuel2 m2 cp = some s ∧ WF s.1 other src) ∧
      (∀ (Args : Type) (env2 : Env T A Args) (fuel2 : Nat) (mu : Mutation Args),
        env2.Fresh → src.length ≤ fuel2 → mu.Valid other src →
        ∃ s, mu.run env2 fuel2 m2 other = some s ∧ WF s.1 cp ns) := by
  obtain ⟨m2, ns, hrun, hwf, hval, hsrc2, hdisj, _, _⟩ :=
    copy_ctor_ok env fuel m self other src hnf hfr hsrc hself hct hf
  refine ⟨m2, _, ns, hrun, hwf, hval, rfl, hsrc2, hdisj, ?_, ?_⟩
  · intro Args env2 fuel2 mu hfr2 hfuel hv
    obtain ⟨s, hs, hfs⟩ := mutation_frame env2 hfr2 fuel2 m2 _ ns hwf hfuel mu hv
    exact ⟨s, hs, hsrc2.frame hfs (fun a ha hmem => hdisj a hmem ha)⟩
  · intro Args env2 fuel2 mu hfr2 hfuel hv
    obtain ⟨s, hs, hfs⟩ := mutation_frame env2 hfr2 fuel2 m2 other src hsrc2 hfuel mu hv
    exact ⟨s, hs, hwf.frame hfs (fun a ha hmem => hdisj a ha hmem)⟩

theorem copy_independent_witness :
    envOk.NoFail default ∧ envOk.Fresh ∧ WF exMem exList exNodes ∧ exMem.get 5 = none ∧
    (∀ x ∈ exNodes.map Prod.snd, envOk.construct x = .ok x) ∧ exNodes.length < 3 ∧
    ∃ m2 cp ns, Forward_list.copy_ctor envOk 3 exMem 5 exList = .ret m2 cp ∧
      WF m2 cp ns ∧ ns.map Prod.snd = exNodes.map Prod.snd ∧ cp.sz = exNodes.length ∧
      WF m2 exList exNodes ∧
      (∀ a ∈ positions cp ns, a ∉ positions exList exNodes) ∧
      (∀ (Args : Type) (env2 : Env Nat Nat Args) (fuel2 : Nat) (mu : Mutation Args),
        env2.Fresh → ns.length ≤ fuel2 → mu.Valid cp ns →
        ∃ s, mu.run env2 fuel2 m2 cp = some s ∧ WF s.1 exList exNodes) ∧
      (∀ (Args : Type) (env2 : Env Nat Nat Args) (fuel2 : Nat) (mu : Mutation Args),
        env2.Fresh → exNodes.length ≤ fuel2 → mu.Valid exList exNodes →
        ∃ s, mu.run env2 fuel2 m2 exList = some s ∧ WF s.1 cp ns) :=
  ⟨fun m => ⟨m.fresh, rfl⟩, envOk_fresh, exWF, rfl, fun _ _ => rfl, by decide,
    copy_independent envOk 3 exMem 5 exList exNodes (fun m => ⟨m.fresh, rfl⟩) envOk_fresh exWF
      rfl (fun _ _ => rfl) (by decide)⟩

/-! ## Copy assignment -/

/-- An instance of the ways a failing internal copy can end: the assignment `a = b`
with `a` holding 30 and `b` holding 10, 20, the copy constructor of the value
throwing while 20 is copied.  When the object thrown is a `std::exception` the
assignment throws and leaves `a` and the memory as they were.  When it is not, the
`catch` clause in the copy constructor does not match, the exception leaves the loop
with the first new node linked to storage that holds no node and count 1, and the
teardown of the partial copy reads the `next` of that storage, which is undefined. -/
theorem copy_assign_foreign_exception :
    WF exMem2 exListA [(6, 30)] ∧ WF exMem2 exList exNodes ∧
    Forward_list.copy_ctor_body (envThrow 20 .foreign) 5 exMem2 9 exList
      = .throws (memCopyFailed, { fakeNode := 9, sz := 1, alloc := 0 }) .foreign ∧
    readNext memCopyFailed (some 10) = some (some 11) ∧
    memCopyFailed.get 11 = some .raw ∧
    Forward_list.copy_assign (envThrow 20 .foreign) 5 exMem2 9 exListA exList = .ub ∧
    Forward_list.copy_assign (envThrow 20 .std_other) 5 exMem2 9 exListA exList
      = .throws (exMem2, exListA) .std_other := by
  refine ⟨⟨rfl, ⟨rfl, trivial⟩, by decide, rfl⟩, ⟨rfl, ⟨rfl, rfl, trivial⟩, by decide, rfl⟩,
    rfl, rfl, rfl, rfl, rfl⟩

/-- The destructor on a well-formed container returns, having released the nodes and
the sentinel and changed no other cell. -/
theorem dtor_spec {T A : Type} (fuel : Nat) (m : Mem T) (l : Forward_list A)
    (ns : List (Nat × T)) (hwf : WF m l ns) (hf : ns.length ≤ fuel) :
    ∃ m2, l.dtor fuel m = .ret m2 () ∧
      ∀ c, m2.get c = if c ∈ positions l ns then none else m.get c := by
  obtain ⟨m1, hrun, hm1⟩ := clear_spec fuel m l ns hwf hf
  refine ⟨m1.free l.fakeNode, ?_, ?_⟩
  · simp only [Forward_list.dtor, hrun]
  · intro c
    rw [Mem.get_free, hm1 c]
    by_cases h1 : c = l.fakeNode
    · simp [h1, positions]
    · by_cases h2 : c ∈ ns.map Prod.fst
      · have : c ∈ positions l ns := (mem_positions l ns c).mpr (Or.inr h2)
        simp only [h1, if_false, h2, if_true, this]
      · have : c ∉ positions l ns := fun h => by
          rcases (mem_positions l ns c).mp h with h | h
          · exact h1 h
          · exact h2 h
        simp only [h1, if_false, h2, this]

/-- The concrete scenario of the specification: `{1,2,3}` has count 3; after
`push_front(0)` the container shows 0, 1, 2, 3 with count 4; after two `pop_front()`
it shows 2, 3 with count 2; after `push_front(9)` on a copy the original still shows
2, 3 and the copy shows 9, 2, 3. -/
theorem scenario_eq :
    scenario = some [some (3, [1, 2, 3]), some (4, [0, 1, 2, 3]), some (2, [2, 3]),
      some (2, [2, 3]), some (3, [9, 2, 3])] := by
  rfl

/-! ## Move assignment -/

/-- Move construction from a well-formed container on storage not in use, told cell
by cell. -/
theorem move_ctor_ok {T A : Type} [Inhabited A] (m : Mem T) (self : Nat)
    (other : Forward_list A) (ns : List (Nat × T)) (hwf : WF m other ns)
    (hself : m.get self = none) :
    ∃ m1, Forward_list.move_ctor m self other
        = some (m1, { fakeNode := self, sz := other.sz, alloc := other.alloc },
            { fakeNode := other.fakeNode, sz := 0, alloc := default }) ∧
      ∀ a, m1.get a = if a = other.fakeNode then some (.base none) else
        if a = self then some (.base (headOr ns none)) else m.get a := by
  have hne : other.fakeNode ≠ self := by
    rintro he
    rw [← he, hwf.sentinel] at hself
    cases hself
  have h0 : (m.set self (.base none)).get self = some (.base none) := by simp
  have h1 : (m.set self (.base none)).get other.fakeNode = some (.base (headOr ns none)) := by
    simp [hne, hwf.sentinel]
  have h2 : ((m.set self (.base none)).set self (.base (headOr ns none))).get other.fakeNode
      = some (.base (headOr ns none)) := by
    simp [hne, hwf.sentinel]
  refine ⟨((m.set self (.base none)).set self (.base (headOr ns none))).set other.fakeNode
    (.base none), ?_, ?_⟩
  · simp only [Forward_list.move_ctor, Forward_list.default_ctor, swapBaseNode,
      readNext_base h0, readNext_base h1, writeNext_base h0, writeNext_base h2]
  · intro a
    by_cases h3 : a = other.fakeNode
    · simp [h3]
    · by_cases h4 : a = self
      · simp [h3, h4, Ne.symm hne]
      · simp [h3, h4]

/-- The move assignment of the source is, on every input, the move construction of a
temporary followed by the exchange of state and the teardown of the temporary. -/
theorem move_assign_eq {T A : Type} [Inhabited A] (fuel : Nat) (m : Mem T) (tmp : Nat)
    (l other : Forward_list A) :
    Forward_list.move_assign fuel m tmp l other = moveConstructThenSwap fuel m tmp l other := by
  unfold Forward_list.move_assign moveConstructThenSwap exchangeState
  cases Forward_list.move_ctor m tmp other with
  | none => rfl
  | some r =>
    obtain ⟨m1, copy, other1⟩ := r
    simp only
    cases swapBaseNode m1 l.fakeNode copy.fakeNode with
    | none => rfl
    | some m2 => rfl

/-- C11: for two well-formed containers `a` (nodes `la`) and `b` (nodes `lb`) without
common positions, the move assignment `a = std::move(b)` is the move construction of
a temporary from `b` followed by the exchange of state between `a` and the temporary
and the teardown of the temporary.  It returns; afterwards `a` is well formed with
the very nodes `lb` of `b` and the count of `b`, `b` is well formed and empty with
count 0, and the former nodes of `a`, which the temporary held when it was torn
down, are released, as is the temporary's sentinel. -/
theorem move_assign_spec {T A : Type} [Inhabited A] (fuel : Nat) (m : Mem T) (tmp : Nat)
    (l other : Forward_list A) (la lb : List (Nat × T))
    (ha : WF m l la) (hb : WF m other lb)
    (hdisj : ∀ a ∈ positions l la, a ∉ positions other lb) (htmp : m.get tmp = none)
    (hf : la.length ≤ fuel) :
    Forward_list.move_assign fuel m tmp l other = moveConstructThenSwap fuel m tmp l other ∧
    ∃ m3, Forward_list.move_assign fuel m tmp l other
        = .ret (m3, { l with sz := other.sz, alloc := other.alloc },
            { other with sz := 0, alloc := default }) () ∧
      WF m3 ({ l with sz := other.sz, alloc := other.alloc } : Forward_list A) lb ∧
      other.sz = lb.length ∧
      WF m3 ({ other with sz := 0, alloc := default } : Forward_list A) [] ∧
      readNext m3 (some other.fakeNode) = some none ∧
      (∀ a ∈ la.map Prod.fst, m3.get a = none) ∧ m3.get tmp = none := by
  refine ⟨move_assign_eq fuel m tmp l other, ?_⟩
  obtain ⟨m1, hmv, hm1⟩ := move_ctor_ok m tmp other lb hb htmp
  have hlf : l.fakeNode ∈ positions l la := by simp [positions]
  have hof : other.fakeNode ∈ positions other lb := by simp [positions]
  have hlo : l.fakeNode ≠ other.fakeNode := fun h => hdisj _ hlf (h ▸ hof)
  have hlt : l.fakeNode ≠ tmp := by
    rintro rfl; exact ha.get_ne_none hlf htmp
  have hot : other.fakeNode ≠ tmp := by
    rintro he; exact hb.get_ne_none hof (he ▸ htmp)
  have hs1 : m1.get l.fakeNode = some (.base (headOr la none)) := by
    rw [hm1]; simp [hlo, hlt, ha.sentinel]
  have hs2 : m1.get tmp = some (.base (headOr lb none)) := by
    rw [hm1]; simp [Ne.symm hot]
  have hs3 : (m1.set l.fakeNode (.base (headOr lb none))).get tmp
      = some (.base (headOr lb none)) := by
    simp [Ne.symm hlt, hs2]
  have hswap : swapBaseNode m1 l.fakeNode tmp
      = some ((m1.set l.fakeNode (.base (headOr lb none))).set tmp (.base (headOr la none))) := by
    simp only [swapBaseNode, readNext_base hs1, readNext_base hs2, writeNext_base hs1,
      writeNext_base hs3]
  have hm2 : ∀ a, a ≠ tmp → a ≠ l.fakeNode → a ≠ other.fakeNode →
      ((m1.set l.fakeNode (.base (headOr lb none))).set tmp (.base (headOr la none))).get a
        = m.get a := by
    intro a h1 h2 h3
    simp [h1, h2, hm1 a, h3]
  have hla : ∀ a ∈ la.map Prod.fst, a ≠ tmp ∧ a ≠ l.fakeNode ∧ a ≠ other.fakeNode := by
    intro a hmem
    have hp : a ∈ positions l la := (mem_positions l la a).mpr (Or.inr hmem)
    refine ⟨?_, ?_, ?_⟩
    · rintro rfl; exact ha.get_ne_none hp htmp
    · rintro rfl; exact ha.fake_not_mem hmem
    · rintro rfl; exact hdisj _ hp hof
  have hold : WF ((m1.set l.fakeNode (.base (headOr lb none))).set tmp (.base (headOr la none)))
      ({ fakeNode := tmp, sz := l.sz, alloc := l.alloc } : Forward_list A) la := by
    refine ⟨by simp, Seg_congr ha.chain ?_, ha.nodup, ha.count⟩
    intro a hmem
    obtain ⟨h1, h2, h3⟩ := hla a hmem
    exact hm2 a h1 h2 h3
  obtain ⟨m3, hd, hm3⟩ := dtor_spec fuel _ _ la hold hf
  have hnot : ∀ a, a ≠ tmp → a ∉ la.map Prod.fst →
      a ∉ positions ({ fakeNode := tmp, sz := l.sz, alloc := l.alloc } : Forward_list A) la := by
    intro a h1 h2 h
    rcases (mem_positions _ la a).mp h with h | h
    · exact h1 h
    · exact h2 h
  have hlfn : l.fakeNode ∉ la.map Prod.fst := ha.fake_not_mem
  have hofn : other.fakeNode ∉ la.map Prod.fst := by
    intro h
    exact hdisj _ ((mem_positions l la _).mpr (Or.inr h)) hof
  refine ⟨m3, ?_, ?_, hb.count, ?_, ?_, ?_, ?_⟩
  · simp only [Forward_list.move_assign, hmv, hswap, hd]
  · refine ⟨?_, Seg_congr hb.chain ?_, hb.nodup, hb.count⟩
    · show m3.get l.fakeNode = _
      rw [hm3, if_neg (hnot _ hlt hlfn)]
      simp [hlt]
    · intro a hmem
      have hp : a ∈ positions other lb := (mem_positions other lb a).mpr (Or.inr hmem)
      have h1 : a ≠ tmp := by rintro rfl; exact hb.get_ne_none hp htmp
      have h2 : a ∉ la.map Prod.fst := fun h =>
        hdisj _ ((mem_positions l la a).mpr (Or.inr h)) hp
      have h3 : a ≠ l.fakeNode := by rintro rfl; exact hdisj _ hlf hp
      have h4 : a ≠ other.fakeNode := by rintro rfl; exact hb.fake_not_mem hmem
      rw [hm3, if_neg (hnot _ h1 h2)]
      exact hm2 a h1 h3 h4
  · refine ⟨?_, trivial, by simp, rfl⟩
    show m3.get other.fakeNode = _
    rw [hm3, if_neg (hnot _ hot hofn)]
    simp [hot, Ne.symm hlo, hm1, headOr]
  · have : m3.get other.fakeNode = some (.base none) := by
      rw [hm3, if_neg (hnot _ hot hofn)]
      simp [hot, Ne.symm hlo, hm1]
    exact readNext_base this
  · intro a hmem
    rw [hm3, if_pos ((mem_positions _ la a).mpr (Or.inr hmem))]
  · rw [hm3, if_pos ((mem_positions _ la tmp).mpr (Or.inl rfl))]

theorem move_assign_spec_witness :
    WF exMem2 exListA [(6, 30)] ∧ WF exMem2 exList exNodes ∧
    (∀ a ∈ positions exListA [(6, 30)], a ∉ positions exList exNodes) ∧
    exMem2.get 9 = none ∧ [(6, 30)].length ≤ 5 ∧
    (Forward_list.move_assign 5 exMem2 9 exListA exList
      = moveConstructThenSwap 5 exMem2 9 exListA exList ∧
    ∃ m3, Forward_list.move_assign 5 exMem2 9 exListA exList
        = .ret (m3, { exListA with sz := exList.sz, alloc := exList.alloc },
            { exList with sz := 0, alloc := default }) () ∧
      WF m3 ({ exListA with sz := exList.sz, alloc := exList.alloc } : Forward_list Nat)
        exNodes ∧
      exList.sz = exNodes.length ∧
      WF m3 ({ exList with sz := 0, alloc := default } : Forward_list Nat) [] ∧
      readNext m3 (some exList.fakeNode) = some none ∧
      (∀ a ∈ [(6, 30)].map Prod.fst, m3.get a = none) ∧ m3.get 9 = none) :=
  ⟨⟨rfl, ⟨rfl, trivial⟩, by decide, rfl⟩, ⟨rfl, ⟨rfl, rfl, trivial⟩, by decide, rfl⟩,
    by decide, rfl, by decide,
    move_assign_spec 5 exMem2 9 exListA exList [(6, 30)] exNodes
      ⟨rfl, ⟨rfl, trivial⟩, by decide, rfl⟩ ⟨rfl, ⟨rfl, rfl, trivial⟩, by decide, rfl⟩
      (by decide) rfl (by decide)⟩

/-! ## The front of the container -/

/-- The `push_front` and `pop_front` pair on a well-formed container: `push_front(v)`
returns with `v` in front of the former values and the count one more, the position
of `begin()` then holds `v`; the following `pop_front()` removes and releases that
node and gives back the former nodes and count. -/
theorem push_front_pop_front {T A Args : Type} (env : Env T A Args) (m : Mem T)
    (l : Forward_list A) (ns : List (Nat × T)) (q : Nat) (args : Args) (v : T)
    (hwf : WF m l ns) (hal : env.allocate l.alloc m = .ok q) (hq : m.get q = none)
    (hct : env.construct args = .ok v) :
    ∃ m1 m2, l.push_front env m args = .ret (m1, { l with sz := l.sz + 1 }) () ∧
      WF m1 { l with sz := l.sz + 1 } ((q, v) :: ns) ∧
      Forward_list.begin m1 { l with sz := l.sz + 1 } = some ⟨some q⟩ ∧
      iterator.deref m1 ⟨some q⟩ = .ret () v ∧
      Forward_list.pop_front m1 { l with sz := l.sz + 1 } = .ret (m2, l) () ∧
      WF m2 l ns ∧ m2.get q = none := by
  have hwf0 : WF m l ([] ++ ns) := by simpa using hwf
  obtain ⟨m1, hrun, hwf1, hq1, hp1, _⟩ := insert_after_split env m l [] ns q args v hwf0 hal hq hct
  simp only [lastAddr_nil, List.nil_append] at hrun hwf1 hp1
  have hwf1b : WF m1 ({ l with sz := l.sz + 1 } : Forward_list A) ([] ++ (q, v) :: ns) := by
    simpa using hwf1
  obtain ⟨m2, hrun2, hwf2, _, hrel, _⟩ := erase_after_split m1 _ [] ns q v hwf1b
  simp only [lastAddr_nil, List.nil_append, Nat.add_sub_cancel] at hrun2 hwf2
  have hl : ({ fakeNode := l.fakeNode, sz := l.sz, alloc := l.alloc } : Forward_list A) = l := by
    cases l; rfl
  rw [hl] at hrun2 hwf2
  refine ⟨m1, m2, ?_, hwf1, ?_, ?_, ?_, hwf2, hrel⟩
  · simp only [Forward_list.push_front, Forward_list.before_begin, hrun]
  · simp only [Forward_list.begin, hp1]
  · simp [iterator.deref, hq1]
  · simp only [Forward_list.pop_front, Forward_list.before_begin, hrun2]

/-- C12, where the code departs from the claim.  The member `front()` has the body
`return fakeNode->next->value;`: `fakeNode` is a `BaseNode` object, to which `->`
does not apply, and no `value` can be named through the `BaseNode*` `next`, so the
body is ill-formed for every `T`, a program calling `front()` does not compile, and
the member has no behaviour to embed.  What the claim says of `push_front` and
`pop_front` holds: from `{1, 2, 3}` with count 3, `push_front(0)` gives 0, 1, 2, 3
with count 4 and the value 0 at `begin()`, one `pop_front()` gives back 1, 2, 3 with
count 3, a second one gives 2, 3 with count 2. -/
theorem front_scenario_eq :
    frontScenario = some ([some (3, [1, 2, 3]), some (4, [0, 1, 2, 3]), some (3, [1, 2, 3]),
      some (2, [2, 3])], some 0) := by
  rfl

/-! ## Increments -/

/-- The pre-increment at the position of index `k` of a well-formed container leads
to the position of index `k + 1`, or to the end when there is none. -/
theorem preInc_position {T A : Type} {m : Mem T} {l : Forward_list A} {ns : List (Nat × T)}
    (hwf : WF m l ns) (k p : Nat) (hp : (positions l ns)[k]? = some p) :
    iterator.preInc m ⟨some p⟩ = some ⟨(positions l ns)[k + 1]?⟩ := by
  obtain ⟨_, rfl⟩ := positions_getElem? l ns k p hp
  have hwf2 : WF m l (ns.take k ++ ns.drop k) := by rw [List.take_append_drop]; exact hwf
  obtain ⟨c, hc, hn⟩ := hwf2.pos_cell_next
  simp only [iterator.preInc, readNext_eq hc, hn, headOr_drop, positions,
    List.getElem?_cons_succ]

theorem postInc_eq {T : Type} (m : Mem T) (it : iterator) :
    iterator.postInc m it = (iterator.preInc m it).map (fun it2 => (it, it2)) := by
  obtain ⟨p⟩ := it
  cases p with
  | none => rfl
  | some a =>
    simp only [iterator.postInc, iterator.preInc]
    cases readNext m (some a) <;> rfl

theorem advance_end {T : Type} (m : Mem T) (n : Nat) :
    advance n m ⟨none⟩ = some ⟨none⟩ := by
  induction n with
  | zero => rfl
  | succ n ih => simpa [advance, iterator.preInc] using ih

/-- From the position of index `k`, `j` increments lead to the position of index
`k + j`, or to the end when there is none. -/
theorem advance_position {T A : Type} {m : Mem T} {l : Forward_list A} {ns : List (Nat × T)}
    (hwf : WF m l ns) (j : Nat) :
    ∀ k, advance j m ⟨(positions l ns)[k]?⟩ = some ⟨(positions l ns)[k + j]?⟩ := by
  induction j with
  | zero => intro k; rfl
  | succ j ih =>
    intro k
    cases hp : (positions l ns)[k]? with
    | none =>
      have hk : (positions l ns).length ≤ k := by
        by_contra hlt
        rw [List.getElem?_eq_getElem (by omega)] at hp
        cases hp
      rw [advance_end, List.getElem?_eq_none (by omega)]
    | some p =>
      simp only [advance, preInc_position hwf k p hp]
      rw [ih (k + 1)]
      congr 3
      omega

/-- C19: in a well-formed container with nodes `ns`, incrementing the iterator of
`before_begin()` gives the position of the first node, or `end()` when there is
none; incrementing the position of the `k`-th node gives that of the `(k+1)`-th, or
`end()` when the `k`-th is the last; incrementing `end()` leaves `end()` and is
defined; `j` increments from `before_begin()` reach the position of index `j` among
the sentinel followed by the nodes, hence `end()` for every `j` of at least
`|ns| + 1`; and the post-increment leaves the iterator where the pre-increment does
and returns the position held before. -/
theorem increment_state_machine {T A : Type} (m : Mem T) (l : Forward_list A)
    (ns : List (Nat × T)) (hwf : WF m l ns) :
    iterator.preInc m l.before_begin = some ⟨(ns.map Prod.fst)[0]?⟩ ∧
    (∀ k a, (ns.map Prod.fst)[k]? = some a →
      iterator.preInc m ⟨some a⟩ = some ⟨(ns.map Prod.fst)[k + 1]?⟩) ∧
    iterator.preInc m l.end_ = some l.end_ ∧
    (∀ j, advance j m l.before_begin = some ⟨(positions l ns)[j]?⟩) ∧
    (∀ j, ns.length + 1 ≤ j → advance j m l.before_begin = some l.end_) ∧
    (∀ it : iterator,
      iterator.postInc m it = (iterator.preInc m it).map (fun it2 => (it, it2))) := by
  have hadv : ∀ j, advance j m l.before_begin = some ⟨(positions l ns)[j]?⟩ := by
    intro j
    have := advance_position hwf j 0
    simpa [positions, Forward_list.before_begin] using this
  refine ⟨?_, ?_, rfl, hadv, ?_, postInc_eq m⟩
  · have := preInc_position hwf 0 l.fakeNode (by simp [positions])
    simpa [positions, Forward_list.before_begin] using this
  · intro k a hk
    have := preInc_position hwf (k + 1) a (by simpa [positions] using hk)
    simpa [positions] using this
  · intro j hj
    rw [hadv j, List.getElem?_eq_none (by simp [positions]; omega)]
    rfl

theorem increment_state_machine_witness :
    WF exMem exList exNodes ∧
    (iterator.preInc exMem exList.before_begin = some ⟨(exNodes.map Prod.fst)[0]?⟩ ∧
    (∀ k a, (exNodes.map Prod.fst)[k]? = some a →
      iterator.preInc exMem ⟨some a⟩ = some ⟨(exNodes.map Prod.fst)[k + 1]?⟩) ∧
    iterator.preInc exMem exList.end_ = some exList.end_ ∧
    (∀ j, advance j exMem exList.before_begin = some ⟨(positions exList exNodes)[j]?⟩) ∧
    (∀ j, exNodes.length + 1 ≤ j → advance j exMem exList.before_begin = some exList.end_) ∧
    (∀ it : iterator,
      iterator.postInc exMem it = (iterator.preInc exMem it).map (fun it2 => (it, it2)))) :=
  ⟨exWF, increment_state_machine exMem exList exNodes exWF⟩

/-! ## Failure while a chain is built -/

/-- The three ways the shared loop body can end after the last position of a
well-formed container: it appends a node; it throws with every cell as before
(allocation failed, or the constructor threw a `std::exception`); or, the
constructor having thrown something else, it throws with the last position linked
to the storage obtained, which holds no node. -/
theorem linkNewNode_cases {T A Args : Type} (env : Env T A Args) (hfr : env.Fresh) (al : A)
    (m : Mem T) (l : Forward_list A) (done : List (Nat × T)) (elem : Mem T → Option Args)
    (x : Args) (hwf : WF m l done)
    (hel : ∀ m2 : Mem T, Frame m m2 [lastAddr l.fakeNode done] → elem m2 = some x) :
    (∃ q v m2, env.construct x = .ok v ∧ m.get q = none ∧
      linkNewNode env al m (some (lastAddr l.fakeNode done)) elem = .ret m2 (some q) ∧
      WF m2 { l with sz := l.sz + 1 } (done ++ [(q, v)]) ∧
      Frame m m2 [lastAddr l.fakeNode done] ∧
      (∀ a, m2.get a ≠ none → m.get a ≠ none ∨ a = q)) ∨
    (∃ e m2, linkNewNode env al m (some (lastAddr l.fakeNode done)) elem = .throws m2 e ∧
      (∀ a, m2.get a = m.get a) ∧
      (env.allocate al m = .error e ∨
        (env.construct x = .error e ∧ e.isStdException = true))) ∨
    (∃ e m2 q, linkNewNode env al m (some (lastAddr l.fakeNode done)) elem = .throws m2 e ∧
      env.construct x = .error e ∧ e.isStdException = false ∧ m.get q = none ∧
      m2.get q = some .raw ∧
      readNext m2 (some (lastAddr l.fakeNode done)) = some (some q) ∧
      Frame m m2 [lastAddr l.fakeNode done] ∧
      (∃ c, m.get (lastAddr l.fakeNode done) = some c ∧
        ∀ a, m2.get a = if a = lastAddr l.fakeNode done then some (c.setNext (some q))
          else if a = q then some .raw else m.get a)) := by
  have hwf2 : WF m l (done ++ []) := by simpa using hwf
  obtain ⟨c, hc, hn⟩ := hwf2.pos_cell_next
  have hn : c.next? = some none := hn
  have hsame : ∀ a, (m.set (lastAddr l.fakeNode done) (c.setNext none)).get a = m.get a := by
    intro a
    by_cases ha : a = lastAddr l.fakeNode done
    · subst ha
      rw [Mem.get_set, if_pos rfl, Cell.setNext_self hn, hc]
    · simp [ha]
  cases hal : env.allocate al m with
  | error e =>
    right; left
    cases hb : e.isBadAlloc with
    | true =>
      refine ⟨e, m.set (lastAddr l.fakeNode done) (c.setNext none), ?_, hsame, Or.inl rfl⟩
      simp only [linkNewNode, hal, hb, if_true, writeNext_eq hc hn none]
    | false =>
      refine ⟨e, m, ?_, fun _ => rfl, Or.inl rfl⟩
      simp [linkNewNode, hal, hb]
  | ok q =>
    have hq := hfr al m q hal
    have hpq : lastAddr l.fakeNode done ≠ q := by rintro he; rw [he, hq] at hc; cases hc
    have h1 : (m.set q .raw).get (lastAddr l.fakeNode done) = some c := by simp [hpq, hc]
    have hfm : Frame m ((m.set q .raw).set (lastAddr l.fakeNode done) (c.setNext (some q)))
        [lastAddr l.fakeNode done] := by
      intro a ha hne
      have h3 : a ≠ q := by rintro rfl; exact hne hq
      have h4 : a ≠ lastAddr l.fakeNode done := by simpa using ha
      simp [h3, h4]
    have hel2 := hel _ hfm
    cases hct : env.construct x with
    | ok v =>
      left
      obtain ⟨m2, hrun, hwf3, hf3, hno⟩ :=
        linkNewNode_append env al m l done q elem x v hwf hal hq hel hct
      exact ⟨q, v, m2, rfl, hq, hrun, hwf3, hf3, hno⟩
    | error e =>
      right
      cases he : e.isStdException with
      | true =>
        left
        have h2 : ((m.set q .raw).set (lastAddr l.fakeNode done) (c.setNext (some q))).get q
            = some .raw := by
          simp [Ne.symm hpq]
        have hn3 : (c.setNext (some q)).next? = some (some q) := by
          cases c <;> simp_all [Cell.next?, Cell.setNext]
        have h3 : ((((m.set q .raw).set (lastAddr l.fakeNode done)
            (c.setNext (some q))).free q)).get (lastAddr l.fakeNode done)
            = some (c.setNext (some q)) := by
          simp [hpq]
        refine ⟨e, (((m.set q .raw).set (lastAddr l.fakeNode done) (c.setNext (some q))).free
          q).set (lastAddr l.fakeNode done) ((c.setNext (some q)).setNext none), ?_, ?_,
          Or.inr ⟨rfl, he⟩⟩
        · simp only [linkNewNode, hal, writeNext_eq h1 hn, hel2, hct, he, if_true, deallocate,
            h2, writeNext_eq h3 hn3]
        · intro a
          have hcc : (c.setNext (some q)).setNext none = c := by
            cases c <;> simp_all [Cell.next?, Cell.setNext]
          by_cases hap : a = lastAddr l.fakeNode done
          · simp [hap, hcc, hc]
          · by_cases haq : a = q
            · simp [hap, haq, hq, Ne.symm hpq]
            · simp [hap, haq]
      | false =>
        right
        refine ⟨e, (m.set q .raw).set (lastAddr l.fakeNode done) (c.setNext (some q)), q, ?_,
          rfl, he, hq, by simp [Ne.symm hpq], ?_, hfm, ⟨c, hc, fun _ => rfl⟩⟩
        · simp [linkNewNode, hal, writeNext_eq h1 hn, hel2, hct, he]
        · cases c with
          | base n => simp [readNext, Cell.setNext]
          | node n y => simp [readNext, Cell.setNext]
          | raw => simp [Cell.next?] at hn

/-- The three ways the loop of the range and initializer-list constructors can end
when it starts after the last position of a well-formed container.  It returns,
having appended one node per source element in order.  Or it throws at the element
of index `k` with the container well formed, holding exactly the nodes built from
the first `k` elements, with count `k` more, and no other storage left allocated.
Or, the constructor of the element of index `k` having thrown an object that is not
a `std::exception`, it throws with the last node linked to storage that holds no
node. -/
theorem buildLoop_cases {T A Args : Type} (env : Env T A Args) (hfr : env.Fresh) (al : A)
    (xs : List Args) :
    ∀ (m : Mem T) (l : Forward_list A) (done : List (Nat × T)), WF m l done →
      (∃ m2 new, buildLoop env al xs m (some (lastAddr l.fakeNode done)) l.sz
          = .ret (m2, l.sz + xs.length) (some (lastAddr l.fakeNode (done ++ new))) ∧
        WF m2 { l with sz := l.sz + xs.length } (done ++ new) ∧
        List.Forall₂ (fun x n => env.construct x = .ok n.2) xs new ∧
        (∀ a, m2.get a ≠ none → m.get a ≠ none ∨ a ∈ new.map Prod.fst)) ∨
      (∃ k e m2 new, k < xs.length ∧ new.length = k ∧
        List.Forall₂ (fun x n => env.construct x = .ok n.2) (xs.take k) new ∧
        buildLoop env al xs m (some (lastAddr l.fakeNode done)) l.sz
          = .throws (m2, l.sz + k) e ∧
        WF m2 { l with sz := l.sz + k } (done ++ new) ∧
        (∀ a, m2.get a ≠ none → m.get a ≠ none ∨ a ∈ new.map Prod.fst)) ∨
      (∃ k e m2 new q, k < xs.length ∧ new.length = k ∧
        List.Forall₂ (fun x n => env.construct x = .ok n.2) (xs.take k) new ∧
        buildLoop env al xs m (some (lastAddr l.fakeNode done)) l.sz
          = .throws (m2, l.sz + k) e ∧
        e.isStdException = false ∧ m2.get q = some .raw ∧
        readNext m2 (some (lastAddr l.fakeNode (done ++ new))) = some (some q)) := by
  induction xs with
  | nil =>
    intro m l done hwf
    left
    refine ⟨m, [], by simp [buildLoop], by simpa using hwf, List.Forall₂.nil,
      fun a h => Or.inl h⟩
  | cons x rest ih =>
    intro m l done hwf
    rcases linkNewNode_cases env hfr al m l done (fun _ => some x) x hwf (fun _ _ => rfl) with
      ⟨q, v, m1, hct, hq, hrun, hwf1, _, hno1⟩ | ⟨e, m1, hrun, hsame, _⟩ |
      ⟨e, m1, q, hrun, _, he, _, hraw, hlink, _⟩
    · have hlast : lastAddr l.fakeNode (done ++ [(q, v)]) = q := lastAddr_concat _ _ _ _
      rcases ih m1 { l with sz := l.sz + 1 } (done ++ [(q, v)]) hwf1 with
        ⟨m2, new, hloop, hwf2, hall, hno2⟩ | ⟨k, e, m2, new, hk, hlen, hall, hloop, hwf2, hno2⟩ |
        ⟨k, e, m2, new, q2, hk, hlen, hall, hloop, he, hraw, hlink⟩
      · left
        refine ⟨m2, (q, v) :: new, ?_, ?_, List.Forall₂.cons hct hall, ?_⟩
        · simp only [buildLoop, hrun]
          simp only [hlast, List.append_assoc, List.singleton_append] at hloop
          rw [hloop]
          simp only [List.length_cons]
          congr 2
          omega
        · have : l.sz + (x :: rest).length = l.sz + 1 + rest.length := by
            simp only [List.length_cons]; omega
          rw [this]
          simpa using hwf2
        · intro a hne
          rcases hno2 a hne with h | h
          · rcases hno1 a h with h | h
            · exact Or.inl h
            · right; simp [h]
          · right; simp only [List.map_cons, List.mem_cons]; exact Or.inr h
      · right; left
        refine ⟨k + 1, e, m2, (q, v) :: new, by simp; omega, by simp [hlen], ?_, ?_, ?_, ?_⟩
        · rw [List.take_succ_cons]
          exact List.Forall₂.cons hct hall
        · simp only [buildLoop, hrun]
          simp only [hlast] at hloop
          rw [hloop]
          congr 2
          omega
        · have : l.sz + (k + 1) = l.sz + 1 + k := by omega
          rw [this]
          simpa using hwf2
        · intro a hne
          rcases hno2 a hne with h | h
          · rcases hno1 a h with h | h
            · exact Or.inl h
            · right; simp [h]
          · right; simp only [List.map_cons, List.mem_cons]; exact Or.inr h
      · right; right
        refine ⟨k + 1, e, m2, (q, v) :: new, q2, by simp; omega, by simp [hlen], ?_, ?_, he,
          hraw, ?_⟩
        · rw [List.take_succ_cons]
          exact List.Forall₂.cons hct hall
        · simp only [buildLoop, hrun]
          simp only [hlast] at hloop
          rw [hloop]
          congr 2
          omega
        · simpa using hlink
    · right; left
      refine ⟨0, e, m1, [], by simp, rfl, by simp, ?_, ?_, ?_⟩
      · simp only [buildLoop, hrun, Nat.add_zero]
      · have : WF m1 l done := hwf.congr (fun a _ => hsame a)
        simpa using this
      · intro a hne
        left
        rwa [hsame a] at hne
    · right; right
      refine ⟨0, e, m1, [], q, by simp, rfl, by simp, ?_, he, hraw, by simpa using hlink⟩
      simp only [buildLoop, hrun, Nat.add_zero]

theorem ilist_ctor_eq_range_ctor {T A : Type} (env : Env T A T) (m : Mem T) (self : Nat)
    (xs : List T) (a : A) :
    Forward_list.ilist_ctor env m self xs a = Forward_list.range_ctor env m self xs a := rfl

/-- The three ways the constructor from a range (and so the one from an initializer
list) can end, the allocator handing out storage not in use: it returns a
well-formed container built from all elements in order; or it throws at the element
of index `k`, the object under construction being well formed with exactly the
nodes built from the first `k` elements, count `k`, and no other storage left
allocated; or, the constructor of the element of index `k` having thrown an object
that is not a `std::exception`, it throws with the last node linked to storage that
holds no node. -/
theorem range_ctor_cases {T A Args : Type} (env : Env T A Args) (hfr : env.Fresh) (m : Mem T)
    (self : Nat) (xs : List Args) (a : A) :
    (∃ m2 ns, Forward_list.range_ctor env m self xs a
        = .ret (m2, { fakeNode := self, sz := xs.length, alloc := a }) () ∧
      WF m2 ({ fakeNode := self, sz := xs.length, alloc := a } : Forward_list A) ns ∧
      List.Forall₂ (fun x n => env.construct x = .ok n.2) xs ns) ∨
    (∃ k e m2 ns, k < xs.length ∧ ns.length = k ∧
      List.Forall₂ (fun x n => env.construct x = .ok n.2) (xs.take k) ns ∧
      Forward_list.range_ctor env m self xs a
        = .throws (m2, { fakeNode := self, sz := k, alloc := a }) e ∧
      WF m2 ({ fakeNode := self, sz := k, alloc := a } : Forward_list A) ns ∧
      (∀ b, m2.get b ≠ none → b = self ∨ m.get b ≠ none ∨ b ∈ ns.map Prod.fst)) ∨
    (∃ k e m2 ns q, k < xs.length ∧ ns.length = k ∧
      List.Forall₂ (fun x n => env.construct x = .ok n.2) (xs.take k) ns ∧
      Forward_list.range_ctor env m self xs a
        = .throws (m2, { fakeNode := self, sz := k, alloc := a }) e ∧
      e.isStdException = false ∧ m2.get q = some .raw ∧
      readNext m2 (some (lastAddr self ns)) = some (some q)) := by
  have hwf0 : WF (m.set self (.base none))
      ({ fakeNode := self, sz := 0, alloc := a } : Forward_list A) [] :=
    ⟨by simp [headOr], trivial, by simp, rfl⟩
  rcases buildLoop_cases env hfr a xs _ _ [] hwf0 with
    ⟨m1, new, hloop, hwf1, hall, _⟩ | ⟨k, e, m1, new, hk, hlen, hall, hloop, hwf1, hno⟩ |
    ⟨k, e, m1, new, q, hk, hlen, hall, hloop, he, hraw, hlink⟩
  · left
    simp only [lastAddr_nil, Nat.zero_add, List.nil_append] at hloop hwf1
    have hwf2 : WF m1 ({ fakeNode := self, sz := xs.length, alloc := a } : Forward_list A)
        (new ++ []) := by simpa using hwf1
    obtain ⟨c, hc, hn⟩ := hwf2.pos_cell_next
    have hn : c.next? = some none := hn
    have hc : m1.get (lastAddr self new) = some c := hc
    have hsame : ∀ b, (m1.set (lastAddr self new) (c.setNext none)).get b = m1.get b := by
      intro b
      by_cases hb : b = lastAddr self new
      · subst hb
        rw [Mem.get_set, if_pos rfl, Cell.setNext_self hn, hc]
      · simp [hb]
    refine ⟨_, new, ?_, hwf1.congr (fun b _ => hsame b), hall⟩
    simp only [Forward_list.range_ctor, hloop, writeNext_eq hc hn none]
  · right; left
    simp only [lastAddr_nil, Nat.zero_add, List.nil_append] at hloop hwf1
    refine ⟨k, e, m1, new, hk, hlen, hall, ?_, hwf1, ?_⟩
    · simp only [Forward_list.range_ctor, hloop]
    · intro b hne
      rcases hno b hne with h | h
      · by_cases hb : b = self
        · exact Or.inl hb
        · right; left; simpa [hb] using h
      · exact Or.inr (Or.inr h)
  · right; right
    simp only [lastAddr_nil, Nat.zero_add, List.nil_append] at hloop hlink
    refine ⟨k, e, m1, new, q, hk, hlen, hall, ?_, he, hraw, hlink⟩
    simp only [Forward_list.range_ctor, hloop]

/-! ## Containers reached by insertions and removals -/

theorem traverse_seg {T : Type} (m : Mem T) (ns : List (Nat × T)) :
    ∀ fuel, Seg m ns none → ns.length < fuel →
      traverse fuel m ⟨headOr ns none⟩ = some (ns.map Prod.snd) := by
  induction ns with
  | nil =>
    intro fuel _ hf
    obtain ⟨f, rfl⟩ : ∃ f, fuel = f + 1 := ⟨fuel - 1, by simp at hf; omega⟩
    rfl
  | cons z rest ih =>
    obtain ⟨a, x⟩ := z
    intro fuel hs hf
    obtain ⟨f, rfl⟩ : ∃ f, fuel = f + 1 := ⟨fuel - 1, by simp at hf; omega⟩
    have h1 := ih f hs.2 (by simp at hf; omega)
    show traverse (f + 1) m ⟨some a⟩ = _
    simp only [traverse, iterator.deref, hs.1, iterator.preInc, readNext_node hs.1, h1,
      List.map_cons]

/-- Iterating over a well-formed container from `begin()` to `end()` dereferences at
every step and meets the values in order. -/
theorem traverse_of_WF {T A : Type} {m : Mem T} {l : Forward_list A} {ns : List (Nat × T)}
    (h : WF m l ns) (fuel : Nat) (hf : ns.length < fuel) :
    ∃ it, l.begin m = some it ∧ traverse fuel m it = some (ns.map Prod.snd) :=
  ⟨⟨headOr ns none⟩, by simp only [Forward_list.begin, readNext_base h.sentinel],
    traverse_seg m ns fuel h.chain hf⟩

theorem validPos_mem {T A : Type} {m : Mem T} {l : Forward_list A} {ns : List (Nat × T)}
    (hwf : WF m l ns) {pos : iterator} (hv : ValidPos m l pos) :
    ∃ k : Nat, pos.ptr = (positions l ns)[k]? := by
  obtain ⟨j, hj⟩ := hv
  have := advance_position hwf j 0
  simp only [positions, List.getElem?_cons_zero, Nat.zero_add] at this
  rw [show (⟨some l.fakeNode⟩ : iterator) = l.before_begin from rfl, hj] at this
  refine ⟨j, ?_⟩
  simp only [Option.some.injEq] at this
  rw [this]
  rfl

/-- Every container reached by insertions and removals is well formed. -/
theorem Reachable.wf {T A : Type} {env : Env T A T} (hfr : env.Fresh) {m : Mem T}
    {l : Forward_list A} (h : Reachable env m l) : ∃ ns, WF m l ns := by
  induction h with
  | empty m self a =>
    exact ⟨[], by simp [Forward_list.default_ctor, headOr], trivial, by simp, rfl⟩
  | range m self xs a m2 l2 hret =>
    rcases range_ctor_cases env hfr m self xs a with
      ⟨m3, ns, hrun, hwf, _⟩ | ⟨k, e, m3, ns, _, _, _, hrun, _⟩ |
      ⟨k, e, m3, ns, q, _, _, _, hrun, _⟩
    · rw [hrun] at hret
      simp only [Outcome.ret.injEq, Prod.mk.injEq, and_true] at hret
      obtain ⟨rfl, rfl⟩ := hret
      exact ⟨ns, hwf⟩
    · rw [hrun] at hret; cases hret
    · rw [hrun] at hret; cases hret
  | ilist m self xs a m2 l2 hret =>
    rw [ilist_ctor_eq_range_ctor] at hret
    rcases range_ctor_cases env hfr m self xs a with
      ⟨m3, ns, hrun, hwf, _⟩ | ⟨k, e, m3, ns, _, _, _, hrun, _⟩ |
      ⟨k, e, m3, ns, q, _, _, _, hrun, _⟩
    · rw [hrun] at hret
      simp only [Outcome.ret.injEq, Prod.mk.injEq, and_true] at hret
      obtain ⟨rfl, rfl⟩ := hret
      exact ⟨ns, hwf⟩
    · rw [hrun] at hret; cases hret
    · rw [hrun] at hret; cases hret
  | insert m l pos args m2 l2 it _ hv hne hret ih =>
    obtain ⟨ns, hwf⟩ := ih
    obtain ⟨k, hk⟩ := validPos_mem hwf hv
    obtain ⟨ptr⟩ := pos
    simp only at hk hne
    cases hp : (positions l ns)[k]? with
    | none => rw [hp] at hk; exact absurd hk hne
    | some p =>
      rw [hp] at hk
      subst hk
      obtain ⟨_, hpe⟩ := positions_getElem? l ns k p hp
      have hwf2 : WF m l (ns.take k ++ ns.drop k) := by rw [List.take_append_drop]; exact hwf
      obtain ⟨c, hc, hn⟩ := hwf2.pos_cell_next
      rw [← hpe] at hc
      obtain ⟨h1, h2, h3⟩ := insert_after_failure env m l p c _ args hc hn
      cases hal : env.allocate l.alloc m with
      | error e => rw [h1 e hal] at hret; cases hret
      | ok q =>
        have hq := hfr _ _ _ hal
        cases hct : env.construct args with
        | error e =>
          cases he : e.isStdException with
          | true =>
            obtain ⟨m3, hrun, _⟩ := h2 q e hal hq hct he
            rw [hrun] at hret; cases hret
          | false =>
            obtain ⟨m3, hrun, _⟩ := h3 q e hal hq hct he
            rw [hrun] at hret; cases hret
        | ok v =>
          obtain ⟨m3, hrun, hwf3, _⟩ :=
            insert_after_split env m l (ns.take k) (ns.drop k) q args v hwf2 hal hq hct
          rw [← hpe, hret] at hrun
          simp only [Outcome.ret.injEq, Prod.mk.injEq] at hrun
          obtain ⟨⟨rfl, rfl⟩, _⟩ := hrun
          exact ⟨_, hwf3⟩
  | erase m l pos m2 l2 it _ hv hret ih =>
    obtain ⟨ns, hwf⟩ := ih
    obtain ⟨k, hk⟩ := validPos_mem hwf hv
    obtain ⟨ptr⟩ := pos
    simp only at hk
    cases hp : (positions l ns)[k]? with
    | none =>
      rw [hp] at hk
      subst hk
      simp only [Forward_list.erase_after, Outcome.ret.injEq, Prod.mk.injEq] at hret
      obtain ⟨⟨rfl, rfl⟩, _⟩ := hret
      exact ⟨ns, hwf⟩
    | some p =>
      rw [hp] at hk
      subst hk
      obtain ⟨hkle, hpe⟩ := positions_getElem? l ns k p hp
      rcases Nat.lt_or_ge k ns.length with hlt | hge
      · have hsplit : ns = ns.take k ++ (ns[k].1, ns[k].2) :: ns.drop (k + 1) := by
          conv_lhs => rw [← List.take_append_drop k ns, List.drop_eq_getElem_cons hlt]
        have hwf2 : WF m l (ns.take k ++ (ns[k].1, ns[k].2) :: ns.drop (k + 1)) := by
          rw [← hsplit]; exact hwf
        obtain ⟨m3, hrun, hwf3, _⟩ := erase_after_split m l _ _ _ _ hwf2
        rw [← hpe, hret] at hrun
        simp only [Outcome.ret.injEq, Prod.mk.injEq] at hrun
        obtain ⟨⟨rfl, rfl⟩, _⟩ := hrun
        exact ⟨_, hwf3⟩
      · have hk2 : k = ns.length := by omega
        subst hk2
        rw [List.take_length] at hpe
        subst hpe
        rw [erase_after_last m l ns hwf] at hret
        simp only [Outcome.ret.injEq, Prod.mk.injEq] at hret
        obtain ⟨⟨rfl, rfl⟩, _⟩ := hret
        exact ⟨ns, hwf⟩

/-- C13: for every container obtained from an empty, a range-constructed or a
list-constructed container by successful `insert_after` and `erase_after` calls at
valid positions, the allocator handing out storage not in use: `empty()` is true
exactly when the count is 0, and the iteration from `begin()` until the iterator
equals `end()` dereferences successfully at every step and takes exactly `sz`
steps. -/
theorem reachable_iteration {T A : Type} (env : Env T A T) (hfr : env.Fresh) (m : Mem T)
    (l : Forward_list A) (h : Reachable env m l) :
    (l.empty = true ↔ l.sz = 0) ∧
    ∃ it vs, l.begin m = some it ∧ traverse (l.sz + 1) m it = some vs ∧ vs.length = l.sz := by
  obtain ⟨ns, hwf⟩ := h.wf hfr
  refine ⟨by simp [Forward_list.empty], ?_⟩
  obtain ⟨it, hb, ht⟩ := traverse_of_WF hwf (l.sz + 1) (by rw [hwf.count]; omega)
  exact ⟨it, _, hb, ht, by rw [List.length_map, hwf.count]⟩

theorem reachable_iteration_witness :
    envOk.Fresh ∧
    Reachable envOk memReached ({ fakeNode := 0, sz := 2, alloc := 0 } : Forward_list Nat) ∧
    ((Forward_list.empty ({ fakeNode := 0, sz := 2, alloc := 0 } : Forward_list Nat) = true ↔
      ({ fakeNode := 0, sz := 2, alloc := 0 } : Forward_list Nat).sz = 0) ∧
    ∃ it vs, Forward_list.begin memReached
        ({ fakeNode := 0, sz := 2, alloc := 0 } : Forward_list Nat) = some it ∧
      traverse (({ fakeNode := 0, sz := 2, alloc := 0 } : Forward_list Nat).sz + 1)
        memReached it = some vs ∧
      vs.length = ({ fakeNode := 0, sz := 2, alloc := 0 } : Forward_list Nat).sz) :=
  have hr : Reachable envOk memReached ({ fakeNode := 0, sz := 2, alloc := 0 } :
      Forward_list Nat) :=
    Reachable.insert memBuilt { fakeNode := 0, sz := 1, alloc := 0 } ⟨some 1⟩ 7 memReached
      { fakeNode := 0, sz := 2, alloc := 0 } ⟨some 2⟩
      (Reachable.ilist [] 0 [1] 0 memBuilt { fakeNode := 0, sz := 1, alloc := 0 } rfl)
      ⟨1, rfl⟩ (by simp) rfl
  ⟨envOk_fresh, hr, reachable_iteration envOk envOk_fresh memReached _ hr⟩

/-! ## Teardown, the allocator of a copy, failures of the bulk constructors -/

/-- C16, where the code departs from the claim: the container reached by constructing
from `{1}`, `clear()` and `push_front(5)`, all three returning normally.  Its only
node refers to itself, because `clear()` left the sentinel's `next` in place, so the
destructor releases that node and then reads its `next` again: teardown has
undefined behaviour, for every fuel.  Teardown right after the construction releases
the node and the sentinel and leaves nothing allocated. -/
theorem teardown_after_clear_undefined :
    Forward_list.ilist_ctor envOk [] 0 [1] 0
      = .ret (memBuilt, { fakeNode := 0, sz := 1, alloc := 0 }) () ∧
    Forward_list.clear 1 memBuilt ({ fakeNode := 0, sz := 1, alloc := 0 } : Forward_list Nat)
      = .ret (memCleared, { fakeNode := 0, sz := 0, alloc := 0 }) () ∧
    Forward_list.push_front envOk memCleared { fakeNode := 0, sz := 0, alloc := 0 } 5
      = .ret (memPushed, { fakeNode := 0, sz := 1, alloc := 0 }) () ∧
    (∀ fuel, Forward_list.dtor (fuel + 1) memPushed
      ({ fakeNode := 0, sz := 1, alloc := 0 } : Forward_list Nat) = .ub) ∧
    Forward_list.dtor 1 memBuilt ({ fakeNode := 0, sz := 1, alloc := 0 } : Forward_list Nat)
      = .ret [] () := by
  refine ⟨rfl, rfl, rfl, ?_, rfl⟩
  intro fuel
  rfl

/-- C20, where the code departs from the claim: each bulk constructor when the
constructor of the element of index 1 throws an object that is not a
`std::exception`.  The `catch` clause does not match: the exception leaves the loop
with count 1, the `next` of the first node referring to the storage obtained for the
second, and that storage still allocated and holding no node; for the copy
constructor the teardown that follows has undefined behaviour.  When the object
thrown is a `std::exception` the storage is released, the link is absent and the
partial container is well formed with the first element and count 1. -/
theorem bulk_ctor_foreign_exception :
    Forward_list.ilist_ctor (envThrow 2 .foreign) [] 0 [1, 2, 3] 7
      = .throws (memBuildFailed, { fakeNode := 0, sz := 1, alloc := 7 }) .foreign ∧
    Forward_list.range_ctor (envThrow 2 .foreign) [] 0 [1, 2, 3] 7
      = .throws (memBuildFailed, { fakeNode := 0, sz := 1, alloc := 7 }) .foreign ∧
    readNext memBuildFailed (some 1) = some (some 2) ∧
    memBuildFailed.get 2 = some .raw ∧
    Forward_list.copy_ctor_body (envThrow 20 .foreign) 5 exMem2 9 exList
      = .throws (memCopyFailed, { fakeNode := 9, sz := 1, alloc := 0 }) .foreign ∧
    readNext memCopyFailed (some 10) = some (some 11) ∧
    memCopyFailed.get 11 = some .raw ∧
    Forward_list.copy_ctor (envThrow 20 .foreign) 5 exMem2 9 exList = .ub ∧
    Forward_list.ilist_ctor (envThrow 2 .std_other) [] 0 [1, 2, 3] 7
      = .throws (memBuildRolledBack, { fakeNode := 0, sz := 1, alloc := 7 }) .std_other ∧
    WF memBuildRolledBack ({ fakeNode := 0, sz := 1, alloc := 7 } : Forward_list Nat)
      [(1, 1)] ∧
    memBuildRolledBack.get 2 = none ∧
    Forward_list.copy_ctor (envThrow 20 .std_other) 5 exMem2 9 exList
      = .throws exMem2 .std_other := by
  refine ⟨rfl, rfl, rfl, rfl, rfl, rfl, rfl, rfl, rfl, ⟨rfl, ⟨rfl, trivial⟩, by decide, rfl⟩,
    rfl, rfl⟩

theorem linkNewNode_congr {T A Args : Type} (env env2 : Env T A Args) (al : A)
    (h1 : env2.allocate al = env.allocate al) (h2 : env2.construct = env.construct)
    (m : Mem T) (thisIter : Ptr) (elem : Mem T → Option Args) :
    linkNewNode env2 al m thisIter elem = linkNewNode env al m thisIter elem := by
  unfold linkNewNode
  rw [h1, h2]

theorem copyLoop_congr {T A : Type} (env env2 : Env T A T) (al : A)
    (h1 : env2.allocate al = env.allocate al) (h2 : env2.construct = env.construct)
    (fuel : Nat) :
    ∀ (m : Mem T) (thisIter otherIter : Ptr) (sz : Nat),
      copyLoop env2 al fuel m thisIter otherIter sz = copyLoop env al fuel m thisIter otherIter sz := by
  induction fuel with
  | zero => intro m thisIter otherIter sz; rfl
  | succ f ih =>
    intro m thisIter otherIter sz
    simp only [copyLoop, linkNewNode_congr env env2 al h1 h2, ih]

/-- C17 as amended: the copy constructor delegates to `Forward_list()`, so the
container it produces holds a default-constructed allocator, whatever allocator the
source holds, and the nodes of the copy are obtained from that default-constructed
allocator: the outcome of the copy construction is the same under any two
behaviours of the allocators that agree on the default-constructed one. -/
theorem copy_ctor_allocator {T A : Type} [Inhabited A] (env env2 : Env T A T) (fuel : Nat)
    (m : Mem T) (self : Nat) (other : Forward_list A)
    (h1 : env2.allocate default = env.allocate default)
    (h2 : env2.construct = env.construct) :
    Forward_list.copy_ctor env2 fuel m self other
      = Forward_list.copy_ctor env fuel m self other ∧
    ∀ m2 cp, Forward_list.copy_ctor env fuel m self other = .ret m2 cp →
      cp.alloc = default := by
  constructor
  · simp only [Forward_list.copy_ctor, Forward_list.copy_ctor_body, Forward_list.default_ctor,
      copyLoop_congr env env2 default h1 h2]
  · intro m2 cp h
    simp only [Forward_list.copy_ctor, Forward_list.copy_ctor_body,
      Forward_list.default_ctor] at h
    split at h
    · rename_i m1 l1 u hb
      split at hb
      · split at hb
        · cases hb
        · simp only [Outcome.ret.injEq, Prod.mk.injEq] at hb h
          obtain ⟨⟨_, rfl⟩, _⟩ := hb
          obtain ⟨_, rfl⟩ := h
          rfl
      · cases hb
      · cases hb
      · cases hb
    · split at h <;> cases h
    · cases h
    · cases h

theorem copy_ctor_allocator_witness :
    envOnlyDefault.allocate default = envOk.allocate default ∧
    envOnlyDefault.construct = envOk.construct ∧
    Forward_list.copy_ctor envOnlyDefault 5 exMem2 9 exListA
      = Forward_list.copy_ctor envOk 5 exMem2 9 exListA ∧
    Forward_list.copy_ctor envOk 5 exMem2 9 exListA
      = .ret memCopiedA { fakeNode := 9, sz := 1, alloc := 0 } ∧
    ({ fakeNode := 9, sz := 1, alloc := 0 } : Forward_list Nat).alloc = default :=
  ⟨rfl, rfl, (copy_ctor_allocator envOk envOnlyDefault 5 exMem2 9 exListA rfl rfl).1, rfl,
    (copy_ctor_allocator envOk envOnlyDefault 5 exMem2 9 exListA rfl rfl).2 _ _ rfl⟩

/-- C17 as stated fails: the source `exListA` holds the allocator 4, and no storage is
ever obtained from the allocator 4; yet its copy construction returns a container
that holds the allocator 0, the default-constructed one, with a node at address 10
for the value 30. -/
theorem copy_ctor_drops_allocator :
    exListA.alloc = 4 ∧ (default : Nat) = 0 ∧
    envOnlyDefault.allocate 4 = (fun _ => .error .bad_alloc) ∧
    Forward_list.copy_ctor envOnlyDefault 5 exMem2 9 exListA
      = .ret memCopiedA { fakeNode := 9, sz := 1, alloc := 0 } ∧
    memCopiedA.get 10 = some (.node none 30) ∧ exMem2.get 10 = none := by
  refine ⟨rfl, rfl, rfl, rfl, rfl, rfl⟩

/-! ## Borders -/

theorem Bord.zero (s : List Char) {n : Nat} (h : 0 < n) : Bord s n 0 :=
  ⟨h, fun t ht => absurd ht (Nat.not_lt_zero t)⟩

/-- A border of a border is a border. -/
theorem Bord.trans {s : List Char} {n k k2 : Nat} (h1 : Bord s n k) (h2 : Bord s k k2) :
    Bord s n k2 := by
  refine ⟨Nat.lt_trans h2.1 h1.1, ?_⟩
  intro t ht
  have e1 := h2.2 t ht
  have e2 := h1.2 (k - k2 + t) (by have := h2.1; omega)
  rw [e1, e2]
  congr 1
  have := h1.1; have := h2.1
  omega

/-- Of two borders the shorter is a border of the longer. -/
theorem Bord.of_lt {s : List Char} {n k k2 : Nat} (h1 : Bord s n k) (h2 : Bord s n k2)
    (hlt : k2 < k) : Bord s k k2 := by
  refine ⟨hlt, ?_⟩
  intro t ht
  have e1 := h2.2 t ht
  have e2 := h1.2 (k - k2 + t) (by omega)
  rw [e1, e2]
  congr 1
  have := h1.1
  omega

/-- A border of the first `n + 1` characters, shortened by one, is a border of the
first `n`, and the characters that follow the two agree; and conversely. -/
theorem Bord.succ_iff {s : List Char} {n k : Nat} :
    Bord s (n + 1) (k + 1) ↔ Bord s n k ∧ s[k]? = s[n]? := by
  constructor
  · intro h
    refine ⟨⟨by have := h.1; omega, ?_⟩, ?_⟩
    · intro t ht
      have := h.2 t (by omega)
      rw [this]
      congr 1
      have := h.1
      omega
    · have := h.2 k (by omega)
      rw [this]
      congr 1
      have := h.1
      omega
  · rintro ⟨h, he⟩
    refine ⟨by have := h.1; omega, ?_⟩
    intro t ht
    rcases Nat.lt_or_ge t k with hlt | hge
    · rw [h.2 t hlt]
      congr 1
      have := h.1
      omega
    · have : t = k := by omega
      subst this
      rw [he]
      congr 1
      have := h.1
      omega

theorem IsPi.one (s : List Char) : IsPi s 1 0 :=
  ⟨Bord.zero s (by decide), fun k hk => by have := hk.1; omega⟩

theorem exists_getElem?_of_lt {α : Type} {l : List α} {i : Nat} (h : i < l.length) :
    ∃ a, l[i]? = some a :=
  ⟨l[i], List.getElem?_eq_getElem h⟩

/-! ## The prefix table -/

/-- The `while` loop at index `i`, the table being filled below `i`: started at a
border `j` of the first `i` characters such that no longer border is followed by
`s[i]`, with more fuel than `j`, it returns, every access in bounds, a border `j2`
with the same property that is `0` or followed by `s[i]`. -/
theorem kmpWhile_spec (s : List Char) (pref : List Nat) (i : Nat) (hiN : i < s.length)
    (htab : Tab s pref i) :
    ∀ fuel j, j < fuel → Bord s i j → (∀ k, Bord s i k → j < k → s[k]? ≠ s[i]?) →
      ∃ j2, kmpWhile s pref i fuel j = .ret () j2 ∧ Bord s i j2 ∧
        (∀ k, Bord s i k → j2 < k → s[k]? ≠ s[i]?) ∧ (j2 = 0 ∨ s[j2]? = s[i]?) := by
  intro fuel
  induction fuel with
  | zero => intro j hj; omega
  | succ f ih =>
    intro j hj hb hmax
    by_cases hj0 : 0 < j
    · have hji : j < i := hb.1
      obtain ⟨a, ha⟩ := exists_getElem?_of_lt (show j < s.length by omega)
      obtain ⟨b, hbi⟩ := exists_getElem?_of_lt hiN
      by_cases hab : a = b
      · refine ⟨j, ?_, hb, hmax, Or.inr (by rw [ha, hbi, hab])⟩
        simp [kmpWhile, hj0, ha, hbi, hab]
      · obtain ⟨v, hv, hpi⟩ := htab.2 (j - 1) (by omega)
        have hj1 : j - 1 + 1 = j := by omega
        rw [hj1] at hpi
        have hvj : v < j := hpi.1.1
        obtain ⟨j2, hrun, h1, h2, h3⟩ := ih v (by omega) (hb.trans hpi.1) (by
          intro k hk hvk
          rcases Nat.lt_trichotomy k j with hlt | heq | hgt
          · have := hpi.2 k (hb.of_lt hk hlt)
            omega
          · subst heq
            rw [ha, hbi]
            simpa using hab
          · exact hmax k hk hgt)
        refine ⟨j2, ?_, h1, h2, h3⟩
        simp [kmpWhile, hj0, ha, hbi, hab, hv, hrun]
    · have : j = 0 := by omega
      subst this
      refine ⟨0, ?_, hb, hmax, Or.inl rfl⟩
      simp [kmpWhile]

/-- The body of the `for` loop at an index `i` in `[1, |s|)` that an `int` holds, the
table being filled below `i`, with fuel at least `i`: it returns, every access in
bounds, the table with the entry of index `i` set to the largest border length of
the first `i + 1` characters. -/
theorem kmpBody_spec (fuel : Nat) (s : List Char) (pref : List Nat) (i : Nat) (hi : 1 ≤ i)
    (hiN : i < s.length) (himax : i ≤ INT_MAX) (hf : i ≤ fuel) (htab : Tab s pref i) :
    ∃ v, kmpBody fuel s pref i = .ret () (pref.set i v) ∧ IsPi s (i + 1) v ∧
      Tab s (pref.set i v) (i + 1) := by
  obtain ⟨v0, hv0, hpi0⟩ := htab.2 (i - 1) (by omega)
  have hi1 : i - 1 + 1 = i := by omega
  rw [hi1] at hpi0
  have hv0i : v0 < i := hpi0.1.1
  obtain ⟨j, hrun, hb, hmax, hexit⟩ := kmpWhile_spec s pref i hiN htab fuel v0 (by omega)
    hpi0.1 (fun k hk hlt => by have := hpi0.2 k hk; omega)
  have hji : j < i := hb.1
  obtain ⟨a, ha⟩ := exists_getElem?_of_lt (show j < s.length by omega)
  obtain ⟨b, hbi⟩ := exists_getElem?_of_lt hiN
  have hlen : i < pref.length := by rw [htab.1]; exact hiN
  have htab2 : ∀ v, IsPi s (i + 1) v → Tab s (pref.set i v) (i + 1) := by
    intro v hv
    refine ⟨by rw [List.length_set]; exact htab.1, ?_⟩
    intro t ht
    rcases Nat.lt_or_ge t i with hlt | hge
    · obtain ⟨w, hw, hpw⟩ := htab.2 t hlt
      refine ⟨w, ?_, hpw⟩
      rw [List.getElem?_set_ne (by omega)]
      exact hw
    · have : t = i := by omega
      subst this
      exact ⟨v, List.getElem?_set_self hlen, hv⟩
  by_cases hab : a = b
  · have hpi : IsPi s (i + 1) (j + 1) := by
      refine ⟨Bord.succ_iff.mpr ⟨hb, by rw [ha, hbi, hab]⟩, ?_⟩
      intro k hk
      cases k with
      | zero => omega
      | succ k =>
        obtain ⟨hk1, hk2⟩ := Bord.succ_iff.mp hk
        by_contra hgt
        exact hmax k hk1 (by omega) hk2
    refine ⟨j + 1, ?_, hpi, htab2 _ hpi⟩
    have hnot : ¬ INT_MAX < j + 1 := by omega
    simp [kmpBody, hv0, hrun, ha, hbi, hab, hnot, hlen]
  · have hj0 : j = 0 := by
      rcases hexit with h | h
      · exact h
      · rw [ha, hbi] at h
        exact absurd (Option.some.inj h) hab
    subst hj0
    have hpi : IsPi s (i + 1) 0 := by
      refine ⟨Bord.zero s (by omega), ?_⟩
      intro k hk
      cases k with
      | zero => omega
      | succ k =>
        obtain ⟨hk1, hk2⟩ := Bord.succ_iff.mp hk
        exfalso
        cases k with
        | zero =>
          rw [ha, hbi] at hk2
          exact hab (Option.some.inj hk2)
        | succ k => exact hmax _ hk1 (by omega) hk2
    refine ⟨0, ?_, hpi, htab2 _ hpi⟩
    simp [kmpBody, hv0, hrun, ha, hbi, hab, hlen]

/-- The `for` loop from an index `i` that an `int` holds, the table being filled
below `i`, with fuel at least `|s|`: when `|s|` does not exceed `INT_MAX` it returns
the table filled throughout; when `|s|` exceeds `INT_MAX` the counter overflows and
the behaviour is undefined. -/
theorem kmpFor_spec (fuel : Nat) (s : List Char) (hf : s.length ≤ fuel) :
    ∀ (len i : Nat) (pref : List Nat), 1 ≤ i → i ≤ INT_MAX → i + len = s.length →
      Tab s pref i →
      (s.length ≤ INT_MAX → ∃ pref2, kmpFor fuel s (List.range' i len) pref = .ret () pref2 ∧
        Tab s pref2 s.length) ∧
      (INT_MAX < s.length → kmpFor fuel s (List.range' i len) pref = .ub) := by
  intro len
  induction len with
  | zero =>
    intro i pref _ himax hlen htab
    have : i = s.length := by omega
    subst this
    exact ⟨fun _ => ⟨pref, rfl, htab⟩, fun h => by omega⟩
  | succ len ih =>
    intro i pref hi himax hlen htab
    obtain ⟨v, hrun, _, htab2⟩ := kmpBody_spec fuel s pref i hi (by omega) himax (by omega) htab
    rw [List.range'_succ]
    by_cases hov : INT_MAX < i + 1
    · refine ⟨fun h => by omega, fun _ => ?_⟩
      simp [kmpFor, hrun, hov]
    · obtain ⟨h1, h2⟩ := ih (i + 1) (pref.set i v) (by omega) (by omega) (by omega) htab2
      refine ⟨fun h => ?_, fun h => ?_⟩
      · obtain ⟨pref2, hr, ht⟩ := h1 h
        exact ⟨pref2, by simp [kmpFor, hrun, hov, hr], ht⟩
      · simp [kmpFor, hrun, hov, h2 h]

/-- The table of `KMP` over a nonempty `s`, with fuel at least `|s|`: when `|s|` does
not exceed `INT_MAX` it is returned filled throughout; when `|s|` exceeds `INT_MAX`
the behaviour is undefined. -/
theorem prefTable_spec (fuel : Nat) (s : List Char) (hf : s.length ≤ fuel)
    (hpos : 0 < s.length) :
    (s.length ≤ INT_MAX → ∃ pref, prefTable fuel s = .ret () pref ∧ Tab s pref s.length) ∧
    (INT_MAX < s.length → prefTable fuel s = .ub) := by
  have htab : Tab s ((List.replicate s.length 0).set 0 0) 1 := by
    refine ⟨by simp, ?_⟩
    intro t ht
    have : t = 0 := by omega
    subst this
    exact ⟨0, List.getElem?_set_self (by simpa using hpos), IsPi.one s⟩
  have h1 : 1 ≤ INT_MAX := by unfold INT_MAX; omega
  obtain ⟨ha, hb⟩ := kmpFor_spec fuel s hf (s.length - 1) 1 _ (Nat.le_refl 1) h1 (by omega) htab
  simp only [prefTable, hpos, if_true]
  exact ⟨ha, hb⟩

/-- The index-wise reading of a border agrees with the one by prefix and suffix. -/
theorem isBorder_iff_bord (s : List Char) (n k : Nat) (hn : n ≤ s.length) :
    IsBorder s n k ↔ Bord s n k := by
  unfold IsBorder Bord
  constructor
  · rintro ⟨hk, hsuf⟩
    refine ⟨hk, ?_⟩
    intro t ht
    rw [List.suffix_iff_eq_drop] at hsuf
    have hlen : (List.take n s).length - (List.take k (List.take n s)).length = n - k := by
      simp only [List.length_take]
      omega
    rw [hlen] at hsuf
    have := congrArg (fun l => l[t]?) hsuf
    simp only [List.getElem?_take, List.getElem?_drop] at this
    rw [if_pos ht, if_pos (by omega), if_pos (by omega)] at this
    exact this
  · rintro ⟨hk, hidx⟩
    refine ⟨hk, ?_⟩
    rw [List.suffix_iff_eq_drop]
    have hlen : (List.take n s).length - (List.take k (List.take n s)).length = n - k := by
      simp only [List.length_take]
      omega
    rw [hlen]
    apply List.ext_getElem?
    intro t
    simp only [List.getElem?_take, List.getElem?_drop]
    by_cases ht : t < k
    · rw [if_pos ht, if_pos (by omega), if_pos (by omega)]
      exact hidx t ht
    · rw [if_neg ht, if_neg (by omega)]

theorem longestBorder_iff_isPi (s : List Char) (n v : Nat) (hn : n ≤ s.length) :
    LongestBorder s n v ↔ IsPi s n v := by
  unfold LongestBorder IsPi
  rw [isBorder_iff_bord s n v hn]
  constructor
  · rintro ⟨h1, h2⟩
    exact ⟨h1, fun k hk => h2 k ((isBorder_iff_bord s n k hn).mpr hk)⟩
  · rintro ⟨h1, h2⟩
    exact ⟨h1, fun k hk => h2 k ((isBorder_iff_bord s n k hn).mp hk)⟩

/-! ## The search -/

theorem infix_iff_occursAt (text pattern : List Char) :
    pattern <:+: text ↔ ∃ o, OccursAt text pattern o := by
  constructor
  · rintro ⟨a, b, rfl⟩
    refine ⟨a.length, by simp, ?_⟩
    intro u hu
    rw [List.append_assoc, List.getElem?_append_right (by omega)]
    rw [show a.length + u - a.length = u by omega, List.getElem?_append_left hu]
  · rintro ⟨o, ho, hidx⟩
    have : pattern = (text.drop o).take pattern.length := by
      apply List.ext_getElem?
      intro u
      rw [List.getElem?_take, List.getElem?_drop]
      by_cases hu : u < pattern.length
      · rw [if_pos hu, hidx u hu]
      · rw [if_neg hu, List.getElem?_eq_none (by omega)]
    rw [this]
    exact ((List.take_prefix _ _).isInfix).trans (List.drop_suffix _ _).isInfix

theorem sep_getElem?_left (text pattern : List Char) {u : Nat} (hu : u < pattern.length) :
    (pattern ++ '#' :: text)[u]? = pattern[u]? :=
  List.getElem?_append_left hu

theorem sep_getElem?_sep (text pattern : List Char) :
    (pattern ++ '#' :: text)[pattern.length]? = some '#' := by
  rw [List.getElem?_append_right (Nat.le_refl _)]
  simp

theorem sep_getElem?_right (text pattern : List Char) (u : Nat) :
    (pattern ++ '#' :: text)[pattern.length + 1 + u]? = text[u]? := by
  rw [List.getElem?_append_right (by omega)]
  rw [show pattern.length + 1 + u - pattern.length = u + 1 by omega]
  simp

/-- A window of the size of the pattern that equals the pattern and starts after
index 0 of `s` does not start within the pattern or at the separator, when the
pattern does not contain the separator. -/
theorem window_after_sep (text pattern : List Char) (hsep : '#' ∉ pattern) (a : Nat)
    (ha : 1 ≤ a)
    (hwin : ∀ u, u < pattern.length →
      (pattern ++ '#' :: text)[u]? = (pattern ++ '#' :: text)[a + u]?) :
    pattern.length + 1 ≤ a := by
  by_contra hlt
  have hu : pattern.length - a < pattern.length := by omega
  have h1 := hwin (pattern.length - a) hu
  rw [show a + (pattern.length - a) = pattern.length by omega, sep_getElem?_sep,
    sep_getElem?_left text pattern hu] at h1
  exact hsep (List.mem_iff_getElem?.mpr ⟨_, h1⟩)

theorem sep_length (text pattern : List Char) :
    (pattern ++ '#' :: text).length = pattern.length + 1 + text.length := by
  simp only [List.length_append, List.length_cons]
  omega

/-- With a pattern that does not contain the separator, some prefix of `s` has the
size of the pattern as its largest border length exactly when the pattern occurs in
the text. -/
theorem exists_pi_iff_occurs (text pattern : List Char) (hsep : '#' ∉ pattern) :
    (∃ i, i < (pattern ++ '#' :: text).length ∧
      IsPi (pattern ++ '#' :: text) (i + 1) pattern.length) ↔
    ∃ o, OccursAt text pattern o := by
  have hN := sep_length text pattern
  constructor
  · rintro ⟨i, hi, hpi⟩
    obtain ⟨hPi, hwin⟩ := hpi.1
    have ha := window_after_sep text pattern hsep (i + 1 - pattern.length) (by omega) hwin
    refine ⟨i + 1 - pattern.length - (pattern.length + 1), by omega, ?_⟩
    intro u hu
    rw [← sep_getElem?_right text pattern, ← sep_getElem?_left text pattern hu, hwin u hu]
    congr 1
    omega
  · intro h
    obtain ⟨o, ho, hmin⟩ : ∃ o, OccursAt text pattern o ∧
        ∀ o2, o2 < o → ¬ OccursAt text pattern o2 := by
      classical
      exact ⟨Nat.find h, Nat.find_spec h, fun o2 h2 => Nat.find_min h h2⟩
    obtain ⟨hob, hoidx⟩ := ho
    refine ⟨2 * pattern.length + o, by omega, ⟨by omega, ?_⟩, ?_⟩
    · intro u hu
      rw [sep_getElem?_left text pattern hu, ← hoidx u hu, ← sep_getElem?_right text pattern]
      congr 1
      omega
    · intro k hk
      by_contra hgt
      obtain ⟨hki, hwin⟩ := hk
      have hwin2 : ∀ u, u < pattern.length → (pattern ++ '#' :: text)[u]?
          = (pattern ++ '#' :: text)[2 * pattern.length + o + 1 - k + u]? :=
        fun u hu => hwin u (by omega)
      have ha := window_after_sep text pattern hsep (2 * pattern.length + o + 1 - k)
        (by omega) hwin2
      refine hmin (2 * pattern.length + o + 1 - k - (pattern.length + 1)) (by omega)
        ⟨by omega, ?_⟩
      intro u hu
      rw [← sep_getElem?_right text pattern, ← sep_getElem?_left text pattern hu, hwin2 u hu]
      congr 1
      omega

theorem IsPi.unique {s : List Char} {n v w : Nat} (h1 : IsPi s n v) (h2 : IsPi s n w) :
    v = w :=
  Nat.le_antisymm (h2.2 v h1.1) (h1.2 w h2.1)

/-- The search, for a pattern that does not contain the separator and a combined
size that an `int` holds, with fuel at least that size: `KMP` returns, and it
returns true exactly when the pattern occurs in the text. -/
theorem KMP_search (fuel : Nat) (text pattern : List Char) (hsep : '#' ∉ pattern)
    (hlen : pattern.length + 1 + text.length ≤ INT_MAX)
    (hf : pattern.length + 1 + text.length ≤ fuel) :
    ∃ b, KMP fuel text pattern = .ret () b ∧ (b = true ↔ pattern <:+: text) := by
  have hN := sep_length text pattern
  obtain ⟨pref, hrun, htab⟩ := (prefTable_spec fuel (pattern ++ '#' :: text) (by omega)
    (by omega)).1 (by omega)
  refine ⟨pref.any (fun p => p == pattern.length), by simp only [KMP, hrun], ?_⟩
  rw [infix_iff_occursAt, ← exists_pi_iff_occurs text pattern hsep, List.any_eq_true]
  constructor
  · rintro ⟨x, hx, hxp⟩
    have hxp : x = pattern.length := by simpa using hxp
    subst hxp
    obtain ⟨i, hi⟩ := List.mem_iff_getElem?.mp hx
    have hilt : i < pref.length := by
      by_contra hge
      rw [List.getElem?_eq_none (by omega)] at hi
      cases hi
    rw [htab.1] at hilt
    obtain ⟨v, hv, hpi⟩ := htab.2 i hilt
    rw [hi] at hv
    cases hv
    exact ⟨i, hilt, hpi⟩
  · rintro ⟨i, hi, hpi⟩
    obtain ⟨v, hv, hpv⟩ := htab.2 i hi
    have := hpv.unique hpi
    subst this
    exact ⟨_, List.mem_iff_getElem?.mpr ⟨i, hv⟩, by simp⟩

/-- When the combined size exceeds `INT_MAX` the loop counter of `KMP` overflows: the
behaviour is undefined. -/
theorem KMP_overflow (fuel : Nat) (text pattern : List Char)
    (hlen : INT_MAX < pattern.length + 1 + text.length)
    (hf : pattern.length + 1 + text.length ≤ fuel) :
    prefTable fuel (pattern ++ '#' :: text) = .ub ∧ KMP fuel text pattern = .ub := by
  have hN := sep_length text pattern
  have h := (prefTable_spec fuel (pattern ++ '#' :: text) (by omega) (by omega)).2 (by omega)
  exact ⟨h, by simp only [KMP, h]⟩

/-! ## The claims on the search -/

/-- C18 as amended: for every text and pattern whose combined size
`|pattern| + 1 + |text|` is at most `INT_MAX`, with `s` the pattern, `'#'`, then the
text, and fuel at least `|s|`, the computation of the table returns a table of the
size of `s`, every access in bounds and every `while` loop ending; for every index
`i` below `|s|` the entry `pref[i]` is the length of the longest proper prefix of the
first `i + 1` characters of `s` that is also a suffix of them, and it is at most
`i`. -/
theorem prefTable_correct (fuel : Nat) (text pattern : List Char)
    (hlen : pattern.length + 1 + text.length ≤ INT_MAX)
    (hf : pattern.length + 1 + text.length ≤ fuel) :
    ∃ pref, prefTable fuel (pattern ++ '#' :: text) = .ret () pref ∧
      pref.length = (pattern ++ '#' :: text).length ∧
      ∀ i, i < (pattern ++ '#' :: text).length →
        ∃ v, pref[i]? = some v ∧ LongestBorder (pattern ++ '#' :: text) (i + 1) v ∧ v ≤ i := by
  have hN := sep_length text pattern
  obtain ⟨pref, hrun, htab⟩ := (prefTable_spec fuel (pattern ++ '#' :: text) (by omega)
    (by omega)).1 (by omega)
  refine ⟨pref, hrun, htab.1, ?_⟩
  intro i hi
  obtain ⟨v, hv, hpi⟩ := htab.2 i hi
  refine ⟨v, hv, (longestBorder_iff_isPi _ _ _ (by omega)).mpr hpi, ?_⟩
  have := hpi.1.1
  omega

theorem prefTable_correct_witness :
    ['a', 'b', 'a'].length + 1 + ['a', 'b', 'a', 'b', 'a'].length ≤ INT_MAX ∧
    ['a', 'b', 'a'].length + 1 + ['a', 'b', 'a', 'b', 'a'].length ≤ 9 ∧
    ∃ pref, prefTable 9 (['a', 'b', 'a'] ++ '#' :: ['a', 'b', 'a', 'b', 'a']) = .ret () pref ∧
      pref.length = (['a', 'b', 'a'] ++ '#' :: ['a', 'b', 'a', 'b', 'a']).length ∧
      ∀ i, i < (['a', 'b', 'a'] ++ '#' :: ['a', 'b', 'a', 'b', 'a']).length →
        ∃ v, pref[i]? = some v ∧
          LongestBorder (['a', 'b', 'a'] ++ '#' :: ['a', 'b', 'a', 'b', 'a']) (i + 1) v ∧
          v ≤ i :=
  ⟨by decide, by decide,
    prefTable_correct 9 ['a', 'b', 'a', 'b', 'a'] ['a', 'b', 'a'] (by decide) (by decide)⟩

/-- C18 as stated fails: for the pattern `a` and the text of 2147483647 characters
`a`, the size of `s` is `2 ^ 31 + 1`, the `int` counter of the `for` loop overflows
at `++i` from `INT_MAX`, and the computation of the table has undefined behaviour. -/
theorem prefTable_int_overflow :
    (['a'] ++ '#' :: List.replicate 2147483647 'a').length = 2147483649 ∧
    INT_MAX = 2147483647 ∧
    prefTable 2147483649 (['a'] ++ '#' :: List.replicate 2147483647 'a') = .ub := by
  refine ⟨?_, by decide, ?_⟩
  · rw [List.length_append, List.length_cons, List.length_cons, List.length_nil,
      List.length_replicate]
  · refine (KMP_overflow 2147483649 (List.replicate 2147483647 'a') ['a'] ?_ ?_).1
    · rw [List.length_replicate]
      decide
    · rw [List.length_replicate]
      decide

/-- C14 as amended: for every text and every pattern that does not contain `'#'`
(the text may contain it, either may be empty), with `|pattern| + 1 + |text|` at most
`INT_MAX` and fuel at least that size, `KMP(text, pattern)` returns, and it returns
true if and only if the pattern occurs as a contiguous substring of the text; when
the pattern is longer than the text the result is false; and
`KMP("abxabcabcaby", "abcaby")` is true, `KMP("aaaa", "ab")` is false,
`KMP("", "")` is true. -/
theorem KMP_spec (fuel : Nat) (text pattern : List Char) (hsep : '#' ∉ pattern)
    (hlen : pattern.length + 1 + text.length ≤ INT_MAX)
    (hf : pattern.length + 1 + text.length ≤ fuel) :
    (∃ b, KMP fuel text pattern = .ret () b ∧ (b = true ↔ pattern <:+: text) ∧
      (text.length < pattern.length → b = false)) ∧
    KMP 19 ['a', 'b', 'x', 'a', 'b', 'c', 'a', 'b', 'c', 'a', 'b', 'y']
      ['a', 'b', 'c', 'a', 'b', 'y'] = .ret () true ∧
    KMP 7 ['a', 'a', 'a', 'a'] ['a', 'b'] = .ret () false ∧
    KMP 1 [] [] = .ret () true := by
  refine ⟨?_, rfl, rfl, rfl⟩
  obtain ⟨b, hrun, hb⟩ := KMP_search fuel text pattern hsep hlen hf
  refine ⟨b, hrun, hb, ?_⟩
  intro hlt
  cases hbv : b with
  | false => rfl
  | true =>
    have hinf := hb.mp hbv
    have := hinf.length_le
    omega

theorem KMP_spec_witness :
    '#' ∉ ['b', 'c'] ∧
    ['b', 'c'].length + 1 + ['a', '#', 'b', 'c'].length ≤ INT_MAX ∧
    ['b', 'c'].length + 1 + ['a', '#', 'b', 'c'].length ≤ 7 ∧
    ((∃ b, KMP 7 ['a', '#', 'b', 'c'] ['b', 'c'] = .ret () b ∧
        (b = true ↔ ['b', 'c'] <:+: ['a', '#', 'b', 'c']) ∧
        (['a', '#', 'b', 'c'].length < ['b', 'c'].length → b = false)) ∧
      KMP 19 ['a', 'b', 'x', 'a', 'b', 'c', 'a', 'b', 'c', 'a', 'b', 'y']
        ['a', 'b', 'c', 'a', 'b', 'y'] = .ret () true ∧
      KMP 7 ['a', 'a', 'a', 'a'] ['a', 'b'] = .ret () false ∧
      KMP 1 [] [] = .ret () true) :=
  ⟨by decide, by decide, by decide,
    KMP_spec 7 ['a', '#', 'b', 'c'] ['b', 'c'] (by decide) (by decide) (by decide)⟩

/-- C14 as stated fails: the pattern `#` does not occur in the text `abc`, and
`KMP("abc", "#")` returns true: `s` is `##abc`, its table is `0, 1, 0, 0, 0`, and the
entry `1` equals the size of the pattern. -/
theorem KMP_separator_in_pattern :
    prefTable 5 (['#'] ++ '#' :: ['a', 'b', 'c']) = .ret () [0, 1, 0, 0, 0] ∧
    KMP 5 ['a', 'b', 'c'] ['#'] = .ret () true ∧
    ¬ (['#'] <:+: ['a', 'b', 'c']) := by
  refine ⟨rfl, rfl, by decide⟩

/-- C15 as amended: for every text and pattern in which `'#'` occurs in neither, with
`|pattern| + 1 + |text|` at most `INT_MAX` and fuel at least that size,
`KMP(text, pattern)` returns, and it returns true if and only if the pattern occurs as
a contiguous substring of the text; for the empty pattern it returns true. -/
theorem KMP_separator_free (fuel : Nat) (text pattern : List Char) (htext : '#' ∉ text)
    (hpat : '#' ∉ pattern) (hlen : pattern.length + 1 + text.length ≤ INT_MAX)
    (hf : pattern.length + 1 + text.length ≤ fuel) :
    '#' ∉ pattern ++ text ∧
    ∃ b, KMP fuel text pattern = .ret () b ∧ (b = true ↔ pattern <:+: text) ∧
      (pattern = [] → b = true) := by
  refine ⟨?_, ?_⟩
  · intro h
    rcases List.mem_append.1 h with h | h
    · exact hpat h
    · exact htext h
  · obtain ⟨b, hrun, hb⟩ := KMP_search fuel text pattern hpat hlen hf
    refine ⟨b, hrun, hb, ?_⟩
    intro hp
    subst hp
    exact hb.mpr List.nil_infix

theorem KMP_separator_free_witness :
    '#' ∉ ['a', 'b', 'x', 'a', 'b', 'c'] ∧ '#' ∉ ['a', 'b', 'c'] ∧
    ['a', 'b', 'c'].length + 1 + ['a', 'b', 'x', 'a', 'b', 'c'].length ≤ INT_MAX ∧
    ['a', 'b', 'c'].length + 1 + ['a', 'b', 'x', 'a', 'b', 'c'].length ≤ 10 ∧
    ('#' ∉ ['a', 'b', 'c'] ++ ['a', 'b', 'x', 'a', 'b', 'c'] ∧
      ∃ b, KMP 10 ['a', 'b', 'x', 'a', 'b', 'c'] ['a', 'b', 'c'] = .ret () b ∧
        (b = true ↔ ['a', 'b', 'c'] <:+: ['a', 'b', 'x', 'a', 'b', 'c']) ∧
        (['a', 'b', 'c'] = [] → b = true)) :=
  ⟨by decide, by decide, by decide, by decide,
    KMP_separator_free 10 ['a', 'b', 'x', 'a', 'b', 'c'] ['a', 'b', 'c'] (by decide)
      (by decide) (by decide) (by decide)⟩

/-- C15 as stated fails: `'#'` occurs neither in the pattern `b` nor in the text of
2147483647 characters `a` followed by `b`, the pattern occurs in the text, and the
size of `s` exceeds `INT_MAX`, so that the `int` counter of the `for` loop overflows
and `KMP` has undefined behaviour instead of returning true. -/
theorem KMP_int_overflow :
    '#' ∉ ['b'] ∧ '#' ∉ List.replicate 2147483647 'a' ++ ['b'] ∧
    ['b'] <:+: List.replicate 2147483647 'a' ++ ['b'] ∧
    KMP 2147483650 (List.replicate 2147483647 'a' ++ ['b']) ['b'] = .ub := by
  refine ⟨by decide, ?_, (List.suffix_append _ _).isInfix, ?_⟩
  · intro h
    rcases List.mem_append.1 h with h | h
    · exact absurd (List.eq_of_mem_replicate h) (by decide)
    · exact absurd (List.mem_singleton.1 h) (by decide)
  · refine (KMP_overflow 2147483650 (List.replicate 2147483647 'a' ++ ['b']) ['b'] ?_ ?_).2
    · rw [List.length_append, List.length_replicate]
      decide
    · rw [List.length_append, List.length_replicate]
      decide

/-! ## A copy after `clear()` -/

/-- C8, where the code departs from the claim: the source `exListA` holds 30 and is
copied to `cp` at address 9; both are well formed and share no position.  Then
`cp.clear()` returns with count 0 and leaves the `next` of the sentinel of `cp` at
the released node, address 10; `push_front(9)` on the source returns, the allocator
handing that storage out again, and the source shows 9, 30 with count 2;
`cp.pop_front()` returns, having destroyed and released the node at address 10,
which is the first node of the source: the `next` of the sentinel of the source
refers to released storage, `print()` on the source is undefined, and `cp` shows 30,
the second node of the source, with count `SIZE_MAX`.  A mutation of the copy has
changed the source. -/
theorem copy_shares_node_after_clear :
    WF exMem2 exListA [(6, 30)] ∧
    Forward_list.copy_ctor envOk 3 exMem2 9 exListA
      = .ret memCopiedA { fakeNode := 9, sz := 1, alloc := 0 } ∧
    WF memCopiedA ({ fakeNode := 9, sz := 1, alloc := 0 } : Forward_list Nat) [(10, 30)] ∧
    WF memCopiedA exListA [(6, 30)] ∧
    Forward_list.clear 3 memCopiedA ({ fakeNode := 9, sz := 1, alloc := 0 } : Forward_list Nat)
      = .ret (memCopyCleared, { fakeNode := 9, sz := 0, alloc := 0 }) () ∧
    readNext memCopyCleared (some 9) = some (some 10) ∧ memCopyCleared.get 10 = none ∧
    exListA.push_front envOk memCopyCleared 9
      = .ret (memSourcePushed, { fakeNode := 5, sz := 2, alloc := 4 }) () ∧
    WF memSourcePushed ({ fakeNode := 5, sz := 2, alloc := 4 } : Forward_list Nat)
      [(10, 9), (6, 30)] ∧
    Forward_list.print 5 memSourcePushed ({ fakeNode := 5, sz := 2, alloc := 4 } : Forward_list Nat)
      = some (2, [9, 30]) ∧
    Forward_list.pop_front memSourcePushed ({ fakeNode := 9, sz := 0, alloc := 0 } : Forward_list Nat)
      = .ret (memCopyPopped, { fakeNode := 9, sz := SIZE_MAX, alloc := 0 }) () ∧
    readNext memCopyPopped (some 5) = some (some 10) ∧ memCopyPopped.get 10 = none ∧
    Forward_list.print 5 memCopyPopped ({ fakeNode := 5, sz := 2, alloc := 4 } : Forward_list Nat)
      = none ∧
    Forward_list.print 5 memCopyPopped
        ({ fakeNode := 9, sz := SIZE_MAX, alloc := 0 } : Forward_list Nat)
      = some (SIZE_MAX, [30]) := by
  refine ⟨⟨rfl, ⟨rfl, trivial⟩, by decide, rfl⟩, rfl, ⟨rfl, ⟨rfl, trivial⟩, by decide, rfl⟩,
    ⟨rfl, ⟨rfl, trivial⟩, by decide, rfl⟩, rfl, rfl, rfl, rfl,
    ⟨rfl, ⟨rfl, rfl, trivial⟩, by decide, rfl⟩, rfl, rfl, rfl, rfl, rfl, rfl⟩

/-! ## Failure of the internal copy of an assignment -/

end FwdList
